import Mathlib

/-!
# EepromFS: a shallow embedding of `eepromFS.c`

The C file keeps its whole state in globals: the EEPROM itself (reached through
`eeprom_read_byte`, `eeprom_update_byte`, `eeprom_read_block`,
`eeprom_update_block` of avr-libc), the bitmap mirror `blocks`, the pointer table
mirror `filePtrs`, the three handle tables and the variable `FILEPTRINDEX`.
Here they are the fields of one record `FS` that every function takes and gives
back.

Conventions of the embedding.

* Memory is a total map `Nat → Nat`; an EEPROM cell is read as a byte (`% 256`).  Indices
  past the end of a C array, and EEPROM addresses past `EEPROMSIZE`, are further
  cells of the same map (C leaves such accesses undefined).
* `uint8_t` arithmetic is `Nat` arithmetic followed by `% 256`, `uint16_t`
  arithmetic by `% 65536` (the target is AVR: `int` has 16 bits).
* A `while` loop whose trip count depends on the device is a function that is
  structurally recursive on a fuel argument and returns `none` when the fuel is
  used up before the loop leaves.
-/

namespace EepromFS

/-! ## Constants (lines 3-25) -/

def INUSE : Nat := 0
def ISLEN : Nat := 128
def NULLPTR : Nat := 255
def MAXFILES : Nat := 61
def FILEREAD : Nat := 2
def FILEWRITE : Nat := 1
def FILECLOSED : Nat := 0

def FILEALREADYOPEN : Int := -1
def FILEDOESNTEXIST : Int := -2
def WRONGFILEIOTYPE : Int := -3
def INVALIDACCESSHANDLE : Int := -4
def OUTOFSPACE : Int := -5

def BLOCKSIZE : Nat := 32
def NEXTBLOCKPTR : Nat := 31
def EEPROMSIZE : Nat := 2048
def BLOCKINDEX : Nat := 1
def CONFIGUREINDEX : Nat := 0
def FILEMEMORYAVAILABLE : Nat := 2048 - 64 - 32
def FILEINDEX : Nat := 32 + 64
def NUMBLOCKBYTES : Nat := (2048 - 64 - 32) / 32 / 8
def NUMFILEPTRBYTES : Nat := (2048 - 64 - 32) / 32

/-! ## State -/

/-- A memory: cells indexed by natural numbers. -/
abbrev Mem := Nat → Nat

/-- One cell of a memory replaced. -/
def upd (m : Mem) (a v : Nat) : Mem := fun x => if x = a then v else m x

/-- The globals of `eepromFS.c` together with the EEPROM. -/
structure FS where
  eeprom : Mem
  FILEPTRINDEX : Nat
  blocks : Mem
  filePtrs : Mem
  fileAccess : Mem
  filePosition : Mem
  fileBlock : Mem

/-- Addresses of C objects that `setupEeprom` passes where an EEPROM address is
expected, and the RAM it reads where a RAM pointer is expected. -/
structure Layout where
  ram : Mem
  blocksAddr : Nat
  filePtrsAddr : Nat

/-! ## The EEPROM driver (avr-libc) -/

/-- `eeprom_read_byte(addr)`. -/
def eeprom_read_byte (e : Mem) (addr : Nat) : Nat := e addr % 256

/-- `eeprom_update_byte(addr, value)`. -/
def eeprom_update_byte (e : Mem) (addr value : Nat) : Mem := upd e addr value

/-- `eeprom_update_block(src, dst, n)`: `n` bytes of RAM at `src` go to EEPROM
address `dst`. -/
def eeprom_update_block (src : Mem) (dst n : Nat) (e : Mem) : Mem :=
  fun a => if dst ≤ a ∧ a < dst + n then src (a - dst) else e a

/-- `eeprom_read_block(dst, src, n)`: `n` bytes of EEPROM at `src` go to the RAM
buffer `buf` from index `dst` on. -/
def eeprom_read_block (buf : Mem) (dst : Nat) (src n : Nat) (e : Mem) : Mem :=
  fun k => if dst ≤ k ∧ k < dst + n then e (src + (k - dst)) % 256 else buf k

/-! ## Mount and format (lines 55-106) -/

/-- `setupEeprom`.  Both block updates are called as
`eeprom_update_block((void*)BLOCKINDEX, blocks, n)`: the first argument of
avr-libc's function is the RAM source, the second the EEPROM destination. -/
def setupEeprom (l : Layout) (st : FS) : FS :=
  let e0 := eeprom_update_byte st.eeprom CONFIGUREINDEX (NUMBLOCKBYTES ^^^ 0xA1)
  let blocks : Mem := fun i => if i < NUMBLOCKBYTES then 255 else st.blocks i
  let filePtrs : Mem := fun i => if i < NUMFILEPTRBYTES then 255 else st.filePtrs i
  let e1 := eeprom_update_block (fun k => l.ram (BLOCKINDEX + k)) l.blocksAddr NUMBLOCKBYTES e0
  let e2 := eeprom_update_block (fun k => l.ram (st.FILEPTRINDEX + k)) l.filePtrsAddr
    NUMFILEPTRBYTES e1
  { st with eeprom := e2, blocks := blocks, filePtrs := filePtrs }

/-- `initEepfs`. -/
def initEepfs (l : Layout) (st : FS) : FS :=
  let st0 := { st with FILEPTRINDEX := BLOCKINDEX + NUMBLOCKBYTES }
  let configured := eeprom_read_byte st0.eeprom CONFIGUREINDEX
  let st1 :=
    if configured ≠ (NUMBLOCKBYTES ^^^ 0xA1) then setupEeprom l st0
    else
      { st0 with
        blocks := fun i =>
          if i < NUMBLOCKBYTES then eeprom_read_byte st0.eeprom (BLOCKINDEX + i)
          else st0.blocks i
        filePtrs := fun i =>
          if i < NUMFILEPTRBYTES then eeprom_read_byte st0.eeprom (st0.FILEPTRINDEX + i)
          else st0.filePtrs i }
  { st1 with
    fileAccess := fun i => if i < NUMFILEPTRBYTES then FILECLOSED else st1.fileAccess i
    filePosition := fun i => if i < NUMFILEPTRBYTES then 0 else st1.filePosition i
    fileBlock := fun i => if i < NUMFILEPTRBYTES then NULLPTR else st1.fileBlock i }

/-- The globals at program start (zero-initialised statics) over a device. -/
def boot (e : Mem) : FS :=
  { eeprom := e, FILEPTRINDEX := 0, blocks := fun _ => 0, filePtrs := fun _ => 0,
    fileAccess := fun _ => 0, filePosition := fun _ => 0, fileBlock := fun _ => 0 }

/-! ## Bitmap and pointer table (lines 108-181) -/

/-- `isInUse(block)`. -/
def isInUse (st : FS) (block : Nat) : Bool :=
  let index := block >>> 3
  let bit := block &&& 7
  (st.blocks index &&& ((1 <<< bit) % 256)) == INUSE

/-- `setInUse(block, inUse)`; `inUse` is the C truth value. -/
def setInUse (st : FS) (block : Nat) (inUse : Bool) : FS :=
  let index := block >>> 3
  let bit := block &&& 7
  let b :=
    if inUse = false then (st.blocks index ||| ((1 <<< bit) % 256)) % 256
    else st.blocks index &&& (255 - (1 <<< bit) % 256)
  { st with
    blocks := upd st.blocks index b
    eeprom := eeprom_update_byte st.eeprom (BLOCKINDEX + index) b }

/-- `fileExists(file)`. -/
def fileExists (st : FS) (file : Nat) : Bool := st.filePtrs file != NULLPTR

/-- The `for` loop of `getEmptyBlock`: `n` block numbers from `blockNum` on. -/
def getEmptyBlockLoop (st : FS) : Nat → Nat → Nat
  | 0, _ => NULLPTR
  | n + 1, blockNum =>
    if !isInUse st blockNum then blockNum else getEmptyBlockLoop st n (blockNum + 1)

/-- `getEmptyBlock()`. -/
def getEmptyBlock (st : FS) : Nat := getEmptyBlockLoop st (NUMBLOCKBYTES * 8) 0

/-- `setFilePtr(file, block)`. -/
def setFilePtr (st : FS) (file block : Nat) : FS :=
  { st with
    filePtrs := upd st.filePtrs file block
    eeprom := eeprom_update_byte st.eeprom (st.FILEPTRINDEX + file) block }

/-- `getBlockPtr(block)`. -/
def getBlockPtr (st : FS) (block : Nat) : Nat :=
  eeprom_read_byte st.eeprom (FILEINDEX + block * BLOCKSIZE + NEXTBLOCKPTR)

/-- `setBlockPtr(block, ptr)`. -/
def setBlockPtr (st : FS) (block ptr : Nat) : FS :=
  { st with
    eeprom := eeprom_update_byte st.eeprom (FILEINDEX + block * BLOCKSIZE + NEXTBLOCKPTR) ptr }

/-- `createNewFile(file)`: the returned byte and the new state. -/
def createNewFile (st : FS) (file : Nat) : Nat × FS :=
  let startBlock := getEmptyBlock st
  if startBlock = NULLPTR then (NULLPTR, st)
  else
    let st1 := setFilePtr st file startBlock
    let st2 := setInUse st1 startBlock true
    let st3 := setBlockPtr st2 startBlock NULLPTR
    (0, st3)

/-! ## Chain walks (lines 183-228) -/

/-- The `while` loop of `wipeFile`. -/
def wipeLoop : Nat → Nat → FS → Option FS
  | 0, _, _ => none
  | fuel + 1, nextPointer, st =>
    if (nextPointer &&& ISLEN) ≠ ISLEN then
      let st1 := setInUse st nextPointer false
      wipeLoop fuel (getBlockPtr st1 nextPointer) st1
    else some st

/-- `wipeFile(file)`. -/
def wipeFile (fuel : Nat) (st : FS) (file : Nat) : Option FS :=
  let startBlock := st.filePtrs file
  if startBlock = NULLPTR then some st
  else
    match wipeLoop fuel (getBlockPtr st startBlock) st with
    | none => none
    | some st1 => some (setBlockPtr st1 startBlock NULLPTR)

/-- The `while` loop of `fastForward`; gives back the last pointer read. -/
def fastForwardLoop (file : Nat) : Nat → Nat → FS → Option (Nat × FS)
  | 0, _, _ => none
  | fuel + 1, nextPointer, st =>
    if (nextPointer &&& ISLEN) ≠ ISLEN then
      let st1 :=
        { st with
          filePosition := upd st.filePosition file ((st.filePosition file + BLOCKSIZE) % 256)
          fileBlock := upd st.fileBlock file nextPointer }
      fastForwardLoop file fuel (getBlockPtr st1 nextPointer) st1
    else some (nextPointer, st)

/-- `fastForward(file)`. -/
def fastForward (fuel : Nat) (st : FS) (file : Nat) : Option FS :=
  let startBlock := st.filePtrs file
  if startBlock = NULLPTR then some st
  else
    match fastForwardLoop file fuel (getBlockPtr st startBlock) st with
    | none => none
    | some (nextPointer, st1) =>
      if nextPointer ≠ NULLPTR then
        some { st1 with
          filePosition :=
            upd st1.filePosition file ((st1.filePosition file + (nextPointer &&& 127)) % 256) }
      else some st1

/-! ## Open, close, delete (lines 201-284, 374-382) -/

/-- `open_for_write(file)`. -/
def open_for_write (fuel : Nat) (st : FS) (file : Nat) : Option (Int × FS) :=
  if st.fileAccess file ≠ FILECLOSED then some (FILEALREADYOPEN, st)
  else
    let st1 := if st.filePtrs file = NULLPTR then (createNewFile st file).2 else st
    if st1.filePtrs file = NULLPTR then some (OUTOFSPACE, st1)
    else
      match wipeFile fuel st1 file with
      | none => none
      | some st2 =>
        some ((file : Int),
          { st2 with
            filePosition := upd st2.filePosition file 0
            fileBlock := upd st2.fileBlock file (st2.filePtrs file)
            fileAccess := upd st2.fileAccess file FILEWRITE })

/-- `open_for_append(file)`. -/
def open_for_append (fuel : Nat) (st : FS) (file : Nat) : Option (Int × FS) :=
  if st.fileAccess file ≠ FILECLOSED then some (FILEALREADYOPEN, st)
  else
    let st1 := if st.filePtrs file = NULLPTR then (createNewFile st file).2 else st
    if st1.filePtrs file = NULLPTR then some (OUTOFSPACE, st1)
    else
      match fastForward fuel st1 file with
      | none => none
      | some st2 =>
        some ((file : Int), { st2 with fileAccess := upd st2.fileAccess file FILEWRITE })

/-- `open_for_read(file)`. -/
def open_for_read (st : FS) (file : Nat) : Int × FS :=
  if st.fileAccess file ≠ FILECLOSED then (FILEALREADYOPEN, st)
  else if st.filePtrs file = NULLPTR then (FILEDOESNTEXIST, st)
  else
    ((file : Int),
      { st with
        filePosition := upd st.filePosition file 0
        fileBlock := upd st.fileBlock file (st.filePtrs file)
        fileAccess := upd st.fileAccess file FILEREAD })

/-- `writeBlockLength(file)`. -/
def writeBlockLength (st : FS) (file : Nat) : FS :=
  let currentBlock := st.fileBlock file
  let currentLength := st.filePosition file &&& 31
  if currentBlock = NULLPTR then st
  else setBlockPtr st currentBlock (currentLength ||| ISLEN)

/-- `close(file)`. -/
def close (st : FS) (file : Nat) : Int × FS :=
  if st.filePtrs file = NULLPTR then (FILEDOESNTEXIST, st)
  else if st.fileAccess file = FILECLOSED then (0, st)
  else
    let st1 := writeBlockLength st file
    (0,
      { st1 with
        fileBlock := upd st1.fileBlock file NULLPTR
        fileAccess := upd st1.fileAccess file FILECLOSED })

/-- `delete_file(file)`. -/
def delete_file (fuel : Nat) (st : FS) (file : Nat) : Option (Int × FS) :=
  if st.filePtrs file = NULLPTR then some (FILEDOESNTEXIST, st)
  else if st.fileAccess file ≠ FILECLOSED then some (FILEALREADYOPEN, st)
  else
    match wipeFile fuel st file with
    | none => none
    | some st1 =>
      let st2 := setInUse st1 (st1.filePtrs file) false
      some (0, setFilePtr st2 file NULLPTR)

/-! ## Stream write and read (lines 287-369) -/

/-- The range test that opens `write` and `read`. -/
def handleRejected (accessHandle : Int) : Bool :=
  accessHandle < 0 || accessHandle > (NUMFILEPTRBYTES : Int)

/-- The `while` loop of `write`, entered with `i` bytes already written. -/
def writeLoop (h : Nat) (buffer : Mem) (size : Nat) : Nat → Nat → FS → Option (Int × FS)
  | 0, _, _ => none
  | fuel + 1, i, st =>
    if i < size then
      let block := st.fileBlock h
      let blockOffset := st.filePosition h &&& 31
      let remaining := size - i
      if (remaining + blockOffset) % 65536 > BLOCKSIZE - 1 then
        let st1 :=
          { st with
            eeprom := eeprom_update_block (fun k => buffer (i + k))
              (FILEINDEX + block * BLOCKSIZE + blockOffset) (BLOCKSIZE - blockOffset - 1)
              st.eeprom }
        let nextBlock := getEmptyBlock st1
        if nextBlock = NULLPTR then some (OUTOFSPACE, st1)
        else
          let st2 := setBlockPtr st1 block nextBlock
          let st3 := setBlockPtr st2 nextBlock NULLPTR
          let st4 := setInUse st3 nextBlock true
          let st5 :=
            { st4 with
              fileBlock := upd st4.fileBlock h nextBlock
              filePosition :=
                upd st4.filePosition h ((st4.filePosition h + (BLOCKSIZE - blockOffset)) % 256) }
          writeLoop h buffer size fuel (i + (BLOCKSIZE - blockOffset - 1)) st5
      else
        let st1 :=
          { st with
            eeprom := eeprom_update_block (fun k => buffer (i + k))
              (FILEINDEX + block * BLOCKSIZE + blockOffset) remaining st.eeprom
            filePosition := upd st.filePosition h ((st.filePosition h + remaining) % 256) }
        writeLoop h buffer size fuel (i + remaining) st1
    else some (0, st)

/-- `write(accessHandle, buffer, size)`. -/
def write (fuel : Nat) (st : FS) (accessHandle : Int) (buffer : Mem) (size : Nat) :
    Option (Int × FS) :=
  if handleRejected accessHandle then some (INVALIDACCESSHANDLE, st)
  else if st.fileAccess accessHandle.toNat ≠ FILEWRITE then some (WRONGFILEIOTYPE, st)
  else writeLoop accessHandle.toNat buffer size fuel 0 st

/-- A 16-bit pattern read as `int16_t`. -/
def toInt16 (n : Nat) : Int :=
  if n % 65536 < 32768 then ((n % 65536 : Nat) : Int) else ((n % 65536 : Nat) : Int) - 65536

/-- The `while` loop of `read`, entered with `amRead` bytes already delivered;
the result carries the returned count, the state and the caller's buffer. -/
def readLoop (h : Nat) (size : Nat) : Nat → Nat → FS → Mem → Option (Int × FS × Mem)
  | 0, _, _, _ => none
  | fuel + 1, amRead, st, buffer =>
    if amRead < size then
      let block := st.fileBlock h
      let blockOffset := st.filePosition h &&& 31
      let remaining := size - amRead
      let nextBlock := getBlockPtr st block
      let isEnd : Bool := (nextBlock &&& ISLEN) == ISLEN
      let blockLen := if isEnd ∧ nextBlock ≠ NULLPTR then nextBlock &&& 127 else BLOCKSIZE - 1
      let r :=
        if (remaining + blockOffset) % 65536 > blockLen ∧ (blockLen : Int) - blockOffset > 0 then
          (eeprom_read_block buffer amRead (FILEINDEX + block * BLOCKSIZE + blockOffset)
              (blockLen - blockOffset) st.eeprom,
            (amRead + (blockLen - blockOffset)) % 65536,
            (st.filePosition h + (blockLen - blockOffset)) % 256)
        else if (blockLen : Int) - blockOffset > 0 then
          (eeprom_read_block buffer amRead (FILEINDEX + block * BLOCKSIZE + blockOffset)
              remaining st.eeprom,
            (amRead + remaining) % 65536,
            (st.filePosition h + remaining) % 256)
        else (buffer, amRead, st.filePosition h)
      let st1 := { st with filePosition := upd st.filePosition h r.2.2 }
      if isEnd then some (toInt16 r.2.1, st1, r.1)
      else if remaining > blockLen then
        let st2 :=
          { st1 with
            fileBlock := upd st1.fileBlock h nextBlock
            filePosition := upd st1.filePosition h ((st1.filePosition h + 1) % 256) }
        readLoop h size fuel r.2.1 st2 r.1
      else readLoop h size fuel r.2.1 st1 r.1
    else some (toInt16 amRead, st, buffer)

/-- `read(accessHandle, buffer, size)`. -/
def read (fuel : Nat) (st : FS) (accessHandle : Int) (buffer : Mem) (size : Nat) :
    Option (Int × FS × Mem) :=
  if handleRejected accessHandle then some (INVALIDACCESSHANDLE, st, buffer)
  else if st.fileAccess accessHandle.toNat ≠ FILEREAD then some (WRONGFILEIOTYPE, st, buffer)
  else readLoop accessHandle.toNat size fuel 0 st buffer

/-! ## Calls of the API -/

/-- One call of the stream API with its arguments (and the fuel of its loops). -/
inductive Call where
  | openRead (file : Nat)
  | openWrite (fuel file : Nat)
  | openAppend (fuel file : Nat)
  | read (fuel : Nat) (accessHandle : Int) (buffer : Mem) (size : Nat)
  | write (fuel : Nat) (accessHandle : Int) (buffer : Mem) (size : Nat)
  | close (file : Nat)
  | delete (fuel file : Nat)

/-- The returned value and the state after a call. -/
def Call.run : Call → FS → Option (Int × FS)
  | .openRead file, st => some (open_for_read st file)
  | .openWrite fuel file, st => open_for_write fuel st file
  | .openAppend fuel file, st => open_for_append fuel st file
  | .read fuel h buffer size, st =>
    (EepromFS.read fuel st h buffer size).map fun r => (r.1, r.2.1)
  | .write fuel h buffer size, st => EepromFS.write fuel st h buffer size
  | .close file, st => some (EepromFS.close st file)
  | .delete fuel file, st => delete_file fuel st file

/-- The file id (or handle) of a call lies in `[0, MAXFILES)`. -/
def Call.idInRange : Call → Prop
  | .openRead file => file < MAXFILES
  | .openWrite _ file => file < MAXFILES
  | .openAppend _ file => file < MAXFILES
  | .read _ h _ _ => 0 ≤ h ∧ h < (MAXFILES : Int)
  | .write _ h _ _ => 0 ≤ h ∧ h < (MAXFILES : Int)
  | .close file => file < MAXFILES
  | .delete _ file => file < MAXFILES

/-- States reached from a mount by calls whose file ids are below `MAXFILES`. -/
inductive Reachable : FS → Prop where
  | mount (l : Layout) (st : FS) : Reachable (initEepfs l st)
  | step (c : Call) (st st1 : FS) (r : Int) :
      Reachable st → c.idInRange → c.run st = some (r, st1) → Reachable st1

/-! ## Concrete devices for the worked scenarios -/

/-- A layout for the worked scenarios: RAM reads as zero, the tables lie at
0x100 and 0x107. -/
def demoLayout : Layout := { ram := fun _ => 0, blocksAddr := 256, filePtrsAddr := 263 }

/-- An erased EEPROM: every cell reads 0xFF. -/
def blankDevice : Mem := fun _ => 255

/-- The state after `initEepfs` on an erased EEPROM at program start. -/
def freshMount : FS := initEepfs demoLayout (boot blankDevice)

/-- A caller's buffer holding the bytes of `s`. -/
def bufOf (s : List Nat) : Mem := fun k => s.getD k 0

/-! ## Invariants and further scenario states -/

/-- Every handle below `MAXFILES` that is not CLOSED belongs to a file that exists. -/
def OpenExists (st : FS) : Prop :=
  ∀ f, f < MAXFILES → st.fileAccess f ≠ FILECLOSED → st.filePtrs f ≠ NULLPTR

/-- The state after `open_for_write(0)` on the fresh mount. -/
def demoOpen : FS := ((open_for_write 1 freshMount 0).map Prod.snd).getD freshMount

/-- The state after a call (the state before it when the call does not return). -/
def after (c : Call) (st : FS) : FS := ((c.run st).map Prod.snd).getD st

/-- The bytes `1, 2, ..., n` (reduced to a byte). -/
def demoBytes (n : Nat) : List Nat := (List.range n).map fun k => (k + 1) % 256

/-- An empty caller's buffer: every byte is zero. -/
def zeroBuf : Mem := fun _ => 0

/-- Fresh mount, `open_for_write(0)`, `write` of the 40 bytes 1..40, `close(0)`:
file 0 holds 40 bytes in blocks 0 and 1 and is closed. -/
def demo40Closed : FS :=
  after (.close 0)
    (after (.write 9 0 (bufOf (demoBytes 40)) 40) (after (.openWrite 1 0) freshMount))

/-- File 0 of `demo40Closed` opened for reading. -/
def demo40 : FS := after (.openRead 0) demo40Closed

/-- Fresh mount, then `open_for_write(1)`, `write` of 1..10, `close(1)`,
`open_for_append(1)`, `write` of 11..20, `close(1)`. -/
def demoAppend : FS :=
  after (.close 1)
    (after (.write 9 1 (fun k => bufOf (demoBytes 20) (10 + k)) 10)
      (after (.openAppend 9 1)
        (after (.close 1)
          (after (.write 9 1 (bufOf (demoBytes 20)) 10) (after (.openWrite 1 1) freshMount)))))

/-- Fresh mount, `open_for_write(0)`, then one `write` of 1737 bytes, one more
than the 56 blocks that the bitmap manages can hold. -/
def demoFull : FS :=
  after (.write 200 0 (bufOf (demoBytes 1737)) 1737) (after (.openWrite 1 0) freshMount)

/-- The data bytes (cells 0..30) of a block on the device. -/
def blockData (st : FS) (block : Nat) : List Nat :=
  (List.range 31).map fun c => eeprom_read_byte st.eeprom (FILEINDEX + block * BLOCKSIZE + c)

/-- The first `n` bytes of a caller's buffer. -/
def bufTake (b : Mem) (n : Nat) : List Nat := (List.range n).map b

/-! ## Chains on the device -/

/-- The EEPROM address of byte `c` of a block. -/
def cell (block c : Nat) : Nat := FILEINDEX + block * BLOCKSIZE + c

/-- From byte 0 of block `b` on, the device holds a closed chain that runs through
the further blocks `blks` and stores the `len` bytes `data 0 .. data (len - 1)`:
every block but the last is full and points to the next one, and the last block
carries a length marker. -/
def Chain (e : Mem) : List Nat → Nat → (Nat → Nat) → Nat → Prop
  | [], b, data, len =>
    128 ≤ e (cell b 31) % 256 ∧ e (cell b 31) % 256 ≠ 255 ∧
    len = e (cell b 31) % 256 % 128 ∧
    ∀ c, c < len → e (cell b c) % 256 = data c
  | t :: blks, b, data, len =>
    e (cell b 31) % 256 = t ∧ t < 128 ∧ 31 < len ∧
    (∀ c, c < 31 → e (cell b c) % 256 = data c) ∧
    Chain e blks t (fun c => data (31 + c)) (len - 31)

/-- The device copy of the bitmap (read as bytes) equals the mirror `blocks`. -/
def BitmapOnDevice (st : FS) : Prop :=
  ∀ i, i < NUMBLOCKBYTES → st.blocks i = eeprom_read_byte st.eeprom (BLOCKINDEX + i)

/-- A device that was formatted before and holds no file: the magic byte, then
0xFF everywhere (bitmap all free, no start blocks). -/
def formattedDevice : Mem := fun a => if a = CONFIGUREINDEX then NUMBLOCKBYTES ^^^ 0xA1 else 255

/-- The state after a cold mount of `formattedDevice`. -/
def coldMount : FS := initEepfs demoLayout (boot formattedDevice)

/-- An EEPROM that was never formatted and reads zero everywhere. -/
def zeroDevice : Mem := fun _ => 0

/-- File 0 of `demo40Closed` opened for reading and closed again at once. -/
def demoReadClosed : FS := after (.close 0) demo40

/-- A bitmap whose seven bytes are all in use and whose eighth byte is all free. -/
def demoEighthByte : FS :=
  { freshMount with blocks := fun i => if i < NUMBLOCKBYTES then 0 else 255 }

/-- Fresh mount, `open_for_write(0)` and a `write` of 30 bytes: the handle stands
at offset 30 of block 0. -/
def demo30 : FS :=
  after (.write 9 0 (bufOf (demoBytes 30)) 30) (after (.openWrite 1 0) freshMount)

/-- Following terminator pointers from block `b` leads through the blocks `rest`, in
this order, and ends at `last` (which is `b` itself when `rest` is empty). -/
def Linked (e : Mem) : List Nat → Nat → Nat → Prop
  | [], b, last => b = last
  | t :: rest, b, last => e (cell b 31) % 256 = t ∧ t < 128 ∧ Linked e rest t last

/-- The device copy of the pointer table (read as bytes) equals the mirror
`filePtrs`. -/
def PointersOnDevice (st : FS) : Prop :=
  ∀ i, i < NUMFILEPTRBYTES → st.filePtrs i = eeprom_read_byte st.eeprom (st.FILEPTRINDEX + i)

/-- The device is formatted and holds the mirrors: the state was mounted, the
magic is at offset 0, and the bitmap and pointer table regions equal `blocks` and
`filePtrs`. -/
def MirrorsOnDevice (st : FS) : Prop :=
  st.FILEPTRINDEX = BLOCKINDEX + NUMBLOCKBYTES ∧
  eeprom_read_byte st.eeprom CONFIGUREINDEX = NUMBLOCKBYTES ^^^ 0xA1 ∧
  BitmapOnDevice st ∧ PointersOnDevice st

/-- File `f`, when it exists, runs from its start block through the blocks `rest`
to a last block; all these blocks are managed and in use; for a WRITE handle the
last block is the current block and its terminator is 0xFF; for a CLOSED handle
the terminator of the last block is a length marker `0x80 | L` with `L ≤ 31`. -/
def FileOK (st : FS) (f : Nat) (rest : List Nat) : Prop :=
  st.filePtrs f ≠ NULLPTR →
    ∃ last, Linked st.eeprom rest (st.filePtrs f) last ∧
      (∀ b, b ∈ st.filePtrs f :: rest → b < 56 ∧ isInUse st b = true) ∧
      (st.fileAccess f = FILEWRITE → st.fileBlock f = last ∧ getBlockPtr st last = NULLPTR) ∧
      (st.fileAccess f = FILECLOSED → ∃ L, L ≤ 31 ∧ getBlockPtr st last = 0x80 ||| L)

/-- The invariant of the write path: the state was mounted, every handle is
CLOSED or WRITE, an open handle belongs to an existing file, and the existing
files own pairwise disjoint chains in the sense of `FileOK`. -/
def ChainsOK (st : FS) : Prop :=
  st.FILEPTRINDEX = BLOCKINDEX + NUMBLOCKBYTES ∧
  (∀ f, f < MAXFILES → st.fileAccess f = FILECLOSED ∨ st.fileAccess f = FILEWRITE) ∧
  (∀ f, f < MAXFILES → st.filePtrs f = NULLPTR → st.fileAccess f = FILECLOSED) ∧
  ∃ R : Nat → List Nat,
    (∀ f, f < MAXFILES → FileOK st f (R f)) ∧
    (∀ f g, f < MAXFILES → g < MAXFILES → f ≠ g →
      st.filePtrs f ≠ NULLPTR → st.filePtrs g ≠ NULLPTR →
      ∀ b, b ∈ st.filePtrs f :: R f → b ∉ st.filePtrs g :: R g)

/-- The calls of the write path: `open_for_write`, `close`, and `write` of at most
65504 bytes (so that the 16-bit sum of the count and the block offset does not
wrap). -/
def Call.onWritePath : Call → Prop
  | .openWrite _ _ => True
  | .write _ _ _ size => size ≤ 65504
  | .close _ => True
  | _ => False

/-- States reached from a mount that formats the device by calls of the write
path whose file ids are below `MAXFILES`. -/
inductive ReachableByWrites : FS → Prop where
  | format (l : Layout) (pre : FS) :
      eeprom_read_byte pre.eeprom CONFIGUREINDEX ≠ NUMBLOCKBYTES ^^^ 0xA1 →
      ReachableByWrites (initEepfs l pre)
  | step (c : Call) (st st1 : FS) (r : Int) :
      ReachableByWrites st → c.idInRange → c.onWritePath → c.run st = some (r, st1) →
      ReachableByWrites st1

/-- Fresh mount, `open_for_write(0)`, one `write` of exactly 31 bytes, `close(0)`. -/
def demo31Closed : FS :=
  after (.close 0)
    (after (.write 9 0 (bufOf (demoBytes 31)) 31) (after (.openWrite 1 0) freshMount))

/-- The state after `initEepfs` has formatted a zero-filled EEPROM. -/
def zeroFormat : FS := initEepfs demoLayout (boot zeroDevice)

/-- Format of a zero-filled EEPROM, `open_for_write(3)`, `write` of the 40 bytes
1..40, `close(3)`. -/
def zero40Closed : FS :=
  after (.close 3)
    (after (.write 9 3 (bufOf (demoBytes 40)) 40) (after (.openWrite 1 3) zeroFormat))

/-- Format of a zero-filled EEPROM, `open_for_write(2)`, `write` of the 200 bytes
1..200, `close(2)`. -/
def zero200Closed : FS :=
  after (.close 2)
    (after (.write 9 2 (bufOf (demoBytes 200)) 200) (after (.openWrite 1 2) zeroFormat))

/-- The device copy of the bitmap, as the list of its seven bytes. -/
def deviceBitmap (st : FS) : List Nat :=
  (List.range NUMBLOCKBYTES).map fun i => eeprom_read_byte st.eeprom (BLOCKINDEX + i)

/-! # Properties -/

/-! ## Results of the calls -/

theorem open_for_write_cases (fuel : Nat) (st : FS) (file : Nat) (r : Int) (st1 : FS)
    (h : open_for_write fuel st file = some (r, st1)) :
    (r = -1 ∧ st1 = st) ∨ r = -5 ∨ r = (file : Int) := by
  unfold open_for_write at h
  by_cases h1 : st.fileAccess file ≠ FILECLOSED
  · rw [if_pos h1] at h
    simp only [Option.some.injEq, Prod.mk.injEq] at h
    exact Or.inl ⟨h.1.symm, h.2.symm⟩
  · rw [if_neg h1] at h
    right
    dsimp only at h
    split_ifs at h
    all_goals first
      | (simp only [Option.some.injEq, Prod.mk.injEq] at h; exact Or.inl h.1.symm)
      | (split at h
         · exact absurd h (by simp)
         · simp only [Option.some.injEq, Prod.mk.injEq] at h; exact Or.inr h.1.symm)

theorem open_for_append_cases (fuel : Nat) (st : FS) (file : Nat) (r : Int) (st1 : FS)
    (h : open_for_append fuel st file = some (r, st1)) :
    (r = -1 ∧ st1 = st) ∨ r = -5 ∨ r = (file : Int) := by
  unfold open_for_append at h
  by_cases h1 : st.fileAccess file ≠ FILECLOSED
  · rw [if_pos h1] at h
    simp only [Option.some.injEq, Prod.mk.injEq] at h
    exact Or.inl ⟨h.1.symm, h.2.symm⟩
  · rw [if_neg h1] at h
    right
    dsimp only at h
    split_ifs at h
    all_goals first
      | (simp only [Option.some.injEq, Prod.mk.injEq] at h; exact Or.inl h.1.symm)
      | (split at h
         · exact absurd h (by simp)
         · simp only [Option.some.injEq, Prod.mk.injEq] at h; exact Or.inr h.1.symm)

theorem open_for_read_cases (st : FS) (file : Nat) :
    ((open_for_read st file).1 = -1 ∧ (open_for_read st file).2 = st) ∨
    ((open_for_read st file).1 = -2 ∧ (open_for_read st file).2 = st) ∨
    (open_for_read st file).1 = (file : Int) := by
  unfold open_for_read
  split_ifs
  · exact Or.inl ⟨rfl, rfl⟩
  · exact Or.inr (Or.inl ⟨rfl, rfl⟩)
  · exact Or.inr (Or.inr rfl)

theorem wipeLoop_frame : ∀ (fuel p : Nat) (st st1 : FS), wipeLoop fuel p st = some st1 →
    st1.filePtrs = st.filePtrs ∧ st1.fileAccess = st.fileAccess ∧
    st1.FILEPTRINDEX = st.FILEPTRINDEX ∧ st1.filePosition = st.filePosition ∧
    st1.fileBlock = st.fileBlock := by
  intro fuel
  induction fuel with
  | zero => intro p st st1 h; simp [wipeLoop] at h
  | succ fuel ih =>
    intro p st st1 h
    simp only [wipeLoop] at h
    split_ifs at h
    · have := ih _ _ _ h
      exact this
    · simp only [Option.some.injEq] at h
      subst h
      exact ⟨rfl, rfl, rfl, rfl, rfl⟩

theorem wipeFile_frame (fuel : Nat) (st st1 : FS) (file : Nat)
    (h : wipeFile fuel st file = some st1) :
    st1.filePtrs = st.filePtrs ∧ st1.fileAccess = st.fileAccess ∧
    st1.FILEPTRINDEX = st.FILEPTRINDEX ∧ st1.filePosition = st.filePosition ∧
    st1.fileBlock = st.fileBlock := by
  simp only [wipeFile] at h
  split_ifs at h
  · simp only [Option.some.injEq] at h
    subst h
    exact ⟨rfl, rfl, rfl, rfl, rfl⟩
  · split at h
    · exact absurd h (by simp)
    · rename_i st2 hw
      simp only [Option.some.injEq] at h
      subst h
      have := wipeLoop_frame _ _ _ _ hw
      exact this

theorem fastForwardLoop_frame (file : Nat) : ∀ (fuel p : Nat) (st st1 : FS) (q : Nat),
    fastForwardLoop file fuel p st = some (q, st1) →
    st1.filePtrs = st.filePtrs ∧ st1.fileAccess = st.fileAccess ∧
    st1.FILEPTRINDEX = st.FILEPTRINDEX ∧ st1.blocks = st.blocks ∧ st1.eeprom = st.eeprom := by
  intro fuel
  induction fuel with
  | zero => intro p st st1 q h; simp [fastForwardLoop] at h
  | succ fuel ih =>
    intro p st st1 q h
    simp only [fastForwardLoop] at h
    split_ifs at h
    · have := ih _ _ _ _ h
      exact this
    · simp only [Option.some.injEq, Prod.mk.injEq] at h
      obtain ⟨-, rfl⟩ := h
      exact ⟨rfl, rfl, rfl, rfl, rfl⟩

theorem fastForward_frame (fuel : Nat) (st st1 : FS) (file : Nat)
    (h : fastForward fuel st file = some st1) :
    st1.filePtrs = st.filePtrs ∧ st1.fileAccess = st.fileAccess ∧
    st1.FILEPTRINDEX = st.FILEPTRINDEX ∧ st1.blocks = st.blocks ∧ st1.eeprom = st.eeprom := by
  simp only [fastForward] at h
  split_ifs at h
  · simp only [Option.some.injEq] at h
    subst h
    exact ⟨rfl, rfl, rfl, rfl, rfl⟩
  · split at h
    · exact absurd h (by simp)
    · rename_i q st2 hw
      have := fastForwardLoop_frame _ _ _ _ _ _ hw
      split_ifs at h <;>
        (simp only [Option.some.injEq] at h
         subst h
         exact this)

theorem writeLoop_frame (h : Nat) (buffer : Mem) (size : Nat) :
    ∀ (fuel i : Nat) (st : FS) (r : Int) (st1 : FS),
      writeLoop h buffer size fuel i st = some (r, st1) →
      st1.filePtrs = st.filePtrs ∧ st1.fileAccess = st.fileAccess ∧
      st1.FILEPTRINDEX = st.FILEPTRINDEX := by
  intro fuel
  induction fuel with
  | zero => intro i st r st1 hw; simp [writeLoop] at hw
  | succ fuel ih =>
    intro i st r st1 hw
    simp only [writeLoop] at hw
    split_ifs at hw
    · simp only [Option.some.injEq, Prod.mk.injEq] at hw
      obtain ⟨-, rfl⟩ := hw
      exact ⟨rfl, rfl, rfl⟩
    · have := ih _ _ _ _ hw
      exact this
    · have := ih _ _ _ _ hw
      exact this
    · simp only [Option.some.injEq, Prod.mk.injEq] at hw
      obtain ⟨-, rfl⟩ := hw
      exact ⟨rfl, rfl, rfl⟩

theorem readLoop_frame (h : Nat) (size : Nat) :
    ∀ (fuel amRead : Nat) (st : FS) (buffer : Mem) (r : Int) (st1 : FS) (b1 : Mem),
      readLoop h size fuel amRead st buffer = some (r, st1, b1) →
      st1.filePtrs = st.filePtrs ∧ st1.fileAccess = st.fileAccess ∧
      st1.FILEPTRINDEX = st.FILEPTRINDEX ∧ st1.blocks = st.blocks ∧ st1.eeprom = st.eeprom := by
  intro fuel
  induction fuel with
  | zero => intro amRead st buffer r st1 b1 hr; simp [readLoop] at hr
  | succ fuel ih =>
    intro amRead st buffer r st1 b1 hr
    simp only [readLoop] at hr
    split_ifs at hr
    all_goals first
      | (simp only [Option.some.injEq, Prod.mk.injEq] at hr
         obtain ⟨-, rfl, -⟩ := hr
         exact ⟨rfl, rfl, rfl, rfl, rfl⟩)
      | (have hih := ih _ _ _ _ _ _ hr
         exact hih)

/-! ## Open handles belong to existing files -/

theorem createNewFile_filePtrs (st : FS) (file : Nat) :
    (createNewFile st file).2.fileAccess = st.fileAccess ∧
    ∀ f, (createNewFile st file).2.filePtrs f = st.filePtrs f ∨
      (f = file ∧ (createNewFile st file).2.filePtrs f ≠ NULLPTR) := by
  simp only [createNewFile]
  split_ifs with h1
  · exact ⟨rfl, fun f => Or.inl rfl⟩
  · refine ⟨rfl, fun f => ?_⟩
    simp only [setBlockPtr, setInUse, setFilePtr, upd]
    by_cases hf : f = file
    · right; simp [hf, h1]
    · left; simp [hf]

theorem openExists_initEepfs (l : Layout) (st : FS) : OpenExists (initEepfs l st) := by
  intro f hf hacc
  exfalso
  apply hacc
  simp only [initEepfs]
  have : f < NUMFILEPTRBYTES := hf
  simp [this]

theorem openExists_step (c : Call) (st st1 : FS) (r : Int) (hinv : OpenExists st)
    (hc : c.idInRange) (hrun : c.run st = some (r, st1)) : OpenExists st1 := by
  cases c with
  | openRead file =>
    simp only [Call.run, Option.some.injEq] at hrun
    unfold open_for_read at hrun
    split_ifs at hrun with h1 h2
    · simp only [Prod.mk.injEq] at hrun; obtain ⟨-, rfl⟩ := hrun; exact hinv
    · simp only [Prod.mk.injEq] at hrun; obtain ⟨-, rfl⟩ := hrun; exact hinv
    · simp only [Prod.mk.injEq] at hrun
      obtain ⟨-, rfl⟩ := hrun
      intro f hf hacc
      simp only [upd] at hacc ⊢
      by_cases hff : f = file
      · subst hff; exact h2
      · simp only [hff, if_false] at hacc; exact hinv f hf hacc
  | openWrite fuel file =>
    simp only [Call.run] at hrun
    unfold open_for_write at hrun
    by_cases h1 : st.fileAccess file ≠ FILECLOSED
    · rw [if_pos h1] at hrun
      simp only [Option.some.injEq, Prod.mk.injEq] at hrun
      obtain ⟨-, rfl⟩ := hrun; exact hinv
    · rw [if_neg h1] at hrun
      dsimp only at hrun
      have hstx : ∀ stx : FS, (stx = (createNewFile st file).2 ∨ stx = st) →
          stx.fileAccess = st.fileAccess ∧ ∀ f, stx.filePtrs f = st.filePtrs f ∨
            (f = file ∧ stx.filePtrs f ≠ NULLPTR) := by
        intro stx hx
        rcases hx with rfl | rfl
        · exact createNewFile_filePtrs st file
        · exact ⟨rfl, fun f => Or.inl rfl⟩
      generalize hg : (if st.filePtrs file = NULLPTR then (createNewFile st file).2 else st) = stx
        at hrun
      have hx := hstx stx (by rw [← hg]; split_ifs <;> simp)
      have hpres : OpenExists stx := by
        intro f hf hacc
        rw [hx.1] at hacc
        rcases hx.2 f with h | h
        · rw [h]; exact hinv f hf hacc
        · exact h.2
      split_ifs at hrun with h2
      · simp only [Option.some.injEq, Prod.mk.injEq] at hrun
        obtain ⟨-, rfl⟩ := hrun; exact hpres
      · split at hrun
        · exact absurd hrun (by simp)
        · rename_i st2 hw
          simp only [Option.some.injEq, Prod.mk.injEq] at hrun
          obtain ⟨-, rfl⟩ := hrun
          obtain ⟨e1, e2, -⟩ := wipeFile_frame _ _ _ _ hw
          intro f hf hacc
          simp only [upd] at hacc ⊢
          rw [e1]
          by_cases hff : f = file
          · subst hff; exact h2
          · simp only [hff, if_false] at hacc
            rw [e2] at hacc
            exact hpres f hf hacc
  | openAppend fuel file =>
    simp only [Call.run] at hrun
    unfold open_for_append at hrun
    by_cases h1 : st.fileAccess file ≠ FILECLOSED
    · rw [if_pos h1] at hrun
      simp only [Option.some.injEq, Prod.mk.injEq] at hrun
      obtain ⟨-, rfl⟩ := hrun; exact hinv
    · rw [if_neg h1] at hrun
      dsimp only at hrun
      have hstx : ∀ stx : FS, (stx = (createNewFile st file).2 ∨ stx = st) →
          stx.fileAccess = st.fileAccess ∧ ∀ f, stx.filePtrs f = st.filePtrs f ∨
            (f = file ∧ stx.filePtrs f ≠ NULLPTR) := by
        intro stx hx
        rcases hx with rfl | rfl
        · exact createNewFile_filePtrs st file
        · exact ⟨rfl, fun f => Or.inl rfl⟩
      generalize hg : (if st.filePtrs file = NULLPTR then (createNewFile st file).2 else st) = stx
        at hrun
      have hx := hstx stx (by rw [← hg]; split_ifs <;> simp)
      have hpres : OpenExists stx := by
        intro f hf hacc
        rw [hx.1] at hacc
        rcases hx.2 f with h | h
        · rw [h]; exact hinv f hf hacc
        · exact h.2
      split_ifs at hrun with h2
      · simp only [Option.some.injEq, Prod.mk.injEq] at hrun
        obtain ⟨-, rfl⟩ := hrun; exact hpres
      · split at hrun
        · exact absurd hrun (by simp)
        · rename_i st2 hw
          simp only [Option.some.injEq, Prod.mk.injEq] at hrun
          obtain ⟨-, rfl⟩ := hrun
          obtain ⟨e1, e2, -⟩ := fastForward_frame _ _ _ _ hw
          intro f hf hacc
          simp only [upd] at hacc ⊢
          rw [e1]
          by_cases hff : f = file
          · subst hff; exact h2
          · simp only [hff, if_false] at hacc
            rw [e2] at hacc
            exact hpres f hf hacc
  | read fuel h buffer size =>
    simp only [Call.run, Option.map_eq_some', Prod.mk.injEq] at hrun
    obtain ⟨⟨r', st', b'⟩, hr, h1, h2⟩ := hrun
    simp only at h1 h2
    subst h1 h2
    unfold read at hr
    split_ifs at hr
    · simp only [Option.some.injEq, Prod.mk.injEq] at hr; obtain ⟨-, rfl, -⟩ := hr; exact hinv
    · simp only [Option.some.injEq, Prod.mk.injEq] at hr; obtain ⟨-, rfl, -⟩ := hr; exact hinv
    · obtain ⟨e1, e2, -⟩ := readLoop_frame _ _ _ _ _ _ _ _ _ hr
      intro f hf hacc
      rw [e1]; rw [e2] at hacc; exact hinv f hf hacc
  | write fuel h buffer size =>
    simp only [Call.run] at hrun
    unfold write at hrun
    split_ifs at hrun
    · simp only [Option.some.injEq, Prod.mk.injEq] at hrun; obtain ⟨-, rfl⟩ := hrun; exact hinv
    · simp only [Option.some.injEq, Prod.mk.injEq] at hrun; obtain ⟨-, rfl⟩ := hrun; exact hinv
    · obtain ⟨e1, e2, -⟩ := writeLoop_frame _ _ _ _ _ _ _ _ hrun
      intro f hf hacc
      rw [e1]; rw [e2] at hacc; exact hinv f hf hacc
  | close file =>
    simp only [Call.run, Option.some.injEq] at hrun
    unfold close at hrun
    split_ifs at hrun with h1 h2
    · simp only [Prod.mk.injEq] at hrun; obtain ⟨-, rfl⟩ := hrun; exact hinv
    · simp only [Prod.mk.injEq] at hrun; obtain ⟨-, rfl⟩ := hrun; exact hinv
    · simp only [Prod.mk.injEq] at hrun
      obtain ⟨-, rfl⟩ := hrun
      have e1 : (writeBlockLength st file).filePtrs = st.filePtrs := by
        simp only [writeBlockLength]; split_ifs <;> rfl
      have e2 : (writeBlockLength st file).fileAccess = st.fileAccess := by
        simp only [writeBlockLength]; split_ifs <;> rfl
      intro f hf hacc
      simp only [upd] at hacc ⊢
      rw [e1]
      by_cases hff : f = file
      · simp [hff] at hacc
      · simp only [hff, if_false] at hacc
        rw [e2] at hacc
        exact hinv f hf hacc
  | delete fuel file =>
    simp only [Call.run] at hrun
    unfold delete_file at hrun
    split_ifs at hrun with h1 h2
    · simp only [Option.some.injEq, Prod.mk.injEq] at hrun; obtain ⟨-, rfl⟩ := hrun; exact hinv
    · simp only [Option.some.injEq, Prod.mk.injEq] at hrun; obtain ⟨-, rfl⟩ := hrun; exact hinv
    · split at hrun
      · exact absurd hrun (by simp)
      · rename_i st2 hw
        simp only [Option.some.injEq, Prod.mk.injEq] at hrun
        obtain ⟨-, rfl⟩ := hrun
        obtain ⟨e1, e2, -⟩ := wipeFile_frame _ _ _ _ hw
        intro f hf hacc
        simp only [setFilePtr, setInUse, upd] at hacc ⊢
        rw [e2] at hacc
        by_cases hff : f = file
        · subst hff; exact absurd hacc (by simpa using h2)
        · simp only [hff, if_false]
          rw [e1]; exact hinv f hf hacc

theorem reachable_openExists (st : FS) (h : Reachable st) : OpenExists st := by
  induction h with
  | mount l st => exact openExists_initEepfs l st
  | step c st st1 r _ hc hrun ih => exact openExists_step c st st1 r ih hc hrun

/-- C9. In every state reached from a mount through the API with file ids below
61: (i) the three opens and `delete_file` on a file whose handle is not CLOSED
return FILEALREADYOPEN; (ii) `open_for_read` and `delete_file` on a CLOSED file
that does not exist return FILEDOESNTEXIST; (iii) `close` on a file that does not
exist returns FILEDOESNTEXIST and `close` on an existing CLOSED file returns 0;
(iv) an open that does not fail returns the file id.  Every one of these calls
leaves the state as it was, except the successful opens. -/
theorem lifecycle_codes (st : FS) (file : Nat) (hreach : Reachable st)
    (hfile : file < MAXFILES) :
    (st.fileAccess file ≠ FILECLOSED →
      open_for_read st file = (FILEALREADYOPEN, st) ∧
      (∀ fuel, open_for_write fuel st file = some (FILEALREADYOPEN, st)) ∧
      (∀ fuel, open_for_append fuel st file = some (FILEALREADYOPEN, st)) ∧
      (∀ fuel, delete_file fuel st file = some (FILEALREADYOPEN, st))) ∧
    (st.fileAccess file = FILECLOSED → fileExists st file = false →
      open_for_read st file = (FILEDOESNTEXIST, st) ∧
      (∀ fuel, delete_file fuel st file = some (FILEDOESNTEXIST, st))) ∧
    (fileExists st file = false → close st file = (FILEDOESNTEXIST, st)) ∧
    (fileExists st file = true → st.fileAccess file = FILECLOSED → close st file = (0, st)) ∧
    (0 ≤ (open_for_read st file).1 → (open_for_read st file).1 = (file : Int)) ∧
    (∀ fuel r st1, open_for_write fuel st file = some (r, st1) → 0 ≤ r → r = (file : Int)) ∧
    (∀ fuel r st1, open_for_append fuel st file = some (r, st1) → 0 ≤ r → r = (file : Int)) := by
  have hinv := reachable_openExists st hreach file hfile
  refine ⟨?_, ?_, ?_, ?_, ?_, ?_, ?_⟩
  · intro hacc
    have hex := hinv hacc
    refine ⟨?_, ?_, ?_, ?_⟩
    · simp only [open_for_read, if_pos hacc]
    · intro fuel; simp only [open_for_write, if_pos hacc]
    · intro fuel; simp only [open_for_append, if_pos hacc]
    · intro fuel; simp only [delete_file, if_neg hex, if_pos hacc]
  · intro hacc hex
    have hex' : st.filePtrs file = NULLPTR := by simpa [fileExists] using hex
    refine ⟨?_, ?_⟩
    · simp only [open_for_read, hacc, ne_eq, not_true_eq_false, if_false, if_pos hex']
    · intro fuel; simp only [delete_file, if_pos hex']
  · intro hex
    have hex' : st.filePtrs file = NULLPTR := by simpa [fileExists] using hex
    simp only [close, if_pos hex']
  · intro hex hacc
    have hex' : ¬ st.filePtrs file = NULLPTR := by simpa [fileExists] using hex
    simp only [close, if_neg hex', if_pos hacc]
  · intro h0
    rcases open_for_read_cases st file with ⟨h, -⟩ | ⟨h, -⟩ | h
    · omega
    · omega
    · exact h
  · intro fuel r st1 h h0
    rcases open_for_write_cases fuel st file r st1 h with ⟨h, -⟩ | h | h
    · omega
    · omega
    · exact h
  · intro fuel r st1 h h0
    rcases open_for_append_cases fuel st file r st1 h with ⟨h, -⟩ | h | h
    · omega
    · omega
    · exact h

theorem demoOpen_reachable : Reachable demoOpen :=
  Reachable.step (.openWrite 1 0) freshMount demoOpen 0 (Reachable.mount _ _)
    (show 0 < MAXFILES by decide) (by rfl)

theorem lifecycle_codes_witness :
    open_for_read demoOpen 0 = (FILEALREADYOPEN, demoOpen) ∧
    delete_file 1 demoOpen 0 = some (FILEALREADYOPEN, demoOpen) ∧
    close freshMount 0 = (FILEDOESNTEXIST, freshMount) :=
  ⟨((lifecycle_codes demoOpen 0 demoOpen_reachable (by decide)).1 (by decide)).1,
   ((lifecycle_codes demoOpen 0 demoOpen_reachable (by decide)).1 (by decide)).2.2.2 1,
   (lifecycle_codes freshMount 0 (Reachable.mount _ _) (by decide)).2.2.1 (by rfl)⟩

/-- C8, at the handle 61. The range test of `write` and `read` rejects -1 and 62
but lets 61 through (it rejects `accessHandle > 61`, not `accessHandle >= 61`): on the fresh mount both
calls go on to index slot 61 of the handle table and answer WRONGFILEIOTYPE, not
INVALIDACCESSHANDLE. -/
theorem handle_61_passes_range_check :
    handleRejected (-1) = true ∧ handleRejected 62 = true ∧ handleRejected 61 = false ∧
    (write 1 freshMount 61 (bufOf [7]) 1).map Prod.fst = some WRONGFILEIOTYPE ∧
    (read 1 freshMount 61 (bufOf []) 1).map Prod.fst = some WRONGFILEIOTYPE := by
  refine ⟨by decide, by decide, by decide, by rfl, by rfl⟩

/-! ## Worked scenarios -/

theorem readLoop_stuck (h size : Nat) :
    ∀ (fuel amRead : Nat) (st : FS) (buffer : Mem),
      amRead < size → size - amRead ≤ 31 → st.filePosition h &&& 31 = 31 →
      getBlockPtr st (st.fileBlock h) &&& ISLEN ≠ ISLEN →
      readLoop h size fuel amRead st buffer = none := by
  intro fuel
  induction fuel with
  | zero => intro amRead st buffer _ _ _ _; rfl
  | succ fuel ih =>
    intro amRead st buffer hlt hrem hoff hptr
    have hr : ¬ (size - amRead > 32 - 1) := by omega
    have hz : ¬ ((0 : Int) < ((32 - 1 : Nat) : Int) - ((31 : Nat) : Int)) := by decide
    simp only [readLoop, if_pos hlt, hoff, beq_iff_eq, hptr, false_and, if_false, BLOCKSIZE,
      hr, Bool.false_eq_true, gt_iff_lt, hz, and_false]
    apply ih _ _ _ hlt hrem
    · simp [upd, hoff]
    · exact hptr

/-- C3, at a 40-byte file read as 31 bytes and then 9 bytes. The first `read`
returns 31 and leaves the handle on the first block at position 31; the second
`read` then changes nothing in any pass of its loop, so it returns for no amount
of fuel: the C loop does not terminate. -/
theorem read_31_then_9_never_returns :
    (read 3 demo40 0 zeroBuf 31).map Prod.fst = some 31 ∧
    ∀ fuel, read fuel (after (.read 3 0 zeroBuf 31) demo40) 0 zeroBuf 9 = none := by
  refine ⟨by rfl, fun fuel => ?_⟩
  have h1 : handleRejected 0 = false := by decide
  have h2 : (after (.read 3 0 zeroBuf 31) demo40).fileAccess (0 : Int).toNat = FILEREAD := by rfl
  simp only [read, h1, h2, Bool.false_eq_true, if_false, ne_eq, not_true_eq_false]
  exact readLoop_stuck _ _ fuel 0 _ _ (by decide) (by decide) (by rfl) (by decide)

/-- C4, at a 40-byte file read as 10 bytes and then 25 bytes. One `read` of 35
bytes delivers bytes 1..35 and the `read` of 10 delivers bytes 1..10, but the
following `read` of 25 takes the 21 bytes left in the first block, stays on that
block at position 31 and never returns, so it delivers nothing. -/
theorem read_10_then_25_never_returns :
    (read 3 demo40 0 zeroBuf 35).map (fun r => (r.1, bufTake r.2.2 35))
      = some (35, demoBytes 35) ∧
    (read 3 demo40 0 zeroBuf 10).map (fun r => (r.1, bufTake r.2.2 10))
      = some (10, demoBytes 10) ∧
    ∀ fuel, read fuel (after (.read 3 0 zeroBuf 10) demo40) 0 zeroBuf 25 = none := by
  refine ⟨by rfl, by rfl, fun fuel => ?_⟩
  have h1 : handleRejected 0 = false := by decide
  have h2 : (after (.read 3 0 zeroBuf 10) demo40).fileAccess (0 : Int).toNat = FILEREAD := by rfl
  simp only [read, h1, h2, Bool.false_eq_true, if_false, ne_eq, not_true_eq_false]
  cases fuel with
  | zero => rfl
  | succ fuel =>
    have hpos : (after (.read 3 0 zeroBuf 10) demo40).filePosition (0 : Int).toNat = 10 := by rfl
    have hblk : (after (.read 3 0 zeroBuf 10) demo40).fileBlock (0 : Int).toNat = 0 := by rfl
    have hptr : getBlockPtr (after (.read 3 0 zeroBuf 10) demo40) 0 = 1 := by rfl
    have hc : ((25 - 0 + (10 &&& 31)) % 65536 > 32 - 1 ∧
        ((32 - 1 : Nat) : Int) - ((10 &&& 31 : Nat) : Int) > 0) := by decide
    have hr : ¬ (25 - 0 > 32 - 1) := by decide
    have he : ¬ ((1 &&& ISLEN) = ISLEN) := by decide
    simp only [readLoop, hpos, hblk, hptr, BLOCKSIZE, beq_iff_eq, he, false_and, if_false,
      Bool.false_eq_true, hc, hr, and_self, if_true, Nat.lt_irrefl, show (0 : Nat) < 25 by decide]
    apply readLoop_stuck
    · decide
    · decide
    · simp only [upd, if_true, hpos]; decide
    · simp only [hblk, hptr]; decide

/-- C5, at a 40-byte file. `close` on the READ handle calls `writeBlockLength`:
right after `open_for_read` it stores 0x80 over the pointer in the terminator of
block 0 (which was 1), and a later `open_for_read` and `read` deliver 0 bytes where
40 were delivered before; after a `read` of 10 bytes `close` stores 0x8A there. -/
theorem close_of_read_handle_truncates :
    (read 3 demo40 0 zeroBuf 100).map (fun r => (r.1, bufTake r.2.2 40))
      = some (40, demoBytes 40) ∧
    getBlockPtr demo40 0 = 1 ∧
    (close demo40 0).1 = 0 ∧
    getBlockPtr (close demo40 0).2 0 = 128 ∧
    (open_for_read (close demo40 0).2 0).1 = 0 ∧
    (read 3 (open_for_read (close demo40 0).2 0).2 0 zeroBuf 100).map Prod.fst = some 0 ∧
    getBlockPtr (after (.close 0) (after (.read 3 0 zeroBuf 10) demo40)) 0 = 138 := by
  refine ⟨by rfl, by rfl, by rfl, by rfl, by rfl, by rfl, by rfl⟩

/-- C2, at a = 1..10 and b = 11..20 on file 1. `open_for_append` returns 1 but
leaves `fileBlock[1]` at 0xFF (and the position at 10 + 10): `fastForward` sets the
block only when it follows a pointer. The `write` of b returns 0 and stores its
bytes in block 255, outside the file, `close` writes no length, and the final
`read` of 64 returns 10 bytes, 1..10, not 20. -/
theorem append_of_10_bytes_is_lost :
    (open_for_write 1 freshMount 1).map Prod.fst = some 1 ∧
    (open_for_append 9 (after (.close 1) (after (.write 9 1 (bufOf (demoBytes 20)) 10)
      (after (.openWrite 1 1) freshMount))) 1).map (fun r => (r.1, r.2.fileBlock 1, r.2.filePosition 1))
      = some (1, 255, 20) ∧
    (write 9 (after (.openAppend 9 1) (after (.close 1)
      (after (.write 9 1 (bufOf (demoBytes 20)) 10) (after (.openWrite 1 1) freshMount))))
      1 (fun k => bufOf (demoBytes 20) (10 + k)) 10).map Prod.fst = some 0 ∧
    (open_for_read demoAppend 1).1 = 1 ∧
    (read 3 (open_for_read demoAppend 1).2 1 zeroBuf 64).map (fun r => (r.1, bufTake r.2.2 20))
      = some (10, demoBytes 10 ++ List.replicate 10 0) := by
  refine ⟨by rfl, by rfl, by rfl, by rfl, by rfl⟩

/-- C10, at one `write` of 1737 bytes into file 0 of a fresh mount. The call
returns OUTOFSPACE with the handle in WRITE on block 55; the last 31 bytes it
stored fill block 55 on the device, yet the position is left at offset 0 of that
block, so after `close` a `read` returns 1705 bytes, not the 1736 stored. -/
theorem out_of_space_drops_last_block :
    (write 200 (after (.openWrite 1 0) freshMount) 0 (bufOf (demoBytes 1737)) 1737).map Prod.fst
      = some OUTOFSPACE ∧
    demoFull.fileAccess 0 = FILEWRITE ∧
    demoFull.fileBlock 0 = 55 ∧
    demoFull.filePosition 0 &&& 31 = 0 ∧
    blockData demoFull 55 = (demoBytes 1736).drop 1705 ∧
    (close demoFull 0).1 = 0 ∧
    (read 200 (open_for_read (close demoFull 0).2 0).2 0 zeroBuf 2000).map Prod.fst
      = some 1705 := by
  set_option maxRecDepth 1000000 in
  refine ⟨by rfl, by rfl, by rfl, by rfl, by rfl, by rfl, by rfl⟩

/-! ## Bytes and bits -/

theorem and31 (x : Nat) : x &&& 31 = x % 32 := Nat.and_pow_two_sub_one_eq_mod x 5

theorem and7 (x : Nat) : x &&& 7 = x % 8 := Nat.and_pow_two_sub_one_eq_mod x 3

theorem shr3 (x : Nat) : x >>> 3 = x / 8 := Nat.shiftRight_eq_div_pow x 3

theorem and127 (x : Nat) : x &&& 127 = x % 128 := Nat.and_pow_two_sub_one_eq_mod x 7

theorem byte_isLen : ∀ t, t < 256 → ((t &&& ISLEN = ISLEN) ↔ 128 ≤ t) := by
  unfold ISLEN
  set_option maxRecDepth 100000 in
  decide

theorem len_or_isLen : ∀ n, n < 32 → (n ||| ISLEN) = n + 128 := by
  unfold ISLEN
  decide

theorem bit_of_byte (x b : Nat) (hb : b < 8) :
    ((x &&& ((1 <<< b) % 256)) == INUSE) = !x.testBit b := by
  have h2 : (1 <<< b) % 256 = 2 ^ b := by
    rw [Nat.one_shiftLeft]
    exact Nat.mod_eq_of_lt (by
      have : b = 0 ∨ b = 1 ∨ b = 2 ∨ b = 3 ∨ b = 4 ∨ b = 5 ∨ b = 6 ∨ b = 7 := by omega
      rcases this with h | h | h | h | h | h | h | h <;> subst h <;> decide)
  rw [h2]
  have h3 : x &&& 2 ^ b = (x.testBit b).toNat * 2 ^ b := by
    apply Nat.eq_of_testBit_eq
    intro i
    rw [Nat.testBit_and, Nat.testBit_two_pow]
    by_cases hi : b = i
    · subst hi
      cases hx : x.testBit b
      · simp
      · simp [Nat.testBit_two_pow_self]
    · cases hx : x.testBit b
      · simp [hi]
      · simp [hi, Nat.testBit_two_pow_of_ne hi]
  rw [h3]
  have hpos : 0 < 2 ^ b := Nat.two_pow_pos b
  cases hx : x.testBit b
  · simp [INUSE]
  · simp [INUSE]

theorem isInUse_eq (st : FS) (blk : Nat) :
    isInUse st blk = !(st.blocks (blk / 8)).testBit (blk % 8) := by
  simp only [isInUse, shr3, and7]
  exact bit_of_byte _ _ (Nat.mod_lt _ (by decide))

theorem clear_testBit (x b j : Nat) (hb : b < 8) (hj : j < 8) :
    (x &&& (255 - (1 <<< b) % 256)).testBit j = (x.testBit j && decide (j ≠ b)) := by
  rw [Nat.testBit_and]
  congr 1
  have : b = 0 ∨ b = 1 ∨ b = 2 ∨ b = 3 ∨ b = 4 ∨ b = 5 ∨ b = 6 ∨ b = 7 := by omega
  have : j = 0 ∨ j = 1 ∨ j = 2 ∨ j = 3 ∨ j = 4 ∨ j = 5 ∨ j = 6 ∨ j = 7 := by omega
  rcases ‹b = 0 ∨ _› with h | h | h | h | h | h | h | h <;> subst h <;>
    rcases ‹j = 0 ∨ _› with h | h | h | h | h | h | h | h <;> subst h <;> decide

theorem set_testBit (x b j : Nat) (hb : b < 8) (hj : j < 8) :
    ((x ||| ((1 <<< b) % 256)) % 256).testBit j = (x.testBit j || decide (j = b)) := by
  have h256 : (256 : Nat) = 2 ^ 8 := by decide
  rw [h256, Nat.testBit_mod_two_pow, Nat.testBit_or]
  simp only [hj, decide_True, Bool.true_and]
  congr 1
  have : b = 0 ∨ b = 1 ∨ b = 2 ∨ b = 3 ∨ b = 4 ∨ b = 5 ∨ b = 6 ∨ b = 7 := by omega
  have : j = 0 ∨ j = 1 ∨ j = 2 ∨ j = 3 ∨ j = 4 ∨ j = 5 ∨ j = 6 ∨ j = 7 := by omega
  rcases ‹b = 0 ∨ _› with h | h | h | h | h | h | h | h <;> subst h <;>
    rcases ‹j = 0 ∨ _› with h | h | h | h | h | h | h | h <;> subst h <;> decide

theorem isInUse_setInUse (st : FS) (blk blk1 : Nat) (u : Bool) :
    isInUse (setInUse st blk u) blk1 = if blk1 = blk then u else isInUse st blk1 := by
  rw [isInUse_eq, isInUse_eq]
  simp only [setInUse, shr3, and7, upd]
  have hb : blk % 8 < 8 := Nat.mod_lt _ (by decide)
  have hj : blk1 % 8 < 8 := Nat.mod_lt _ (by decide)
  by_cases h1 : blk1 / 8 = blk / 8
  · rw [if_pos h1]
    cases u
    · simp only [if_true]
      rw [set_testBit _ _ _ hb hj, ← h1]
      by_cases h2 : blk1 = blk
      · subst h2; simp
      · have : blk1 % 8 ≠ blk % 8 := by omega
        simp [h2, this]
    · simp only [Bool.true_eq_false, if_false]
      rw [clear_testBit _ _ _ hb hj, ← h1]
      by_cases h2 : blk1 = blk
      · subst h2; simp
      · have : blk1 % 8 ≠ blk % 8 := by omega
        simp [h2, this]
  · have h2 : blk1 ≠ blk := by intro h; exact h1 (by rw [h])
    rw [if_neg h1, if_neg h2]

theorem setInUse_blocks_lt (st : FS) (blk : Nat) (u : Bool) (i : Nat)
    (h : st.blocks i < 256) : (setInUse st blk u).blocks i < 256 := by
  simp only [setInUse, upd]
  split_ifs
  · exact Nat.mod_lt _ (by decide)
  · exact Nat.lt_of_le_of_lt Nat.and_le_right (by omega)
  · exact h

theorem setInUse_eeprom (st : FS) (blk : Nat) (u : Bool) (a : Nat) :
    (setInUse st blk u).eeprom a =
      if a = BLOCKINDEX + blk / 8 then (setInUse st blk u).blocks (blk / 8) else st.eeprom a := by
  simp only [setInUse, shr3, and7, upd, eeprom_update_byte, if_true]

/-- Bytes that agree on their eight bits are equal. -/
theorem byte_ext (x y : Nat) (hx : x < 256) (hy : y < 256)
    (h : ∀ j, j < 8 → x.testBit j = y.testBit j) : x = y := by
  apply Nat.eq_of_testBit_eq
  intro j
  by_cases hj : j < 8
  · exact h j hj
  · have h8 : (2 : Nat) ^ 8 ≤ 2 ^ j := Nat.pow_le_pow_right (by decide) (by omega)
    rw [Nat.testBit_lt_two_pow (by omega : x < 2 ^ j), Nat.testBit_lt_two_pow (by omega : y < 2 ^ j)]

theorem blocks_eq_of_isInUse (st st1 : FS) (i : Nat) (hx : st.blocks i < 256)
    (hy : st1.blocks i < 256) (h : ∀ blk, isInUse st1 blk = isInUse st blk) :
    st1.blocks i = st.blocks i := by
  apply byte_ext _ _ hy hx
  intro j hj
  have := h (8 * i + j)
  rw [isInUse_eq, isInUse_eq] at this
  have e1 : (8 * i + j) / 8 = i := by omega
  have e2 : (8 * i + j) % 8 = j := by omega
  rw [e1, e2] at this
  simpa using this

/-! ## The free-block scan -/

theorem getEmptyBlockLoop_spec (st : FS) : ∀ n start,
    getEmptyBlockLoop st n start = NULLPTR ∨
    (start ≤ getEmptyBlockLoop st n start ∧ getEmptyBlockLoop st n start < start + n ∧
      isInUse st (getEmptyBlockLoop st n start) = false) := by
  intro n
  induction n with
  | zero => intro start; left; rfl
  | succ n ih =>
    intro start
    simp only [getEmptyBlockLoop]
    by_cases h : isInUse st start = true
    · simp only [h, Bool.not_true, Bool.false_eq_true, if_false]
      rcases ih (start + 1) with h1 | ⟨h1, h2, h3⟩
      · left; exact h1
      · right; exact ⟨by omega, by omega, h3⟩
    · have h' : isInUse st start = false := by simpa using h
      simp only [h', Bool.not_false, if_true]
      right; exact ⟨Nat.le_refl _, by omega, trivial⟩

theorem getEmptyBlock_spec (st : FS) (h : getEmptyBlock st ≠ NULLPTR) :
    getEmptyBlock st < 56 ∧ isInUse st (getEmptyBlock st) = false := by
  rcases getEmptyBlockLoop_spec st (NUMBLOCKBYTES * 8) 0 with h1 | ⟨-, h2, h3⟩
  · exact absurd h1 h
  · exact ⟨by simpa [NUMBLOCKBYTES] using h2, h3⟩

theorem getEmptyBlock_congr (st st1 : FS) (h : st1.blocks = st.blocks) :
    getEmptyBlock st1 = getEmptyBlock st := by
  have hi : ∀ b, isInUse st1 b = isInUse st b := by intro b; simp only [isInUse, h]
  have : ∀ n start, getEmptyBlockLoop st1 n start = getEmptyBlockLoop st n start := by
    intro n
    induction n with
    | zero => intro start; rfl
    | succ n ih => intro start; simp only [getEmptyBlockLoop, hi, ih]
  exact this _ _

/-! ## Reading a chain -/

theorem getBlockPtr_eq (st : FS) (b : Nat) : getBlockPtr st b = st.eeprom (cell b 31) % 256 := rfl

theorem toInt16_of_lt (n : Nat) (h : n < 32768) : toInt16 n = (n : Int) := by
  unfold toInt16
  have : n % 65536 = n := Nat.mod_eq_of_lt (by omega)
  rw [this, if_pos h]

/-- Reading a closed chain from the start of a block delivers its bytes. -/
theorem readLoop_chain (h size : Nat) (hsize : size < 65536) :
    ∀ (blks : List Nat) (fuel amRead : Nat) (st : FS) (buffer : Mem) (data : Nat → Nat)
      (len : Nat),
      Chain st.eeprom blks (st.fileBlock h) data len →
      st.filePosition h &&& 31 = 0 → amRead + len ≤ size → blks.length < fuel →
      ∃ r, readLoop h size fuel amRead st buffer = some r ∧ r.1 = toInt16 (amRead + len) ∧
        ∀ k, r.2.2 k = if amRead ≤ k ∧ k < amRead + len then data (k - amRead) else buffer k := by
  intro blks
  induction blks with
  | nil =>
    intro fuel amRead st buffer data len hch hoff hle hfuel
    obtain ⟨fuel, rfl⟩ : ∃ f, fuel = f + 1 := ⟨fuel - 1, by simp at hfuel; omega⟩
    obtain ⟨ht1, ht2, hlen, hdata⟩ := hch
    have htlt : st.eeprom (cell (st.fileBlock h) 31) % 256 < 256 := Nat.mod_lt _ (by decide)
    have hend : (getBlockPtr st (st.fileBlock h) &&& ISLEN) = ISLEN := by
      rw [getBlockPtr_eq]; exact (byte_isLen _ htlt).2 ht1
    have hbl : getBlockPtr st (st.fileBlock h) &&& 127 = len := by
      rw [getBlockPtr_eq, and127, hlen]
    have hnn : getBlockPtr st (st.fileBlock h) ≠ NULLPTR := by rw [getBlockPtr_eq]; exact ht2
    have hl31 : len ≤ 127 := by omega
    simp only [readLoop]
    by_cases hlt : amRead < size
    · simp only [if_pos hlt, hoff, hend, beq_self_eq_true, true_and, hnn, ne_eq, not_false_eq_true,
        if_true, hbl, Nat.add_zero, Nat.cast_zero, Int.sub_zero, Nat.sub_zero]
      have hm : (size - amRead) % 65536 = size - amRead := Nat.mod_eq_of_lt (by omega)
      rw [hm]
      by_cases hA : size - amRead > len ∧ (len : Int) > 0
      · rw [if_pos hA]
        refine ⟨_, rfl, ?_, ?_⟩
        · simp only
          rw [Nat.mod_eq_of_lt (by omega)]
        · intro k
          simp only [eeprom_read_block]
          split_ifs with hk
          · exact hdata _ (by omega)
          · rfl
      · rw [if_neg hA]
        by_cases hB : (len : Int) > 0
        · rw [if_pos hB]
          have hrem : size - amRead = len := by omega
          refine ⟨_, rfl, ?_, ?_⟩
          · simp only
            rw [Nat.mod_eq_of_lt (by omega), hrem]
          · intro k
            simp only [eeprom_read_block, hrem]
            split_ifs with hk
            · exact hdata _ (by omega)
            · rfl
        · rw [if_neg hB]
          have hl0 : len = 0 := by omega
          refine ⟨_, rfl, ?_, ?_⟩
          · simp only
            rw [hl0, Nat.add_zero]
          · intro k
            rw [hl0]
            simp only [Nat.add_zero]
            rw [if_neg (by omega)]
    · rw [if_neg hlt]
      have hl0 : len = 0 := by omega
      refine ⟨_, rfl, ?_, ?_⟩
      · simp only
        rw [hl0, Nat.add_zero]
      · intro k
        rw [hl0]
        simp only [Nat.add_zero]
        rw [if_neg (by omega)]
  | cons t blks ih =>
    intro fuel amRead st buffer data len hch hoff hle hfuel
    obtain ⟨fuel, rfl⟩ : ∃ f, fuel = f + 1 := ⟨fuel - 1, by simp at hfuel; omega⟩
    obtain ⟨ht, ht128, hlen, hdata, hrest⟩ := hch
    have hend : ¬ ((getBlockPtr st (st.fileBlock h) &&& ISLEN) = ISLEN) := by
      rw [getBlockPtr_eq, ht]
      intro hc
      have := (byte_isLen t (by omega)).1 hc
      omega
    have hlt : amRead < size := by omega
    have hm : (size - amRead) % 65536 = size - amRead := Nat.mod_eq_of_lt (by omega)
    have hA : size - amRead > BLOCKSIZE - 1 ∧ ((BLOCKSIZE - 1 : Nat) : Int) > 0 := by
      simp only [BLOCKSIZE]; constructor
      · omega
      · decide
    simp only [readLoop, if_pos hlt, hoff, hend, beq_iff_eq, false_and, if_false,
      Nat.add_zero, Nat.cast_zero, Int.sub_zero, Nat.sub_zero, hm, hA, and_self, if_true,
      Bool.false_eq_true]
    have hgp : getBlockPtr st (st.fileBlock h) = t := by rw [getBlockPtr_eq, ht]
    rw [hgp]
    have hpos : ((st.filePosition h + (BLOCKSIZE - 1)) % 256 + 1) % 256 &&& 31 = 0 := by
      rw [and31] at hoff ⊢
      simp only [BLOCKSIZE]
      omega
    obtain ⟨r, hr, hr1, hb⟩ := ih fuel ((amRead + (BLOCKSIZE - 1)) % 65536)
      { st with
        fileBlock := upd st.fileBlock h t
        filePosition := upd (upd st.filePosition h ((st.filePosition h + (BLOCKSIZE - 1)) % 256)) h
          (((st.filePosition h + (BLOCKSIZE - 1)) % 256 + 1) % 256) }
      (eeprom_read_block buffer amRead (FILEINDEX + st.fileBlock h * BLOCKSIZE)
        (BLOCKSIZE - 1) st.eeprom)
      (fun c => data (31 + c)) (len - 31)
      (by simpa [upd] using hrest)
      (by simpa [upd] using hpos)
      (by simp only [BLOCKSIZE]; omega)
      (by simp at hfuel; omega)
    refine ⟨r, ?_, ?_, ?_⟩
    · simpa [upd] using hr
    · have e1 : (amRead + (BLOCKSIZE - 1)) % 65536 + (len - 31) = amRead + len := by
        simp only [BLOCKSIZE]; omega
      rw [e1] at hr1
      exact hr1
    · intro k
      rw [hb k]
      have e2 : (amRead + (BLOCKSIZE - 1)) % 65536 = amRead + 31 := by
        simp only [BLOCKSIZE]; omega
      rw [e2]
      simp only [eeprom_read_block, BLOCKSIZE]
      by_cases h1 : amRead + 31 ≤ k ∧ k < amRead + 31 + (len - 31)
      · rw [if_pos h1, if_pos (by omega)]
        congr 1
        omega
      · rw [if_neg h1]
        by_cases h2 : amRead ≤ k ∧ k < amRead + (32 - 1)
        · rw [if_pos h2, if_pos (by omega)]
          have := hdata (k - amRead) (by omega)
          simpa [cell, BLOCKSIZE] using this
        · rw [if_neg h2, if_neg (by omega)]

/-! ## Writing a chain -/

theorem writeBlockLength_eeprom (st : FS) (h : Nat) (hnn : st.fileBlock h ≠ NULLPTR) (a : Nat) :
    (writeBlockLength st h).eeprom a =
      if a = cell (st.fileBlock h) 31 then (st.filePosition h &&& 31) ||| ISLEN
      else st.eeprom a := by
  simp only [writeBlockLength, if_neg hnn, setBlockPtr, eeprom_update_byte, upd, cell,
    NEXTBLOCKPTR]

theorem chain_congr (e : Mem) : ∀ (blks : List Nat) (b : Nat) (d1 d2 : Nat → Nat) (len : Nat),
    (∀ c, c < len → d1 c = d2 c) → Chain e blks b d1 len → Chain e blks b d2 len := by
  intro blks
  induction blks with
  | nil =>
    intro b d1 d2 len hd hc
    obtain ⟨h1, h2, h3, h4⟩ := hc
    exact ⟨h1, h2, h3, fun c hc => by rw [h4 c hc, hd c hc]⟩
  | cons t blks ih =>
    intro b d1 d2 len hd hc
    obtain ⟨h1, h2, h3, h4, h5⟩ := hc
    refine ⟨h1, h2, h3, fun c hc => by rw [h4 c hc, hd c (by omega)], ?_⟩
    exact ih _ _ _ _ (fun c hc => hd _ (by omega)) h5

theorem isInUse_congr (st1 st : FS) (hb : st1.blocks = st.blocks) (blk : Nat) :
    isInUse st1 blk = isInUse st blk := by
  simp only [isInUse, hb]

/-- A `write` that starts at the head of a block in use leaves, once the length is
stamped, a closed chain from that block holding the bytes written; the further
blocks of the chain were free before and are in use after, and no other block in
use is touched. -/
theorem writeLoop_chain (h : Nat) (buffer : Mem) (size : Nat) (hsize : size < 65536) :
    ∀ (fuel i : Nat) (st st1 : FS),
      i ≤ size → st.filePosition h &&& 31 = 0 → isInUse st (st.fileBlock h) = true →
      st.fileBlock h ≠ NULLPTR →
      writeLoop h buffer size fuel i st = some (0, st1) →
      ∃ blks : List Nat,
        Chain (writeBlockLength st1 h).eeprom blks (st.fileBlock h)
          (fun c => buffer (i + c) % 256) (size - i) ∧
        blks.length < fuel ∧
        (∀ blk, blk ∈ blks → blk < 56 ∧ isInUse st blk = false) ∧
        (∀ blk, isInUse st1 blk = (isInUse st blk || decide (blk ∈ blks))) ∧
        (∀ blk c, c < 32 → isInUse st blk = true → blk ≠ st.fileBlock h →
          (writeBlockLength st1 h).eeprom (cell blk c) = st.eeprom (cell blk c)) := by
  intro fuel
  induction fuel with
  | zero => intro i st st1 _ _ _ _ hw; simp [writeLoop] at hw
  | succ fuel ih =>
    intro i st st1 hi hoff hin hnn hw
    simp only [writeLoop] at hw
    by_cases hlt : i < size
    · rw [if_pos hlt] at hw
      simp only [hoff, Nat.add_zero, Nat.sub_zero] at hw
      have hm : (size - i) % 65536 = size - i := Nat.mod_eq_of_lt (by omega)
      rw [hm] at hw
      by_cases hbig : size - i > BLOCKSIZE - 1
      · rw [if_pos hbig] at hw
        have hge : ∀ e, getEmptyBlock { st with eeprom := e } = getEmptyBlock st :=
          fun e => getEmptyBlock_congr _ _ rfl
        simp only [hge] at hw
        by_cases hnb : getEmptyBlock st = NULLPTR
        · rw [if_pos hnb] at hw
          simp [OUTOFSPACE] at hw
        · rw [if_neg hnb] at hw
          obtain ⟨hnb56, hnbfree⟩ := getEmptyBlock_spec st hnb
          generalize getEmptyBlock st = nb at hw hnb hnb56 hnbfree
          have hne : nb ≠ st.fileBlock h := by
            intro hc; rw [hc, hin] at hnbfree; exact absurd hnbfree (by simp)
          generalize hs5 : FS.mk _ _ _ _ _ _ _ = st5 at hw
          have hb5 : st5.blocks = (setInUse st nb true).blocks := by rw [← hs5]; rfl
          have hiu5 : ∀ blk, isInUse st5 blk = if blk = nb then true else isInUse st blk :=
            fun blk => (isInUse_congr _ _ hb5 blk).trans (isInUse_setInUse st nb blk true)
          have hfb5 : st5.fileBlock h = nb := by rw [← hs5]; simp only [upd, if_true]
          have hfp5 : st5.filePosition h = (st.filePosition h + (BLOCKSIZE - 0)) % 256 := by
            rw [← hs5]; simp only [upd, if_true]; rfl
          have he5 : ∀ blk c, c < 32 → blk ≠ nb →
              st5.eeprom (cell blk c) =
                if blk = st.fileBlock h then
                  (if c = 31 then nb else buffer (i + c))
                else st.eeprom (cell blk c) := by
            intro blk c hc hbn
            rw [← hs5]
            simp only [setInUse_eeprom]
            simp only [setBlockPtr, eeprom_update_byte, upd, eeprom_update_block, cell,
              FILEINDEX, BLOCKSIZE, NEXTBLOCKPTR, BLOCKINDEX]
            rw [if_neg (by omega), if_neg (by omega)]
            by_cases hb : blk = st.fileBlock h
            · subst hb
              by_cases hc31 : c = 31
              · subst hc31
                simp
              · rw [if_neg (by omega), if_pos (by omega), if_pos rfl, if_neg hc31]
                congr 1
                omega
            · rw [if_neg (by omega), if_neg (by omega), if_neg hb]
          clear hs5
          obtain ⟨blks, hch, hlen, hfree, huse, hframe⟩ := ih _ st5 _
            (by simp only [BLOCKSIZE] at hbig ⊢; omega)
            (by
              rw [hfp5]
              rw [and31] at hoff ⊢
              simp only [BLOCKSIZE]
              omega)
            (by rw [hfb5, hiu5, if_pos rfl])
            (by
              rw [hfb5]
              simp only [NULLPTR] at hnb ⊢
              omega)
            hw
          rw [hfb5] at hch hframe
          have hE : ∀ blk c, c < 32 → blk ≠ nb → isInUse st blk = true →
              (writeBlockLength st1 h).eeprom (cell blk c) =
                if blk = st.fileBlock h then
                  (if c = 31 then nb else buffer (i + c))
                else st.eeprom (cell blk c) := by
            intro blk c hc hbn hbu
            rw [hframe blk c hc (by rw [hiu5, if_neg hbn]; exact hbu) hbn]
            exact he5 blk c hc hbn
          refine ⟨nb :: blks, ?_, ?_, ?_, ?_, ?_⟩
          · refine ⟨?_, by omega, by simp only [BLOCKSIZE] at hbig; omega, ?_, ?_⟩
            · rw [hE _ 31 (by omega) (Ne.symm hne) hin, if_pos rfl, if_pos rfl]
              exact Nat.mod_eq_of_lt (by omega)
            · intro c hc
              rw [hE _ c (by omega) (Ne.symm hne) hin, if_pos rfl, if_neg (by omega)]
            · refine chain_congr _ _ _ _ _ _ ?_ (by
                have e1 : size - (i + (BLOCKSIZE - 1)) = size - i - 31 := by
                  simp only [BLOCKSIZE]; omega
                rw [e1] at hch
                exact hch)
              intro c _
              simp only [BLOCKSIZE]
              congr 2
              omega
          · simp only [List.length_cons]; omega
          · intro blk hmem
            rcases List.mem_cons.1 hmem with rfl | hmem
            · exact ⟨hnb56, hnbfree⟩
            · obtain ⟨h1, h2⟩ := hfree blk hmem
              rw [hiu5] at h2
              by_cases hbn : blk = nb
              · rw [if_pos hbn] at h2; exact absurd h2 (by simp)
              · rw [if_neg hbn] at h2; exact ⟨h1, h2⟩
          · intro blk
            rw [huse blk, hiu5]
            by_cases hbn : blk = nb
            · simp [hbn]
            · simp [hbn]
          · intro blk c hc hbu hbb
            have hbn : blk ≠ nb := by
              intro hc2; rw [hc2, hnbfree] at hbu; exact absurd hbu (by simp)
            rw [hE blk c hc hbn hbu, if_neg hbb]
      · rw [if_neg hbig] at hw
        cases fuel with
        | zero => simp [writeLoop] at hw
        | succ fuel =>
          simp only [writeLoop] at hw
          rw [if_neg (by omega)] at hw
          simp only [Option.some.injEq, Prod.mk.injEq, true_and] at hw
          subst hw
          have hL : size - i ≤ 31 := by simp only [BLOCKSIZE] at hbig; omega
          have hpos : ((st.filePosition h + (size - i)) % 256) &&& 31 = size - i := by
            rw [and31] at hoff ⊢
            omega
          have hE : ∀ a, (writeBlockLength
              { st with
                eeprom := eeprom_update_block (fun k => buffer (i + k))
                  (FILEINDEX + st.fileBlock h * BLOCKSIZE) (size - i) st.eeprom
                filePosition := upd st.filePosition h ((st.filePosition h + (size - i)) % 256) }
              h).eeprom a =
              if a = cell (st.fileBlock h) 31 then (size - i) + 128
              else if cell (st.fileBlock h) 0 ≤ a ∧ a < cell (st.fileBlock h) 0 + (size - i)
                then buffer (i + (a - cell (st.fileBlock h) 0))
              else st.eeprom a := by
            intro a
            rw [writeBlockLength_eeprom _ _ (by exact hnn)]
            simp only [upd, if_true, hpos, eeprom_update_block, cell, Nat.add_zero]
            rw [len_or_isLen _ (by omega)]
          refine ⟨[], ?_, by simp, by simp, by simp [isInUse], ?_⟩
          · refine ⟨?_, ?_, ?_, ?_⟩
            · rw [hE, if_pos rfl]; omega
            · rw [hE, if_pos rfl]; omega
            · rw [hE, if_pos rfl]; omega
            · intro c hc
              rw [hE, if_neg (by simp only [cell]; omega),
                if_pos (by simp only [cell]; omega)]
              congr 2
              simp only [cell]; omega
          · intro blk c hc hbu hbb
            rw [hE, if_neg (by simp only [cell, BLOCKSIZE]; omega),
              if_neg (by simp only [cell, BLOCKSIZE]; omega)]
    · rw [if_neg hlt] at hw
      simp only [Option.some.injEq, Prod.mk.injEq, true_and] at hw
      subst hw
      have hz : size - i = 0 := by omega
      refine ⟨[], ?_, by simp, by simp, by simp, ?_⟩
      · refine ⟨?_, ?_, ?_, ?_⟩
        · rw [writeBlockLength_eeprom _ _ hnn, if_pos rfl, hoff]; decide
        · rw [writeBlockLength_eeprom _ _ hnn, if_pos rfl, hoff]; decide
        · rw [writeBlockLength_eeprom _ _ hnn, if_pos rfl, hoff, hz]; decide
        · intro c hc; omega
      · intro blk c hc hbu hbb
        rw [writeBlockLength_eeprom _ _ hnn, if_neg (by simp only [cell, BLOCKSIZE]; omega)]

/-! ## Creating a file -/

theorem wipeLoop_end (fuel : Nat) (st : FS) (p : Nat) (hp : (p &&& ISLEN) = ISLEN) :
    wipeLoop (fuel + 1) p st = some st := by
  simp only [wipeLoop, hp, ne_eq, not_true_eq_false, if_false]

/-- `open_for_write` of a file that does not exist yet, when it returns the id:
the file gets the first free block as its (empty) start block. -/
theorem open_for_write_new (fuel : Nat) (st st1 : FS) (f : Nat)
    (hnew : st.filePtrs f = NULLPTR)
    (ho : open_for_write fuel st f = some ((f : Int), st1)) :
    getEmptyBlock st < 56 ∧ isInUse st (getEmptyBlock st) = false ∧
    st1.fileAccess f = FILEWRITE ∧ st1.filePosition f = 0 ∧
    st1.fileBlock f = getEmptyBlock st ∧ st1.filePtrs f = getEmptyBlock st ∧
    st1.FILEPTRINDEX = st.FILEPTRINDEX ∧
    st1.blocks = (setInUse st (getEmptyBlock st) true).blocks ∧
    (∀ a, st1.eeprom a =
      if a = cell (getEmptyBlock st) 31 then NULLPTR
      else if a = BLOCKINDEX + getEmptyBlock st / 8 then
        (setInUse st (getEmptyBlock st) true).blocks (getEmptyBlock st / 8)
      else if a = st.FILEPTRINDEX + f then getEmptyBlock st
      else st.eeprom a) := by
  unfold open_for_write at ho
  by_cases hacc : st.fileAccess f ≠ FILECLOSED
  · rw [if_pos hacc] at ho
    simp only [Option.some.injEq, Prod.mk.injEq, FILEALREADYOPEN] at ho
    have := ho.1
    omega
  · rw [if_neg hacc] at ho
    simp only [if_pos hnew, createNewFile] at ho
    by_cases hnb : getEmptyBlock st = NULLPTR
    · simp only [if_pos hnb, if_pos hnew] at ho
      simp only [Option.some.injEq, Prod.mk.injEq, OUTOFSPACE] at ho
      have := ho.1
      omega
    · obtain ⟨h56, hfree⟩ := getEmptyBlock_spec st hnb
      simp only [if_neg hnb] at ho
      generalize getEmptyBlock st = sb at ho hnb h56 hfree ⊢
      have hfp : (setBlockPtr (setInUse (setFilePtr st f sb) sb true) sb NULLPTR).filePtrs f = sb := by
        simp only [setBlockPtr, setInUse, setFilePtr, upd, if_true]
      rw [hfp, if_neg hnb] at ho
      have hgb : getBlockPtr (setBlockPtr (setInUse (setFilePtr st f sb) sb true) sb NULLPTR) sb
          = NULLPTR := by
        simp only [getBlockPtr, setBlockPtr, eeprom_read_byte, eeprom_update_byte, upd, if_true,
          NULLPTR]
      simp only [wipeFile, hfp, if_neg hnb, hgb] at ho
      cases fuel with
      | zero => simp [wipeLoop] at ho
      | succ fuel =>
        rw [wipeLoop_end _ _ _ (by decide)] at ho
        simp only [Option.some.injEq, Prod.mk.injEq, true_and] at ho
        subst ho
        refine ⟨h56, hfree, ?_, ?_, ?_, ?_, rfl, rfl, ?_⟩
        · simp only [upd, if_true]
        · simp only [upd, if_true]
        · simp only [upd, if_true]; exact hfp
        · exact hfp
        · intro a
          simp only [setBlockPtr, setInUse_eeprom, setFilePtr, eeprom_update_byte, upd, cell,
            NEXTBLOCKPTR]
          split_ifs <;> rfl

/-! ## Closing and reopening -/

theorem writeBlockLength_fields (st : FS) (f : Nat) :
    (writeBlockLength st f).filePtrs = st.filePtrs ∧
    (writeBlockLength st f).fileAccess = st.fileAccess ∧
    (writeBlockLength st f).blocks = st.blocks ∧
    (writeBlockLength st f).FILEPTRINDEX = st.FILEPTRINDEX := by
  simp only [writeBlockLength]
  split_ifs <;> exact ⟨rfl, rfl, rfl, rfl⟩

theorem close_of_open (st : FS) (f : Nat) (hex : st.filePtrs f ≠ NULLPTR)
    (hacc : st.fileAccess f ≠ FILECLOSED) :
    (close st f).1 = 0 ∧ (close st f).2.eeprom = (writeBlockLength st f).eeprom ∧
    (close st f).2.filePtrs = st.filePtrs ∧ (close st f).2.fileAccess f = FILECLOSED ∧
    (close st f).2.blocks = st.blocks ∧ (close st f).2.FILEPTRINDEX = st.FILEPTRINDEX := by
  obtain ⟨h1, -, h3, h4⟩ := writeBlockLength_fields st f
  simp only [close, if_neg hex, if_neg hacc, upd, if_true]
  exact ⟨trivial, trivial, h1, trivial, h3, h4⟩

theorem open_for_read_of_closed (st : FS) (f : Nat) (hex : st.filePtrs f ≠ NULLPTR)
    (hacc : st.fileAccess f = FILECLOSED) :
    (open_for_read st f).1 = (f : Int) ∧ (open_for_read st f).2.eeprom = st.eeprom ∧
    (open_for_read st f).2.fileBlock f = st.filePtrs f ∧
    (open_for_read st f).2.filePosition f = 0 ∧
    (open_for_read st f).2.fileAccess f = FILEREAD := by
  simp only [open_for_read, hacc, ne_eq, not_true_eq_false, if_false, if_neg hex, upd, if_true,
    and_self]

theorem initEepfs_fresh (l : Layout) (pre : FS) (f : Nat) (hf : f < MAXFILES)
    (hfresh : eeprom_read_byte pre.eeprom CONFIGUREINDEX ≠ NUMBLOCKBYTES ^^^ 0xA1) :
    (initEepfs l pre).filePtrs f = NULLPTR := by
  have hf' : f < NUMFILEPTRBYTES := hf
  simp only [initEepfs, hfresh, ne_eq, not_false_eq_true, if_true, setupEeprom, hf', NULLPTR]

theorem handle_ok (f : Nat) (hf : f < MAXFILES) : handleRejected (f : Int) = false := by
  simp only [handleRejected, NUMFILEPTRBYTES, MAXFILES] at *
  simp only [Bool.or_eq_false_iff, decide_eq_false_iff_not, not_lt]
  omega

theorem chain_length (e : Mem) : ∀ (blks : List Nat) (b : Nat) (data : Nat → Nat) (len : Nat),
    Chain e blks b data len → 31 * blks.length ≤ len := by
  intro blks
  induction blks with
  | nil => intro b data len _; simp
  | cons t blks ih =>
    intro b data len hc
    obtain ⟨-, -, h3, -, h5⟩ := hc
    have := ih _ _ _ h5
    simp only [List.length_cons]
    omega

theorem bufOf_byte (s : List Nat) (hbytes : ∀ x, x ∈ s → x < 256) (c : Nat) :
    bufOf s c % 256 = bufOf s c := by
  apply Nat.mod_eq_of_lt
  simp only [bufOf, List.getD_eq_getElem?_getD]
  by_cases hc : c < s.length
  · rw [List.getElem?_eq_getElem hc]
    exact hbytes _ (List.getElem_mem hc)
  · rw [List.getElem?_eq_none (by omega)]
    decide

/-- C1. Round trip on a freshly formatted mount: for a file id `f < 61` and a byte
string `s` (any length the `int16_t` result can report, 0, 31, 62 and lengths above
255 included), if `open_for_write(f)` returns `f` and `write(f, s, |s|)` returns 0,
then `close(f)` returns 0, `open_for_read(f)` returns `f`, and one `read(f, out, n)`
with `n >= |s|` returns exactly `|s|`, puts `s` into the first `|s|` bytes of `out`
and leaves the bytes of `out` from `|s|` on unchanged (the read is given fuel for
one pass of its loop per block). -/
theorem write_then_read_roundtrip (l : Layout) (pre : FS) (f : Nat) (s : List Nat) (n : Nat)
    (out : Mem) (fo fw fr : Nat) (st1 st2 : FS)
    (hfresh : eeprom_read_byte pre.eeprom CONFIGUREINDEX ≠ NUMBLOCKBYTES ^^^ 0xA1)
    (hf : f < MAXFILES) (hbytes : ∀ x, x ∈ s → x < 256) (hlen : s.length < 32768)
    (hn : s.length ≤ n) (hn16 : n < 65536)
    (hopen : open_for_write fo (initEepfs l pre) f = some ((f : Int), st1))
    (hwrite : write fw st1 f (bufOf s) s.length = some (0, st2))
    (hfr : s.length / 31 < fr) :
    (close st2 f).1 = 0 ∧ (open_for_read (close st2 f).2 f).1 = (f : Int) ∧
    ∃ st5 out1,
      read fr (open_for_read (close st2 f).2 f).2 f out n = some ((s.length : Int), st5, out1) ∧
      (∀ k, k < s.length → out1 k = s.getD k 0) ∧ (∀ k, s.length ≤ k → out1 k = out k) := by
  have hptr := initEepfs_fresh l pre f hf hfresh
  obtain ⟨h56, -, hacc1, hpos1, hblk1, hfp1, -, hb1, -⟩ := open_for_write_new _ _ _ _ hptr hopen
  generalize getEmptyBlock (initEepfs l pre) = sb at h56 hblk1 hfp1 hb1
  have hrej := handle_ok f hf
  have hw : writeLoop f (bufOf s) s.length fw 0 st1 = some (0, st2) := by
    simpa only [write, hrej, Bool.false_eq_true, if_false, Int.toNat_ofNat, hacc1, ne_eq,
      not_true_eq_false] using hwrite
  obtain ⟨blks, hch, -, -, -, -⟩ := writeLoop_chain f (bufOf s) s.length (by omega) fw 0 st1 st2
    (Nat.zero_le _) (by rw [hpos1]; rfl)
    (by rw [hblk1, isInUse_congr _ _ hb1, isInUse_setInUse, if_pos rfl])
    (by rw [hblk1]; simp only [NULLPTR]; omega) hw
  obtain ⟨hp2, ha2, -⟩ := writeLoop_frame _ _ _ _ _ _ _ _ hw
  have hex2 : st2.filePtrs f ≠ NULLPTR := by rw [hp2, hfp1]; simp only [NULLPTR]; omega
  have hacc2 : st2.fileAccess f ≠ FILECLOSED := by rw [ha2, hacc1]; decide
  obtain ⟨hc1, hc2, hc3, hc4, -, -⟩ := close_of_open st2 f hex2 hacc2
  have hex3 : (close st2 f).2.filePtrs f ≠ NULLPTR := by rw [hc3]; exact hex2
  obtain ⟨ho1, ho2, ho3, ho4, ho5⟩ := open_for_read_of_closed _ f hex3 hc4
  refine ⟨hc1, ho1, ?_⟩
  have hlenb := chain_length _ _ _ _ _ hch
  rw [hblk1] at hch
  obtain ⟨r, hr, hr1, hr2⟩ := readLoop_chain f n hn16 blks fr 0
    (open_for_read (close st2 f).2 f).2 out _ _
    (by rw [ho2, hc2, ho3, hc3, hp2, hfp1]; exact hch)
    (by rw [ho4]; rfl) (by omega) (by omega)
  refine ⟨r.2.1, r.2.2, ?_, ?_, ?_⟩
  · simp only [read, hrej, Bool.false_eq_true, if_false, Int.toNat_ofNat, ho5, ne_eq,
      not_true_eq_false]
    rw [hr]
    have : r.1 = (s.length : Int) := by
      rw [hr1, Nat.zero_add, Nat.sub_zero, toInt16_of_lt _ hlen]
    rw [← this]
  · intro k hk
    rw [hr2 k, if_pos (by omega)]
    simp only [Nat.zero_add, Nat.sub_zero]
    rw [bufOf_byte s hbytes]
    rfl
  · intro k hk
    rw [hr2 k, if_neg (by omega)]

theorem write_then_read_roundtrip_witness :
    (close (after (.write 9 0 (bufOf (demoBytes 64)) 64) (after (.openWrite 1 0) freshMount)) 0).1 = 0 ∧
    (open_for_read (close (after (.write 9 0 (bufOf (demoBytes 64)) 64)
      (after (.openWrite 1 0) freshMount)) 0).2 0).1 = ((0 : Nat) : Int) ∧
    ∃ st5 out1,
      read 3 (open_for_read (close (after (.write 9 0 (bufOf (demoBytes 64)) 64)
        (after (.openWrite 1 0) freshMount)) 0).2 0).2 (0 : Nat) zeroBuf 65
        = some (((demoBytes 64).length : Int), st5, out1) ∧
      (∀ k, k < (demoBytes 64).length → out1 k = (demoBytes 64).getD k 0) ∧
      (∀ k, (demoBytes 64).length ≤ k → out1 k = zeroBuf k) :=
  write_then_read_roundtrip demoLayout (boot blankDevice) 0 (demoBytes 64) 65 zeroBuf 1 9 3
    (after (.openWrite 1 0) freshMount)
    (after (.write 9 0 (bufOf (demoBytes 64)) 64) (after (.openWrite 1 0) freshMount))
    (by decide) (by decide) (by decide) (by decide) (by decide) (by decide) (by rfl) (by rfl)
    (by decide)

/-! ## The bitmap on the device -/

theorem bitmapOnDevice_congr (st st1 : FS) (hb : st1.blocks = st.blocks)
    (he : ∀ a, a < BLOCKINDEX + NUMBLOCKBYTES → st1.eeprom a = st.eeprom a)
    (h : BitmapOnDevice st) : BitmapOnDevice st1 := by
  intro i hi
  rw [hb, h i hi]
  simp only [eeprom_read_byte]
  rw [he _ (by omega)]

theorem bitmapOnDevice_setInUse (st : FS) (blk : Nat) (u : Bool) (h : BitmapOnDevice st) :
    BitmapOnDevice (setInUse st blk u) := by
  intro i hi
  simp only [eeprom_read_byte]
  rw [setInUse_eeprom]
  by_cases hidx : i = blk / 8
  · subst hidx
    rw [if_pos rfl]
    symm
    apply Nat.mod_eq_of_lt
    apply setInUse_blocks_lt
    rw [h _ hi]
    exact Nat.mod_lt _ (by decide)
  · rw [if_neg (by omega)]
    have : (setInUse st blk u).blocks i = st.blocks i := by
      simp only [setInUse, shr3, upd, if_neg hidx]
    rw [this, h i hi]
    rfl

theorem writeLoop_bitmapOnDevice (h : Nat) (buffer : Mem) (size : Nat) :
    ∀ (fuel i : Nat) (st : FS) (r : Int) (st1 : FS),
      writeLoop h buffer size fuel i st = some (r, st1) → BitmapOnDevice st →
      BitmapOnDevice st1 := by
  intro fuel
  induction fuel with
  | zero => intro i st r st1 hw; simp [writeLoop] at hw
  | succ fuel ih =>
    intro i st r st1 hw hs
    simp only [writeLoop] at hw
    split_ifs at hw with h1 h2 h3
    · simp only [Option.some.injEq, Prod.mk.injEq] at hw
      obtain ⟨-, rfl⟩ := hw
      refine bitmapOnDevice_congr st _ rfl ?_ hs
      intro a ha
      simp only [eeprom_update_block, FILEINDEX, BLOCKINDEX, NUMBLOCKBYTES] at ha ⊢
      rw [if_neg (by omega)]
    · refine ih _ _ _ _ hw ?_
      refine bitmapOnDevice_congr (setInUse (setBlockPtr (setBlockPtr _ _ _) _ _) _ _) _ rfl
        (fun _ _ => rfl) ?_
      apply bitmapOnDevice_setInUse
      refine bitmapOnDevice_congr st _ rfl ?_ hs
      intro a ha
      simp only [setBlockPtr, eeprom_update_byte, upd, eeprom_update_block, FILEINDEX,
        BLOCKINDEX, NUMBLOCKBYTES] at ha ⊢
      rw [if_neg (by omega), if_neg (by omega), if_neg (by omega)]
    · refine ih _ _ _ _ hw ?_
      refine bitmapOnDevice_congr st _ rfl ?_ hs
      intro a ha
      simp only [eeprom_update_block, FILEINDEX, BLOCKINDEX, NUMBLOCKBYTES] at ha ⊢
      rw [if_neg (by omega)]
    · simp only [Option.some.injEq, Prod.mk.injEq] at hw
      obtain ⟨-, rfl⟩ := hw
      exact hs

theorem writeBlockLength_bitmapOnDevice (st : FS) (f : Nat) (h : BitmapOnDevice st) :
    BitmapOnDevice (writeBlockLength st f) := by
  simp only [writeBlockLength]
  split_ifs
  · exact h
  · refine bitmapOnDevice_congr st _ rfl ?_ h
    intro a ha
    simp only [setBlockPtr, eeprom_update_byte, upd, FILEINDEX, BLOCKINDEX, NUMBLOCKBYTES] at ha ⊢
    rw [if_neg (by omega)]

/-! ## Wiping a chain -/

theorem chain_of_agree (e e1 : Mem) (hag : ∀ a, FILEINDEX ≤ a → e1 a = e a) :
    ∀ (blks : List Nat) (b : Nat) (data : Nat → Nat) (len : Nat),
      Chain e blks b data len → Chain e1 blks b data len := by
  intro blks
  induction blks with
  | nil =>
    intro b data len hc
    obtain ⟨h1, h2, h3, h4⟩ := hc
    refine ⟨?_, ?_, ?_, ?_⟩
    · rw [hag _ (by simp only [cell]; omega)]; exact h1
    · rw [hag _ (by simp only [cell]; omega)]; exact h2
    · rw [hag _ (by simp only [cell]; omega)]; exact h3
    · intro c hc
      rw [hag _ (by simp only [cell]; omega)]; exact h4 c hc
  | cons t blks ih =>
    intro b data len hc
    obtain ⟨h1, h2, h3, h4, h5⟩ := hc
    refine ⟨?_, h2, h3, ?_, ih _ _ _ h5⟩
    · rw [hag _ (by simp only [cell]; omega)]; exact h1
    · intro c hc
      rw [hag _ (by simp only [cell]; omega)]; exact h4 c hc

/-- `wipeFile`'s walk over a closed chain ends and frees exactly the blocks after
the first. -/
theorem wipeLoop_chain : ∀ (blks : List Nat) (fuel b : Nat) (st : FS) (data : Nat → Nat)
    (len : Nat), Chain st.eeprom blks b data len → blks.length < fuel →
    BitmapOnDevice st →
    ∃ st1, wipeLoop fuel (getBlockPtr st b) st = some st1 ∧
      (∀ blk, isInUse st1 blk = (isInUse st blk && !decide (blk ∈ blks))) ∧
      (∀ a, FILEINDEX ≤ a → st1.eeprom a = st.eeprom a) ∧
      BitmapOnDevice st1 := by
  intro blks
  induction blks with
  | nil =>
    intro fuel b st data len hc hfuel hs
    obtain ⟨fuel, rfl⟩ : ∃ f, fuel = f + 1 := ⟨fuel - 1, by simp at hfuel; omega⟩
    obtain ⟨h1, -, -, -⟩ := hc
    refine ⟨st, ?_, by simp, fun _ _ => rfl, hs⟩
    apply wipeLoop_end
    rw [getBlockPtr_eq]
    exact (byte_isLen _ (Nat.mod_lt _ (by decide))).2 h1
  | cons t blks ih =>
    intro fuel b st data len hc hfuel hs
    obtain ⟨fuel, rfl⟩ : ∃ f, fuel = f + 1 := ⟨fuel - 1, by simp at hfuel; omega⟩
    obtain ⟨h1, h2, -, -, h5⟩ := hc
    have hgp : getBlockPtr st b = t := by rw [getBlockPtr_eq, h1]
    have hne : ¬ ((t &&& ISLEN) = ISLEN) := by
      intro hc
      have := (byte_isLen t (by omega)).1 hc
      omega
    have hag : ∀ a, FILEINDEX ≤ a → (setInUse st t false).eeprom a = st.eeprom a := by
      intro a ha
      rw [setInUse_eeprom, if_neg (by simp only [FILEINDEX, BLOCKINDEX] at ha ⊢; omega)]
    obtain ⟨st1, hw, hu, he, hs1⟩ := ih fuel t (setInUse st t false) _ _
      (chain_of_agree _ _ hag _ _ _ _ h5) (by simp at hfuel; omega)
      (bitmapOnDevice_setInUse _ _ _ hs)
    refine ⟨st1, ?_, ?_, ?_, hs1⟩
    · rw [hgp]
      simp only [wipeLoop, ne_eq, hne, not_false_eq_true, if_true]
      exact hw
    · intro blk
      rw [hu blk, isInUse_setInUse]
      by_cases hb : blk = t
      · simp [hb]
      · simp [hb]
    · intro a ha
      rw [he a ha, hag a ha]

/-! ## Space reclamation -/

/-- Space reclamation when the device copy of the bitmap equals the mirror: in a
mounted state of that kind in which file `f < 61` does not exist, if
`open_for_write(f)` returns `f` and `write(f, s, |s|)` returns 0, then `close(f)`
returns 0, `delete_file(f)` returns 0 (given fuel for one step per block), the file
does not exist afterwards, and every bitmap byte is again what it was, in the
mirror and in the device copy. -/
theorem delete_reclaims_space (st : FS) (f : Nat) (s : List Nat) (fo fw fd : Nat)
    (st1 st2 : FS)
    (hidx : st.FILEPTRINDEX = BLOCKINDEX + NUMBLOCKBYTES) (hsync : BitmapOnDevice st)
    (hf : f < MAXFILES) (hnew : fileExists st f = false) (hlen : s.length < 65536)
    (hopen : open_for_write fo st f = some ((f : Int), st1))
    (hwrite : write fw st1 f (bufOf s) s.length = some (0, st2))
    (hfd : s.length / 31 < fd) :
    (close st2 f).1 = 0 ∧
    ∃ st4, delete_file fd (close st2 f).2 f = some (0, st4) ∧ fileExists st4 f = false ∧
      ∀ i, i < NUMBLOCKBYTES →
        st4.blocks i = st.blocks i ∧
        eeprom_read_byte st4.eeprom (BLOCKINDEX + i) = eeprom_read_byte st.eeprom (BLOCKINDEX + i) := by
  have hptr : st.filePtrs f = NULLPTR := by simpa [fileExists] using hnew
  obtain ⟨h56, hfree, hacc1, hpos1, hblk1, hfp1, hidx1, hb1, he1⟩ :=
    open_for_write_new _ _ _ _ hptr hopen
  generalize getEmptyBlock st = sb at h56 hfree hblk1 hfp1 hb1 he1
  have hu1 : ∀ blk, isInUse st1 blk = if blk = sb then true else isInUse st blk :=
    fun blk => (isInUse_congr _ _ hb1 blk).trans (isInUse_setInUse st sb blk true)
  have hs1 : BitmapOnDevice st1 := by
    refine bitmapOnDevice_congr (setInUse st sb true) st1 hb1 ?_
      (bitmapOnDevice_setInUse st sb true hsync)
    intro a ha
    rw [he1 a, setInUse_eeprom, hidx]
    simp only [cell, FILEINDEX, BLOCKINDEX, NUMBLOCKBYTES] at ha ⊢
    rw [if_neg (by omega)]
    by_cases h1 : a = 1 + sb / 8
    · rw [if_pos h1, if_pos h1]
    · rw [if_neg h1, if_neg h1, if_neg (by omega)]
  have hrej := handle_ok f hf
  have hw : writeLoop f (bufOf s) s.length fw 0 st1 = some (0, st2) := by
    simpa only [write, hrej, Bool.false_eq_true, if_false, Int.toNat_ofNat, hacc1, ne_eq,
      not_true_eq_false] using hwrite
  obtain ⟨blks, hch, -, hbfree, hu2, -⟩ := writeLoop_chain f (bufOf s) s.length hlen fw 0 st1 st2
    (Nat.zero_le _) (by rw [hpos1]; rfl)
    (by rw [hblk1, hu1, if_pos rfl])
    (by rw [hblk1]; simp only [NULLPTR]; omega) hw
  have hs2 := writeLoop_bitmapOnDevice _ _ _ _ _ _ _ _ hw hs1
  obtain ⟨hp2, ha2, hidx2⟩ := writeLoop_frame _ _ _ _ _ _ _ _ hw
  have hex2 : st2.filePtrs f ≠ NULLPTR := by rw [hp2, hfp1]; simp only [NULLPTR]; omega
  have hacc2 : st2.fileAccess f ≠ FILECLOSED := by rw [ha2, hacc1]; decide
  obtain ⟨hc1, hc2, hc3, hc4, hc5, hc6⟩ := close_of_open st2 f hex2 hacc2
  refine ⟨hc1, ?_⟩
  generalize (close st2 f).2 = st3 at hc2 hc3 hc4 hc5 hc6
  have hs3 : BitmapOnDevice st3 :=
    bitmapOnDevice_congr (writeBlockLength st2 f) st3
      (by rw [hc5, (writeBlockLength_fields st2 f).2.2.1]) (fun a _ => by rw [hc2])
      (writeBlockLength_bitmapOnDevice st2 f hs2)
  have hfp3 : st3.filePtrs f = sb := by rw [hc3, hp2, hfp1]
  have hlenb := chain_length _ _ _ _ _ hch
  rw [hblk1, ← hc2] at hch
  obtain ⟨w, hwl, hu3, -, hsw⟩ := wipeLoop_chain blks fd sb st3 _ _ hch (by omega) hs3
  obtain ⟨hwp, -, hwi, -, -⟩ := wipeLoop_frame _ _ _ _ hwl
  have hdel : delete_file fd st3 f =
      some (0, setFilePtr (setInUse (setBlockPtr w sb NULLPTR) sb false) f NULLPTR) := by
    have hsb : ¬ sb = NULLPTR := by simp only [NULLPTR]; omega
    have hacc3 : ¬ st3.fileAccess f ≠ FILECLOSED := by rw [hc4]; simp
    have hfpw : (setBlockPtr w sb NULLPTR).filePtrs f = sb := by
      simp only [setBlockPtr]; rw [hwp, hfp3]
    simp only [delete_file, hfp3, if_neg hsb, if_neg hacc3, wipeFile, hwl, hfpw]
  refine ⟨_, hdel, ?_, ?_⟩
  · simp only [fileExists, setFilePtr, upd, if_true, bne_self_eq_false]
  · have hs4 : BitmapOnDevice (setFilePtr (setInUse (setBlockPtr w sb NULLPTR) sb false) f NULLPTR) := by
      refine bitmapOnDevice_congr (setInUse (setBlockPtr w sb NULLPTR) sb false) _ rfl ?_
        (bitmapOnDevice_setInUse _ _ _
          (bitmapOnDevice_congr w _ rfl ?_ hsw))
      · intro a ha
        have hi4 : (setInUse (setBlockPtr w sb NULLPTR) sb false).FILEPTRINDEX
            = BLOCKINDEX + NUMBLOCKBYTES := by
          show w.FILEPTRINDEX = _
          rw [hwi, hc6, hidx2, hidx1, hidx]
        simp only [setFilePtr, eeprom_update_byte, upd, hi4]
        rw [if_neg (by omega)]
      · intro a ha
        simp only [setBlockPtr, eeprom_update_byte, upd, FILEINDEX, BLOCKINDEX, NUMBLOCKBYTES]
          at ha ⊢
        rw [if_neg (by omega)]
    have hu4 : ∀ blk,
        isInUse (setFilePtr (setInUse (setBlockPtr w sb NULLPTR) sb false) f NULLPTR) blk
          = isInUse st blk := by
      intro blk
      have e1 : isInUse (setFilePtr (setInUse (setBlockPtr w sb NULLPTR) sb false) f NULLPTR) blk
          = isInUse (setInUse w sb false) blk := isInUse_congr _ _ rfl blk
      rw [e1, isInUse_setInUse, hu3, isInUse_congr st3 st2 hc5, hu2, hu1]
      by_cases hb : blk = sb
      · rw [if_pos hb, hb, hfree]
      · rw [if_neg hb, if_neg hb]
        by_cases hm : blk ∈ blks
        · have := (hbfree blk hm).2
          rw [hu1, if_neg hb] at this
          simp [hm, this]
        · simp [hm]
    intro i hi
    have hlt : st.blocks i < 256 := by
      rw [hsync i hi]; exact Nat.mod_lt _ (by decide)
    have hlt4 : (setFilePtr (setInUse (setBlockPtr w sb NULLPTR) sb false) f NULLPTR).blocks i
        < 256 := by
      rw [hs4 i hi]; exact Nat.mod_lt _ (by decide)
    have hbe := blocks_eq_of_isInUse st _ i hlt hlt4 hu4
    refine ⟨hbe, ?_⟩
    rw [← hs4 i hi, ← hsync i hi, hbe]

theorem delete_reclaims_space_witness :
    (close (after (.write 9 2 (bufOf (demoBytes 200)) 200) (after (.openWrite 1 2) coldMount)) 2).1
      = 0 ∧
    ∃ st4,
      delete_file 7
        (close (after (.write 9 2 (bufOf (demoBytes 200)) 200) (after (.openWrite 1 2) coldMount))
          2).2 2 = some (0, st4) ∧
      fileExists st4 2 = false ∧
      ∀ i, i < NUMBLOCKBYTES →
        st4.blocks i = coldMount.blocks i ∧
        eeprom_read_byte st4.eeprom (BLOCKINDEX + i)
          = eeprom_read_byte coldMount.eeprom (BLOCKINDEX + i) := by
  set_option maxRecDepth 100000 in
  exact delete_reclaims_space coldMount 2 (demoBytes 200) 1 9 7
    (after (.openWrite 1 2) coldMount)
    (after (.write 9 2 (bufOf (demoBytes 200)) 200) (after (.openWrite 1 2) coldMount))
    (by rfl)
    (show ∀ i, i < NUMBLOCKBYTES →
      coldMount.blocks i = eeprom_read_byte coldMount.eeprom (BLOCKINDEX + i) by decide)
    (by decide) (by rfl) (by decide) (by rfl) (by rfl) (by decide)

/-! ## First fit -/

theorem getEmptyBlockLoop_first (st : FS) : ∀ n start, start + n ≤ NULLPTR →
    (getEmptyBlockLoop st n start = NULLPTR ∧
      ∀ b, start ≤ b → b < start + n → isInUse st b = true) ∨
    (start ≤ getEmptyBlockLoop st n start ∧ getEmptyBlockLoop st n start < start + n ∧
      isInUse st (getEmptyBlockLoop st n start) = false ∧
      ∀ b, start ≤ b → b < getEmptyBlockLoop st n start → isInUse st b = true) := by
  intro n
  induction n with
  | zero =>
    intro start _
    left
    exact ⟨rfl, fun b h1 h2 => by omega⟩
  | succ n ih =>
    intro start hle
    simp only [getEmptyBlockLoop]
    by_cases h : isInUse st start = true
    · simp only [h, Bool.not_true, Bool.false_eq_true, if_false]
      rcases ih (start + 1) (by omega) with ⟨h1, h2⟩ | ⟨h1, h2, h3, h4⟩
      · left
        refine ⟨h1, fun b hb1 hb2 => ?_⟩
        by_cases hb : b = start
        · rw [hb]; exact h
        · exact h2 b (by omega) (by omega)
      · right
        refine ⟨by omega, by omega, h3, fun b hb1 hb2 => ?_⟩
        by_cases hb : b = start
        · rw [hb]; exact h
        · exact h4 b (by omega) hb2
    · have h' : isInUse st start = false := by simpa using h
      simp only [h', Bool.not_false, if_true]
      right
      exact ⟨Nat.le_refl _, by omega, trivial, fun b hb1 hb2 => by omega⟩

/-- C12. First fit: `getEmptyBlock` returns 0xFF exactly when every block that the
bitmap manages is in use; otherwise it returns a managed block whose bitmap bit
is 1 (free) and every block below it is in use.  The function only reads the
state. -/
theorem getEmptyBlock_first_fit (st : FS) :
    (getEmptyBlock st = NULLPTR ↔ ∀ b, b < NUMBLOCKBYTES * 8 → isInUse st b = true) ∧
    (getEmptyBlock st ≠ NULLPTR →
      getEmptyBlock st < NUMBLOCKBYTES * 8 ∧
      isInUse st (getEmptyBlock st) = false ∧
      (st.blocks (getEmptyBlock st / 8)).testBit (getEmptyBlock st % 8) = true ∧
      ∀ b, b < getEmptyBlock st → isInUse st b = true) := by
  have hsp := getEmptyBlockLoop_first st (NUMBLOCKBYTES * 8) 0 (by decide)
  have hdef : getEmptyBlock st = getEmptyBlockLoop st (NUMBLOCKBYTES * 8) 0 := rfl
  rw [← hdef] at hsp
  simp only [Nat.zero_add, Nat.zero_le, true_implies, true_and] at hsp
  constructor
  · constructor
    · intro h
      rcases hsp with ⟨-, h2⟩ | ⟨h1, -, -⟩
      · exact h2
      · rw [h] at h1; exact absurd h1 (by decide)
    · intro h
      rcases hsp with ⟨h1, -⟩ | ⟨h1, h2, -⟩
      · exact h1
      · rw [h _ h1] at h2; exact absurd h2 (by simp)
  · intro hne
    rcases hsp with ⟨h1, -⟩ | ⟨h1, h2, h3⟩
    · exact absurd h1 hne
    · refine ⟨h1, h2, ?_, h3⟩
      rw [isInUse_eq] at h2
      simpa using h2

theorem getEmptyBlock_first_fit_witness :
    getEmptyBlock demoOpen < NUMBLOCKBYTES * 8 ∧
    isInUse demoOpen (getEmptyBlock demoOpen) = false ∧
    (demoOpen.blocks (getEmptyBlock demoOpen / 8)).testBit (getEmptyBlock demoOpen % 8) = true ∧
    ∀ b, b < getEmptyBlock demoOpen → isInUse demoOpen b = true :=
  (getEmptyBlock_first_fit demoOpen).2 (by decide)

/-! ## Layout and format -/

/-- C13. The bitmap length of the code is 7 bytes, not ceil(61 / 8) = 8: the macro
divides 61 by 8 and drops the remainder.  So `getEmptyBlock` scans 56 of the 61
blocks of the data area (with blocks 0..55 in use it answers 0xFF, an eighth
bitmap byte is never read), the pointer table starts at offset 1 + 7 = 8 and
the magic is 7 XOR 0xA1 = 0xA6 (8 XOR 0xA1 is 0xA9).  The pointer table does have
61 entries and the data area does start at offset 96. -/
theorem bitmap_has_seven_bytes :
    NUMBLOCKBYTES = 7 ∧ (61 + 7) / 8 = 8 ∧ NUMBLOCKBYTES * 8 = 56 ∧
    FILEMEMORYAVAILABLE / BLOCKSIZE = 61 ∧ NUMFILEPTRBYTES = 61 ∧ FILEINDEX = 96 ∧
    freshMount.FILEPTRINDEX = 8 ∧
    NUMBLOCKBYTES ^^^ 0xA1 = 0xA6 ∧ 8 ^^^ 0xA1 = 0xA9 ∧
    eeprom_read_byte freshMount.eeprom CONFIGUREINDEX = 0xA6 ∧
    demoEighthByte.blocks 7 = 255 ∧ getEmptyBlock demoEighthByte = NULLPTR := by
  refine ⟨by decide, by decide, by decide, by decide, by decide, by decide, by rfl, by decide,
    by decide, by rfl, by rfl, by rfl⟩

/-- C14, at an EEPROM that reads zero everywhere. The first `initEepfs` formats:
it stores the magic and sets the mirrors, but `setupEeprom` hands the RAM pointer
and the EEPROM address to `eeprom_update_block` in swapped order, so the bitmap
and pointer table regions of the device keep their old content (zero).  The
second `initEepfs` finds the magic and loads the mirrors from those regions: the
bitmap mirror is all zero (every block in use) and every file exists with start
block 0, not all-ones and all-0xFF. -/
theorem second_mount_loads_stale_regions :
    eeprom_read_byte zeroDevice CONFIGUREINDEX ≠ NUMBLOCKBYTES ^^^ 0xA1 ∧
    eeprom_read_byte (initEepfs demoLayout (boot zeroDevice)).eeprom CONFIGUREINDEX
      = NUMBLOCKBYTES ^^^ 0xA1 ∧
    (List.range 7).map (initEepfs demoLayout (boot zeroDevice)).blocks
      = List.replicate 7 255 ∧
    (List.range 7).map
      (fun i => eeprom_read_byte (initEepfs demoLayout (boot zeroDevice)).eeprom (BLOCKINDEX + i))
      = List.replicate 7 0 ∧
    (List.range 7).map
      (initEepfs demoLayout (initEepfs demoLayout (boot zeroDevice))).blocks
      = List.replicate 7 0 ∧
    (List.range 61).map
      (initEepfs demoLayout (initEepfs demoLayout (boot zeroDevice))).filePtrs
      = List.replicate 61 0 ∧
    fileExists (initEepfs demoLayout (initEepfs demoLayout (boot zeroDevice))) 0 = true ∧
    getEmptyBlock (initEepfs demoLayout (initEepfs demoLayout (boot zeroDevice))) = NULLPTR := by
  refine ⟨by decide, by rfl, by rfl, by rfl, by rfl, by rfl, by rfl, by rfl⟩

/-- C19, at a 40-byte file that is opened for reading and closed. Before the two
calls file 0 runs through blocks 0 and 1 and both are in use.  After them block 1
is still in use, but block 0 now ends the chain of file 0 (its terminator is the
length marker 0x80) and no other file exists: block 1 lies on no chain. -/
theorem block_in_use_on_no_chain :
    demo40Closed.filePtrs 0 = 0 ∧ getBlockPtr demo40Closed 0 = 1 ∧
    getBlockPtr demo40Closed 1 = 0x89 ∧
    (open_for_read demo40Closed 0).1 = 0 ∧ (close demo40 0).1 = 0 ∧
    isInUse demoReadClosed 0 = true ∧ isInUse demoReadClosed 1 = true ∧
    demoReadClosed.filePtrs 0 = 0 ∧ getBlockPtr demoReadClosed 0 = 0x80 ∧
    (List.range 61).map demoReadClosed.filePtrs = 0 :: List.replicate 60 255 := by
  refine ⟨by rfl, by rfl, by rfl, by rfl, by rfl, by rfl, by rfl, by rfl, by rfl, by rfl⟩

/-! ## One pass of the write loop -/

theorem writeLoop_done (h : Nat) (buffer : Mem) (size fuel i : Nat) (st : FS)
    (hge : ¬ i < size) : writeLoop h buffer size (fuel + 1) i st = some (0, st) := by
  simp only [writeLoop, if_neg hge]

/-- The rest fits into the current block: one data write, no allocation. -/
theorem writeLoop_last (h : Nat) (buffer : Mem) (size fuel i : Nat) (st : FS)
    (hlt : i < size) (hfit : size - i + (st.filePosition h &&& 31) ≤ BLOCKSIZE - 1) :
    writeLoop h buffer size (fuel + 1) i st =
      writeLoop h buffer size fuel (i + (size - i))
        { st with
          eeprom := eeprom_update_block (fun k => buffer (i + k))
            (FILEINDEX + st.fileBlock h * BLOCKSIZE + (st.filePosition h &&& 31)) (size - i)
            st.eeprom
          filePosition := upd st.filePosition h ((st.filePosition h + (size - i)) % 256) } := by
  have hm : (size - i + (st.filePosition h &&& 31)) % 65536
      = size - i + (st.filePosition h &&& 31) :=
    Nat.mod_eq_of_lt (by simp only [BLOCKSIZE] at hfit; omega)
  simp only [writeLoop, if_pos hlt, hm, gt_iff_lt, not_lt.2 hfit, if_false]

/-- More than the current block can take and no free block: the block is filled
on the device and the call returns OUTOFSPACE. -/
theorem writeLoop_full (h : Nat) (buffer : Mem) (size fuel i : Nat) (st : FS)
    (hlt : i < size) (hbig : BLOCKSIZE - 1 < size - i + (st.filePosition h &&& 31))
    (hsize : size ≤ 65504) (hnb : getEmptyBlock st = NULLPTR) :
    writeLoop h buffer size (fuel + 1) i st =
      some (OUTOFSPACE,
        { st with
          eeprom := eeprom_update_block (fun k => buffer (i + k))
            (FILEINDEX + st.fileBlock h * BLOCKSIZE + (st.filePosition h &&& 31))
            (BLOCKSIZE - (st.filePosition h &&& 31) - 1) st.eeprom }) := by
  have ho : st.filePosition h &&& 31 < 32 := by rw [and31]; exact Nat.mod_lt _ (by decide)
  have hm : (size - i + (st.filePosition h &&& 31)) % 65536
      = size - i + (st.filePosition h &&& 31) := Nat.mod_eq_of_lt (by omega)
  have hge : ∀ e, getEmptyBlock { st with eeprom := e } = getEmptyBlock st :=
    fun e => getEmptyBlock_congr _ _ rfl
  simp only [writeLoop, if_pos hlt, hm, gt_iff_lt, hbig, if_true, hge, hnb]

/-- More than the current block can take and a free block `nb`: the block is
filled, linked to `nb`, and the loop goes on at the head of `nb`. -/
theorem writeLoop_alloc (h : Nat) (buffer : Mem) (size fuel i : Nat) (st : FS)
    (hlt : i < size) (hbig : BLOCKSIZE - 1 < size - i + (st.filePosition h &&& 31))
    (hsize : size ≤ 65504) (hnb : getEmptyBlock st ≠ NULLPTR) :
    ∃ st5 : FS,
      writeLoop h buffer size (fuel + 1) i st =
        writeLoop h buffer size fuel (i + (BLOCKSIZE - (st.filePosition h &&& 31) - 1)) st5 ∧
      st5.blocks = (setInUse st (getEmptyBlock st) true).blocks ∧
      st5.fileBlock = upd st.fileBlock h (getEmptyBlock st) ∧
      st5.filePosition = upd st.filePosition h
        ((st.filePosition h + (BLOCKSIZE - (st.filePosition h &&& 31))) % 256) ∧
      st5.filePtrs = st.filePtrs ∧ st5.fileAccess = st.fileAccess ∧
      st5.FILEPTRINDEX = st.FILEPTRINDEX ∧
      ∀ a, st5.eeprom a =
        if a = BLOCKINDEX + getEmptyBlock st / 8 then
          (setInUse st (getEmptyBlock st) true).blocks (getEmptyBlock st / 8)
        else if a = cell (getEmptyBlock st) 31 then NULLPTR
        else if a = cell (st.fileBlock h) 31 then getEmptyBlock st
        else eeprom_update_block (fun k => buffer (i + k))
          (cell (st.fileBlock h) (st.filePosition h &&& 31))
          (BLOCKSIZE - (st.filePosition h &&& 31) - 1) st.eeprom a := by
  have ho : st.filePosition h &&& 31 < 32 := by rw [and31]; exact Nat.mod_lt _ (by decide)
  have hm : (size - i + (st.filePosition h &&& 31)) % 65536
      = size - i + (st.filePosition h &&& 31) := Nat.mod_eq_of_lt (by omega)
  have hge : ∀ e, getEmptyBlock { st with eeprom := e } = getEmptyBlock st :=
    fun e => getEmptyBlock_congr _ _ rfl
  simp only [writeLoop, if_pos hlt, hm, gt_iff_lt, hbig, if_true, hge, if_neg hnb]
  refine ⟨_, rfl, rfl, rfl, rfl, rfl, rfl, rfl, ?_⟩
  intro a
  simp only [setInUse_eeprom]
  simp only [setBlockPtr, eeprom_update_byte, upd, cell, NEXTBLOCKPTR]
  rfl

/-! ## The last data slot -/

/-- C18, as stated, at a handle that stands at offset 30 of block 0. The `write` of
one byte returns 0, and afterwards the handle is still on block 0, the bitmap is
what it was (block 1 is still the first free block) and the position is 31: no
block was allocated. -/
theorem write_at_offset_30_allocates_nothing :
    demo30.fileAccess 0 = FILEWRITE ∧ demo30.filePosition 0 &&& 31 = 30 ∧
    demo30.fileBlock 0 = 0 ∧ getEmptyBlock demo30 = 1 ∧
    (write 9 demo30 0 (bufOf [7]) 1).map Prod.fst = some 0 ∧
    (after (.write 9 0 (bufOf [7]) 1) demo30).fileBlock 0 = 0 ∧
    (List.range 7).map (after (.write 9 0 (bufOf [7]) 1) demo30).blocks
      = (List.range 7).map demo30.blocks ∧
    getEmptyBlock (after (.write 9 0 (bufOf [7]) 1) demo30) = 1 ∧
    (after (.write 9 0 (bufOf [7]) 1) demo30).filePosition 0 = 31 := by
  refine ⟨by rfl, by rfl, by rfl, by rfl, by rfl, by rfl, by rfl, by rfl, by rfl⟩

/-- C18, amended. For every WRITE handle whose position mod 32 is 30,
`write(handle, buf, 1)` takes the single-block branch: it returns 0, stores the
byte in data slot 30 of the current block and nowhere else, adds 1 to the
position (so position mod 32 becomes 31) and allocates nothing: the bitmap, the
current block and every other table stay as they were. -/
theorem write_at_offset_30 (fuel : Nat) (st : FS) (h : Nat) (buffer : Mem)
    (hh : h < MAXFILES) (hacc : st.fileAccess h = FILEWRITE)
    (hoff : st.filePosition h &&& 31 = 30) :
    ∃ st1, write (fuel + 2) st (h : Int) buffer 1 = some (0, st1) ∧
      st1.blocks = st.blocks ∧ st1.fileBlock = st.fileBlock ∧ st1.filePtrs = st.filePtrs ∧
      st1.fileAccess = st.fileAccess ∧
      st1.filePosition = upd st.filePosition h ((st.filePosition h + 1) % 256) ∧
      st1.filePosition h &&& 31 = 31 ∧
      st1.eeprom (cell (st.fileBlock h) 30) = buffer 0 ∧
      ∀ a, a ≠ cell (st.fileBlock h) 30 → st1.eeprom a = st.eeprom a := by
  have hrej := handle_ok h hh
  have h1 : (0 : Nat) < 1 := by decide
  have hfit : 1 - 0 + (st.filePosition h &&& 31) ≤ BLOCKSIZE - 1 := by
    rw [hoff]; decide
  have hw : write (fuel + 2) st (h : Int) buffer 1 = some (0,
      { st with
        eeprom := eeprom_update_block (fun k => buffer (0 + k))
          (FILEINDEX + st.fileBlock h * BLOCKSIZE + (st.filePosition h &&& 31)) (1 - 0)
          st.eeprom
        filePosition := upd st.filePosition h ((st.filePosition h + (1 - 0)) % 256) }) := by
    simp only [write, hrej, Bool.false_eq_true, if_false, Int.toNat_ofNat, hacc, ne_eq,
      not_true_eq_false]
    rw [writeLoop_last h buffer 1 (fuel + 1) 0 st h1 hfit]
    rw [writeLoop_done h buffer 1 fuel _ _ (by decide)]
  refine ⟨_, hw, rfl, rfl, rfl, rfl, rfl, ?_, ?_, ?_⟩
  · simp only [upd, if_true]
    rw [and31] at hoff ⊢
    omega
  · simp only [eeprom_update_block, hoff, cell, FILEINDEX, BLOCKSIZE]
    rw [if_pos (by omega)]
    simp
  · intro a ha
    simp only [eeprom_update_block, hoff, cell, FILEINDEX, BLOCKSIZE] at ha ⊢
    rw [if_neg (by omega)]

theorem write_at_offset_30_witness :
    ∃ st1, write 2 demo30 ((0 : Nat) : Int) (bufOf [7]) 1 = some (0, st1) ∧
      st1.blocks = demo30.blocks ∧ st1.fileBlock = demo30.fileBlock ∧
      st1.filePtrs = demo30.filePtrs ∧ st1.fileAccess = demo30.fileAccess ∧
      st1.filePosition = upd demo30.filePosition 0 ((demo30.filePosition 0 + 1) % 256) ∧
      st1.filePosition 0 &&& 31 = 31 ∧
      st1.eeprom (cell (demo30.fileBlock 0) 30) = bufOf [7] 0 ∧
      ∀ a, a ≠ cell (demo30.fileBlock 0) 30 → st1.eeprom a = demo30.eeprom a :=
  write_at_offset_30 0 demo30 0 (bufOf [7]) (by decide) (by rfl) (by rfl)

/-! ## Data writes stay in the data bytes -/

theorem linked_of_agree (e e1 : Mem) (hag : ∀ a, FILEINDEX ≤ a → e1 a = e a) :
    ∀ (rest : List Nat) (b last : Nat), Linked e rest b last → Linked e1 rest b last := by
  intro rest
  induction rest with
  | nil => intro b last h; exact h
  | cons t rest ih =>
    intro b last h
    obtain ⟨h1, h2, h3⟩ := h
    refine ⟨?_, h2, ih _ _ h3⟩
    rw [hag _ (by simp only [cell]; omega)]
    exact h1

theorem linked_unique (e : Mem) : ∀ (r1 r2 : List Nat) (b l1 l2 : Nat),
    Linked e r1 b l1 → 128 ≤ e (cell l1 31) % 256 →
    Linked e r2 b l2 → 128 ≤ e (cell l2 31) % 256 → r1 = r2 := by
  intro r1
  induction r1 with
  | nil =>
    intro r2 b l1 l2 h1 t1 h2 t2
    cases r2 with
    | nil => rfl
    | cons t r2 =>
      obtain ⟨ha, hb, -⟩ := h2
      have : b = l1 := h1
      subst this
      omega
  | cons t r1 ih =>
    intro r2 b l1 l2 h1 t1 h2 t2
    obtain ⟨ha, hb, hc⟩ := h1
    cases r2 with
    | nil =>
      have : b = l2 := h2
      subst this
      omega
    | cons t' r2 =>
      obtain ⟨ha', hb', hc'⟩ := h2
      have htt : t = t' := by rw [← ha, ← ha']
      subst htt
      rw [ih r2 t l1 l2 hc t1 hc' t2]

theorem linked_suffix (e : Mem) : ∀ (pre : List Nat) (c : Nat) (post : List Nat) (b last : Nat),
    Linked e (pre ++ c :: post) b last → Linked e post c last := by
  intro pre
  induction pre with
  | nil =>
    intro c post b last h
    exact h.2.2
  | cons t pre ih =>
    intro c post b last h
    exact ih c post t last h.2.2

theorem linked_start_not_mem (e : Mem) (rest : List Nat) (b last : Nat)
    (h : Linked e rest b last) (ht : 128 ≤ e (cell last 31) % 256) : b ∉ rest := by
  intro hm
  obtain ⟨pre, post, hsplit⟩ := List.append_of_mem hm
  rw [hsplit] at h
  have hs := linked_suffix e pre b post b last h
  have := linked_unique e _ _ b last last hs ht h ht
  have hl := congrArg List.length this
  simp only [List.length_append, List.length_cons] at hl
  omega

/-- The walk of `wipeFile` over linked blocks whose last terminator has bit 7 set
ends and frees exactly the blocks after the first. -/
theorem wipeLoop_linked : ∀ (rest : List Nat) (fuel b last : Nat) (st : FS),
    Linked st.eeprom rest b last → 128 ≤ getBlockPtr st last → rest.length < fuel →
    ∃ st1, wipeLoop fuel (getBlockPtr st b) st = some st1 ∧
      (∀ blk, isInUse st1 blk = (isInUse st blk && !decide (blk ∈ rest))) ∧
      (∀ a, FILEINDEX ≤ a → st1.eeprom a = st.eeprom a) := by
  intro rest
  induction rest with
  | nil =>
    intro fuel b last st hl ht hfuel
    obtain ⟨fuel, rfl⟩ : ∃ f, fuel = f + 1 := ⟨fuel - 1, by simp at hfuel; omega⟩
    have : b = last := hl
    subst this
    refine ⟨st, ?_, by simp, fun _ _ => rfl⟩
    apply wipeLoop_end
    exact (byte_isLen _ (Nat.mod_lt _ (by decide))).2 ht
  | cons t rest ih =>
    intro fuel b last st hl ht hfuel
    obtain ⟨fuel, rfl⟩ : ∃ f, fuel = f + 1 := ⟨fuel - 1, by simp at hfuel; omega⟩
    obtain ⟨h1, h2, h3⟩ := hl
    have hgp : getBlockPtr st b = t := by rw [getBlockPtr_eq, h1]
    have hne : ¬ ((t &&& ISLEN) = ISLEN) := by
      intro hc
      have := (byte_isLen t (by omega)).1 hc
      omega
    have hag : ∀ a, FILEINDEX ≤ a → (setInUse st t false).eeprom a = st.eeprom a := by
      intro a ha
      rw [setInUse_eeprom, if_neg (by simp only [FILEINDEX, BLOCKINDEX] at ha ⊢; omega)]
    obtain ⟨st1, hw, hu, he⟩ := ih fuel t last (setInUse st t false)
      (linked_of_agree _ _ hag _ _ _ h3)
      (by rw [getBlockPtr_eq, hag _ (by simp only [cell]; omega)]; exact ht)
      (by simp at hfuel; omega)
    refine ⟨st1, ?_, ?_, ?_⟩
    · rw [hgp]
      simp only [wipeLoop, ne_eq, hne, not_false_eq_true, if_true]
      exact hw
    · intro blk
      rw [hu blk, isInUse_setInUse]
      by_cases hb : blk = t
      · simp [hb]
      · simp [hb]
    · intro a ha
      rw [he a ha, hag a ha]

/-! ## Overwriting a file -/

/-- C16. Overwrite wipes the old chain: for an existing CLOSED file `f` whose
chain is the start block followed by the blocks `rest` (k = 1 + |rest| blocks,
linked by pointers, the last terminator having bit 7 set), `open_for_write(f)`
returns `f`, frees exactly the blocks of `rest`, leaves the bit of every other
block as it was (the start block is none of `rest`, so it stays in use), leaves
the pointer table as it was, sets the terminator of the start block to 0xFF and
sets the handle to WRITE, position 0, current block = start block. -/
theorem open_for_write_wipes (fuel : Nat) (st : FS) (f : Nat) (rest : List Nat) (last : Nat)
    (_hf : f < MAXFILES) (hclosed : st.fileAccess f = FILECLOSED)
    (hex : fileExists st f = true)
    (hlink : Linked st.eeprom rest (st.filePtrs f) last)
    (htail : 128 ≤ getBlockPtr st last)
    (hfuel : rest.length < fuel) :
    ∃ st1, open_for_write fuel st f = some ((f : Int), st1) ∧
      (∀ blk, blk ∈ rest → isInUse st1 blk = false) ∧
      (∀ blk, blk ∉ rest → isInUse st1 blk = isInUse st blk) ∧
      st.filePtrs f ∉ rest ∧
      (isInUse st (st.filePtrs f) = true → isInUse st1 (st.filePtrs f) = true) ∧
      st1.filePtrs = st.filePtrs ∧
      getBlockPtr st1 (st.filePtrs f) = NULLPTR ∧
      st1.fileAccess f = FILEWRITE ∧ st1.filePosition f = 0 ∧
      st1.fileBlock f = st.filePtrs f := by
  have hne : ¬ st.filePtrs f = NULLPTR := by simpa [fileExists] using hex
  have hnm := linked_start_not_mem _ _ _ _ hlink htail
  obtain ⟨w, hw, hu, he⟩ := wipeLoop_linked rest fuel _ last st hlink htail hfuel
  obtain ⟨hwp, hwa, -, hwpos, hwb⟩ := wipeLoop_frame _ _ _ _ hw
  have hacc : ¬ st.fileAccess f ≠ FILECLOSED := by simp [hclosed]
  have hopen : open_for_write fuel st f = some ((f : Int),
      { setBlockPtr w (st.filePtrs f) NULLPTR with
        filePosition := upd (setBlockPtr w (st.filePtrs f) NULLPTR).filePosition f 0
        fileBlock := upd (setBlockPtr w (st.filePtrs f) NULLPTR).fileBlock f
          ((setBlockPtr w (st.filePtrs f) NULLPTR).filePtrs f)
        fileAccess := upd (setBlockPtr w (st.filePtrs f) NULLPTR).fileAccess f FILEWRITE }) := by
    simp only [open_for_write, if_neg hacc, if_neg hne, wipeFile, hw]
  have hu1 : ∀ blk, isInUse
      { setBlockPtr w (st.filePtrs f) NULLPTR with
        filePosition := upd (setBlockPtr w (st.filePtrs f) NULLPTR).filePosition f 0
        fileBlock := upd (setBlockPtr w (st.filePtrs f) NULLPTR).fileBlock f
          ((setBlockPtr w (st.filePtrs f) NULLPTR).filePtrs f)
        fileAccess := upd (setBlockPtr w (st.filePtrs f) NULLPTR).fileAccess f FILEWRITE } blk
      = (isInUse st blk && !decide (blk ∈ rest)) :=
    fun blk => (isInUse_congr _ w rfl blk).trans (hu blk)
  refine ⟨_, hopen, ?_, ?_, hnm, ?_, hwp, ?_, ?_, ?_, ?_⟩
  · intro blk hm
    rw [hu1, decide_eq_true hm]
    simp
  · intro blk hm
    rw [hu1, decide_eq_false hm]
    simp
  · intro hin
    rw [hu1, hin, decide_eq_false hnm]
    rfl
  · simp only [getBlockPtr, setBlockPtr, eeprom_read_byte, eeprom_update_byte, upd, if_true,
      NULLPTR]
  · simp only [upd, if_true]
  · simp only [upd, if_true]
  · simp only [upd, if_true, setBlockPtr]
    rw [hwp]

theorem open_for_write_wipes_witness :
    ∃ st1, open_for_write 2 demo40Closed 0 = some (((0 : Nat) : Int), st1) ∧
      (∀ blk, blk ∈ [1] → isInUse st1 blk = false) ∧
      (∀ blk, blk ∉ [1] → isInUse st1 blk = isInUse demo40Closed blk) ∧
      demo40Closed.filePtrs 0 ∉ [1] ∧
      (isInUse demo40Closed (demo40Closed.filePtrs 0) = true →
        isInUse st1 (demo40Closed.filePtrs 0) = true) ∧
      st1.filePtrs = demo40Closed.filePtrs ∧
      getBlockPtr st1 (demo40Closed.filePtrs 0) = NULLPTR ∧
      st1.fileAccess 0 = FILEWRITE ∧ st1.filePosition 0 = 0 ∧
      st1.fileBlock 0 = demo40Closed.filePtrs 0 :=
  open_for_write_wipes 2 demo40Closed 0 [1] 1 (by decide) (by rfl) (by rfl)
    ⟨by rfl, by decide, rfl⟩ (by decide) (by decide)

/-! ## Mirrors on the device -/

theorem mirrorsOnDevice_congr (st st1 : FS) (hi : st1.FILEPTRINDEX = st.FILEPTRINDEX)
    (hb : st1.blocks = st.blocks) (hp : st1.filePtrs = st.filePtrs)
    (he : ∀ a, a < FILEINDEX → st1.eeprom a = st.eeprom a)
    (h : MirrorsOnDevice st) : MirrorsOnDevice st1 := by
  obtain ⟨h1, h2, h3, h4⟩ := h
  refine ⟨by rw [hi, h1], ?_, ?_, ?_⟩
  · simp only [eeprom_read_byte] at h2 ⊢
    rw [he _ (by decide)]; exact h2
  · exact bitmapOnDevice_congr st st1 hb
      (fun a ha => he a (by simp only [BLOCKINDEX, NUMBLOCKBYTES, FILEINDEX] at ha ⊢; omega)) h3
  · intro i hi'
    rw [hp, h4 i hi', hi]
    simp only [eeprom_read_byte]
    rw [he _ (by
      rw [h1]
      simp only [BLOCKINDEX, NUMBLOCKBYTES, FILEINDEX, NUMFILEPTRBYTES] at hi' ⊢; omega)]

theorem mirrorsOnDevice_setInUse (st : FS) (blk : Nat) (u : Bool)
    (hblk : blk < NUMBLOCKBYTES * 8) (h : MirrorsOnDevice st) :
    MirrorsOnDevice (setInUse st blk u) := by
  obtain ⟨h1, h2, h3, h4⟩ := h
  have hne : ∀ a, BLOCKINDEX + NUMBLOCKBYTES ≤ a ∨ a = 0 →
      (setInUse st blk u).eeprom a = st.eeprom a := by
    intro a ha
    rw [setInUse_eeprom, if_neg (by
      simp only [BLOCKINDEX, NUMBLOCKBYTES] at ha hblk ⊢; omega)]
  refine ⟨h1, ?_, bitmapOnDevice_setInUse st blk u h3, ?_⟩
  · simp only [eeprom_read_byte] at h2 ⊢
    rw [hne CONFIGUREINDEX (Or.inr rfl)]; exact h2
  · intro i hi
    have := h4 i hi
    simp only [eeprom_read_byte] at this ⊢
    have hfi : (setInUse st blk u).FILEPTRINDEX = st.FILEPTRINDEX := rfl
    have hfp : (setInUse st blk u).filePtrs = st.filePtrs := rfl
    rw [hfi, hfp, hne _ (Or.inl (by rw [h1]; omega))]
    exact this

theorem mirrorsOnDevice_setFilePtr (st : FS) (f v : Nat) (hf : f < NUMFILEPTRBYTES)
    (hv : v < 256) (h : MirrorsOnDevice st) : MirrorsOnDevice (setFilePtr st f v) := by
  obtain ⟨h1, h2, h3, h4⟩ := h
  refine ⟨h1, ?_, ?_, ?_⟩
  · simp only [eeprom_read_byte, setFilePtr, eeprom_update_byte, upd] at h2 ⊢
    rw [if_neg (by rw [h1]; simp only [BLOCKINDEX, NUMBLOCKBYTES, CONFIGUREINDEX]; omega)]
    exact h2
  · refine bitmapOnDevice_congr st _ rfl ?_ h3
    intro a ha
    simp only [setFilePtr, eeprom_update_byte, upd]
    rw [if_neg (by rw [h1]; omega)]
  · intro i hi
    have := h4 i hi
    simp only [eeprom_read_byte, setFilePtr, eeprom_update_byte, upd] at this ⊢
    by_cases hif : i = f
    · subst hif
      rw [if_pos rfl, if_pos rfl]
      exact (Nat.mod_eq_of_lt hv).symm
    · rw [if_neg hif, if_neg (by omega)]
      exact this

theorem writeLoop_mirrorsOnDevice (h : Nat) (buffer : Mem) (size : Nat) :
    ∀ (fuel i : Nat) (st : FS) (r : Int) (st1 : FS),
      writeLoop h buffer size fuel i st = some (r, st1) → MirrorsOnDevice st →
      MirrorsOnDevice st1 := by
  intro fuel
  induction fuel with
  | zero => intro i st r st1 hw; simp [writeLoop] at hw
  | succ fuel ih =>
    intro i st r st1 hw hs
    have hge : ∀ e, getEmptyBlock { st with eeprom := e } = getEmptyBlock st :=
      fun e => getEmptyBlock_congr _ _ rfl
    simp only [writeLoop, hge] at hw
    split_ifs at hw with h1 h2 h3
    · simp only [Option.some.injEq, Prod.mk.injEq] at hw
      obtain ⟨-, rfl⟩ := hw
      refine mirrorsOnDevice_congr st _ rfl rfl rfl ?_ hs
      intro a ha
      simp only [eeprom_update_block, FILEINDEX] at ha ⊢
      rw [if_neg (by omega)]
    · refine ih _ _ _ _ hw ?_
      have h56 := (getEmptyBlock_spec st h3).1
      refine mirrorsOnDevice_congr (setInUse st (getEmptyBlock st) true) _ rfl rfl rfl ?_
        (mirrorsOnDevice_setInUse st _ true h56 hs)
      intro a ha
      simp only [setInUse_eeprom]
      simp only [setBlockPtr, eeprom_update_byte, upd, eeprom_update_block, FILEINDEX,
        BLOCKSIZE, NEXTBLOCKPTR] at ha ⊢
      by_cases hb : a = BLOCKINDEX + getEmptyBlock st / 8
      · rw [if_pos hb, if_pos hb]
        rfl
      · rw [if_neg hb, if_neg hb, if_neg (by omega), if_neg (by omega), if_neg (by omega)]
    · refine ih _ _ _ _ hw ?_
      refine mirrorsOnDevice_congr st _ rfl rfl rfl ?_ hs
      intro a ha
      simp only [eeprom_update_block, FILEINDEX] at ha ⊢
      rw [if_neg (by omega)]
    · simp only [Option.some.injEq, Prod.mk.injEq] at hw
      obtain ⟨-, rfl⟩ := hw
      exact hs

theorem close_mirrorsOnDevice (st : FS) (f : Nat) (h : MirrorsOnDevice st) :
    MirrorsOnDevice (close st f).2 := by
  simp only [close]
  split_ifs
  · exact h
  · exact h
  · obtain ⟨h1, -, h3, h4⟩ := writeBlockLength_fields st f
    refine mirrorsOnDevice_congr st _ h4 h3 h1 ?_ h
    intro a ha
    simp only [writeBlockLength]
    split_ifs
    · rfl
    · simp only [setBlockPtr, eeprom_update_byte, upd, FILEINDEX, BLOCKSIZE, NEXTBLOCKPTR] at ha ⊢
      rw [if_neg (by omega)]

theorem wipeLoop_mirrorsOnDevice : ∀ (rest : List Nat) (fuel b last : Nat) (st st1 : FS),
    Linked st.eeprom rest b last → (∀ blk, blk ∈ rest → blk < NUMBLOCKBYTES * 8) →
    128 ≤ getBlockPtr st last →
    wipeLoop fuel (getBlockPtr st b) st = some st1 → MirrorsOnDevice st →
    MirrorsOnDevice st1 := by
  intro rest
  induction rest with
  | nil =>
    intro fuel b last st st1 hl hm ht hw hs
    have : b = last := hl
    subst this
    cases fuel with
    | zero => simp [wipeLoop] at hw
    | succ fuel =>
      have hend : (getBlockPtr st b &&& ISLEN) = ISLEN :=
        (byte_isLen _ (Nat.mod_lt _ (by decide))).2 ht
      rw [wipeLoop_end fuel st _ hend] at hw
      simp only [Option.some.injEq] at hw
      subst hw
      exact hs
  | cons t rest ih =>
    intro fuel b last st st1 hl hm ht hw hs
    obtain ⟨h1, h2, h3⟩ := hl
    have hgp : getBlockPtr st b = t := by rw [getBlockPtr_eq, h1]
    have hne : ¬ ((t &&& ISLEN) = ISLEN) := by
      intro hc
      have := (byte_isLen t (by omega)).1 hc
      omega
    have hag : ∀ a, FILEINDEX ≤ a → (setInUse st t false).eeprom a = st.eeprom a := by
      intro a ha
      rw [setInUse_eeprom, if_neg (by simp only [FILEINDEX, BLOCKINDEX] at ha ⊢; omega)]
    cases fuel with
    | zero => simp [wipeLoop] at hw
    | succ fuel =>
      rw [hgp] at hw
      simp only [wipeLoop, ne_eq, hne, not_false_eq_true, if_true] at hw
      exact ih fuel t last (setInUse st t false) st1
        (linked_of_agree _ _ hag _ _ _ h3)
        (fun blk hb => hm blk (List.mem_cons_of_mem _ hb))
        (by rw [getBlockPtr_eq, hag _ (by simp only [cell]; omega)]; exact ht)
        hw
        (mirrorsOnDevice_setInUse st t false (hm t (List.mem_cons_self _ _)) hs)

theorem mirrorsOnDevice_setBlockPtr (st : FS) (b p : Nat) (h : MirrorsOnDevice st) :
    MirrorsOnDevice (setBlockPtr st b p) := by
  refine mirrorsOnDevice_congr st _ rfl rfl rfl ?_ h
  intro a ha
  simp only [setBlockPtr, eeprom_update_byte, upd, FILEINDEX, BLOCKSIZE, NEXTBLOCKPTR] at ha ⊢
  rw [if_neg (by omega)]

theorem open_for_write_mirrorsOnDevice (fuel : Nat) (st : FS) (f : Nat) (r : Int) (st1 : FS)
    (hf : f < MAXFILES) (hs : MirrorsOnDevice st)
    (hfile : st.filePtrs f = NULLPTR ∨
      ∃ rest last, Linked st.eeprom rest (st.filePtrs f) last ∧ 128 ≤ getBlockPtr st last ∧
        ∀ blk, blk ∈ rest → blk < NUMBLOCKBYTES * 8)
    (ho : open_for_write fuel st f = some (r, st1)) : MirrorsOnDevice st1 := by
  unfold open_for_write at ho
  by_cases hacc : st.fileAccess f ≠ FILECLOSED
  · rw [if_pos hacc] at ho
    simp only [Option.some.injEq, Prod.mk.injEq] at ho
    obtain ⟨-, rfl⟩ := ho
    exact hs
  · rw [if_neg hacc] at ho
    by_cases hnew : st.filePtrs f = NULLPTR
    · simp only [if_pos hnew, createNewFile] at ho
      by_cases hnb : getEmptyBlock st = NULLPTR
      · simp only [if_pos hnb, if_pos hnew] at ho
        simp only [Option.some.injEq, Prod.mk.injEq] at ho
        obtain ⟨-, rfl⟩ := ho
        exact hs
      · have h56 := (getEmptyBlock_spec st hnb).1
        simp only [if_neg hnb] at ho
        generalize getEmptyBlock st = sb at ho hnb h56
        have hfp : (setBlockPtr (setInUse (setFilePtr st f sb) sb true) sb NULLPTR).filePtrs f
            = sb := by
          simp only [setBlockPtr, setInUse, setFilePtr, upd, if_true]
        rw [hfp, if_neg hnb] at ho
        have hgb : getBlockPtr (setBlockPtr (setInUse (setFilePtr st f sb) sb true) sb NULLPTR) sb
            = NULLPTR := by
          simp only [getBlockPtr, setBlockPtr, eeprom_read_byte, eeprom_update_byte, upd, if_true,
            NULLPTR]
        simp only [wipeFile, hfp, if_neg hnb, hgb] at ho
        cases fuel with
        | zero => simp [wipeLoop] at ho
        | succ fuel =>
          rw [wipeLoop_end _ _ _ (by decide)] at ho
          simp only [Option.some.injEq, Prod.mk.injEq] at ho
          obtain ⟨-, rfl⟩ := ho
          refine mirrorsOnDevice_congr
            (setBlockPtr (setBlockPtr (setInUse (setFilePtr st f sb) sb true) sb NULLPTR) sb
              NULLPTR) _ rfl rfl rfl (fun _ _ => rfl) ?_
          apply mirrorsOnDevice_setBlockPtr
          apply mirrorsOnDevice_setBlockPtr
          apply mirrorsOnDevice_setInUse _ _ _ h56
          exact mirrorsOnDevice_setFilePtr st f sb hf
            (by omega) hs
    · rcases hfile with hc | ⟨rest, last, hl, ht, hm⟩
      · exact absurd hc hnew
      · simp only [if_neg hnew, wipeFile] at ho
        split at ho
        · exact absurd ho (by simp)
        · rename_i st2 hsplit
          split at hsplit
          · exact absurd hsplit (by simp)
          · rename_i w hw
            simp only [Option.some.injEq] at hsplit
            subst hsplit
            simp only [Option.some.injEq, Prod.mk.injEq] at ho
            obtain ⟨-, rfl⟩ := ho
            have hmw := wipeLoop_mirrorsOnDevice rest fuel _ last st w hl hm ht hw hs
            exact mirrorsOnDevice_congr (setBlockPtr w (st.filePtrs f) NULLPTR) _ rfl rfl rfl
              (fun _ _ => rfl) (mirrorsOnDevice_setBlockPtr _ _ _ hmw)

/-- A cold mount of a device that holds the mirrors takes the branch for a
formatted device and loads the same mirrors. -/
theorem initEepfs_restores (l : Layout) (pre st : FS) (hpre : pre.eeprom = st.eeprom)
    (hm : MirrorsOnDevice st) :
    (initEepfs l pre).eeprom = st.eeprom ∧
    (∀ i, i < NUMBLOCKBYTES → (initEepfs l pre).blocks i = st.blocks i) ∧
    (∀ i, i < NUMFILEPTRBYTES → (initEepfs l pre).filePtrs i = st.filePtrs i) ∧
    (∀ i, i < NUMFILEPTRBYTES → (initEepfs l pre).fileAccess i = FILECLOSED ∧
      (initEepfs l pre).filePosition i = 0 ∧ (initEepfs l pre).fileBlock i = NULLPTR) := by
  obtain ⟨h1, h2, h3, h4⟩ := hm
  have hc : ¬ eeprom_read_byte pre.eeprom CONFIGUREINDEX ≠ NUMBLOCKBYTES ^^^ 0xA1 := by
    rw [hpre]; simp [h2]
  simp only [initEepfs, if_neg hc]
  refine ⟨hpre, ?_, ?_, ?_⟩
  · intro i hi
    simp only [hi, if_true, hpre]
    exact (h3 i hi).symm
  · intro i hi
    simp only [hi, if_true, hpre]
    rw [h4 i hi, h1]
  · intro i hi
    simp only [hi, if_true, and_self]

theorem write_mirrorsOnDevice (fuel : Nat) (st : FS) (h : Int) (buffer : Mem) (size : Nat)
    (r : Int) (st1 : FS) (hw : write fuel st h buffer size = some (r, st1))
    (hs : MirrorsOnDevice st) : MirrorsOnDevice st1 := by
  unfold write at hw
  split_ifs at hw
  · simp only [Option.some.injEq, Prod.mk.injEq] at hw
    obtain ⟨-, rfl⟩ := hw
    exact hs
  · simp only [Option.some.injEq, Prod.mk.injEq] at hw
    obtain ⟨-, rfl⟩ := hw
    exact hs
  · exact writeLoop_mirrorsOnDevice _ _ _ _ _ _ _ _ hw hs

/-- A mount of a device that carries the magic byte ends with the mirrors equal
to the device regions. -/
theorem initEepfs_mirrorsOnDevice (l : Layout) (pre : FS)
    (hmagic : eeprom_read_byte pre.eeprom CONFIGUREINDEX = NUMBLOCKBYTES ^^^ 0xA1) :
    MirrorsOnDevice (initEepfs l pre) := by
  have hc : ¬ eeprom_read_byte pre.eeprom CONFIGUREINDEX ≠ NUMBLOCKBYTES ^^^ 0xA1 := by
    simp [hmagic]
  simp only [MirrorsOnDevice, BitmapOnDevice, PointersOnDevice, initEepfs, if_neg hc]
  refine ⟨trivial, hmagic, ?_, ?_⟩
  · intro i hi
    simp only [hi, if_true]
  · intro i hi
    simp only [hi, if_true]

theorem open_for_write_opened (fuel : Nat) (st st1 : FS) (f : Nat)
    (ho : open_for_write fuel st f = some ((f : Int), st1)) :
    st1.filePtrs f ≠ NULLPTR ∧ st1.fileAccess f = FILEWRITE := by
  unfold open_for_write at ho
  have hm1 : ((f : Int) = FILEALREADYOPEN) = False := by
    simp only [FILEALREADYOPEN, eq_iff_iff, iff_false]; omega
  have hm5 : ((f : Int) = OUTOFSPACE) = False := by
    simp only [OUTOFSPACE, eq_iff_iff, iff_false]; omega
  by_cases h1 : st.fileAccess f ≠ FILECLOSED
  · rw [if_pos h1] at ho
    simp only [Option.some.injEq, Prod.mk.injEq] at ho
    exact absurd ho.1.symm (by simp only [hm1, not_false_eq_true])
  · rw [if_neg h1] at ho
    dsimp only at ho
    generalize (if st.filePtrs f = NULLPTR then (createNewFile st f).2 else st) = sx at ho
    by_cases h2 : sx.filePtrs f = NULLPTR
    · rw [if_pos h2] at ho
      simp only [Option.some.injEq, Prod.mk.injEq] at ho
      exact absurd ho.1.symm (by simp only [hm5, not_false_eq_true])
    · rw [if_neg h2] at ho
      split at ho
      · exact absurd ho (by simp)
      · rename_i st2 hw
        simp only [Option.some.injEq, Prod.mk.injEq, true_and] at ho
        subst ho
        have hfr := (wipeFile_frame _ _ _ _ hw).1
        simp only [upd, if_true]
        refine ⟨?_, trivial⟩
        rw [hfr]
        exact h2

/-! ## Persistence across a cold mount -/

/-- Persistence across a cold mount when the device regions equal the mirrors.
Start from any state whose mirrors
equal the regions of a device that carries the magic byte (a mounted formatted
device), and a file id `f < 61` that does not exist or whose chain runs through
managed blocks. If `open_for_write(f)` returns `f` and `write` of `s` returns 0,
then `close(f)` returns 0, and for every program state `pre` over the device
contents left behind (whatever its mirrors and handle table), `initEepfs` finds
the magic byte, leaves the device as it is, sees file `f` as existing, and loads
a bitmap mirror and a pointer-table mirror equal to those before the remount. -/
theorem cold_mount_restores (l : Layout) (st : FS) (f : Nat) (s : List Nat) (fo fw : Nat)
    (st1 st2 pre : FS)
    (hsync : MirrorsOnDevice st) (hf : f < MAXFILES)
    (hfile : fileExists st f = false ∨
      ∃ rest last, Linked st.eeprom rest (st.filePtrs f) last ∧ 128 ≤ getBlockPtr st last ∧
        ∀ blk, blk ∈ rest → blk < NUMBLOCKBYTES * 8)
    (hopen : open_for_write fo st f = some ((f : Int), st1))
    (hwrite : write fw st1 f (bufOf s) s.length = some (0, st2))
    (hpre : pre.eeprom = (close st2 f).2.eeprom) :
    (close st2 f).1 = 0 ∧
    eeprom_read_byte pre.eeprom CONFIGUREINDEX = NUMBLOCKBYTES ^^^ 0xA1 ∧
    (initEepfs l pre).eeprom = pre.eeprom ∧
    fileExists (initEepfs l pre) f = true ∧
    (∀ i, i < NUMBLOCKBYTES → (initEepfs l pre).blocks i = (close st2 f).2.blocks i) ∧
    (∀ i, i < NUMFILEPTRBYTES → (initEepfs l pre).filePtrs i = (close st2 f).2.filePtrs i) := by
  have hfile1 : st.filePtrs f = NULLPTR ∨
      ∃ rest last, Linked st.eeprom rest (st.filePtrs f) last ∧ 128 ≤ getBlockPtr st last ∧
        ∀ blk, blk ∈ rest → blk < NUMBLOCKBYTES * 8 := by
    rcases hfile with h | h
    · exact Or.inl (by simpa [fileExists] using h)
    · exact Or.inr h
  have hs1 := open_for_write_mirrorsOnDevice fo st f _ st1 hf hsync hfile1 hopen
  obtain ⟨hex1, hacc1⟩ := open_for_write_opened fo st st1 f hopen
  have hs2 := write_mirrorsOnDevice fw st1 f _ _ _ st2 hwrite hs1
  have hrej := handle_ok f hf
  have hw : writeLoop f (bufOf s) s.length fw 0 st1 = some (0, st2) := by
    simpa only [write, hrej, Bool.false_eq_true, if_false, Int.toNat_ofNat, hacc1, ne_eq,
      not_true_eq_false] using hwrite
  obtain ⟨hfp2, hacc2, -⟩ := writeLoop_frame _ _ _ _ _ _ _ _ hw
  have hex2 : st2.filePtrs f ≠ NULLPTR := by rw [hfp2]; exact hex1
  have hopen2 : st2.fileAccess f ≠ FILECLOSED := by
    rw [hacc2, hacc1]; decide
  obtain ⟨hc0, -, hcfp, -, -, -⟩ := close_of_open st2 f hex2 hopen2
  have hs3 := close_mirrorsOnDevice st2 f hs2
  obtain ⟨hr1, hr2, hr3, -⟩ := initEepfs_restores l pre _ hpre hs3
  refine ⟨hc0, ?_, hr1.trans hpre.symm, ?_, hr2, hr3⟩
  · rw [hpre]; exact hs3.2.1
  · simp only [fileExists, decide_eq_true_eq]
    rw [hr3 f (by simp only [NUMFILEPTRBYTES, MAXFILES] at hf ⊢; omega), hcfp]
    simpa only [NULLPTR, bne_iff_ne] using hex2

theorem cold_mount_restores_witness :
    MirrorsOnDevice coldMount ∧ fileExists coldMount 3 = false ∧
    (close (after (.write 9 3 (bufOf (demoBytes 40)) 40) (after (.openWrite 1 3) coldMount)) 3).1
      = 0 ∧
    fileExists (initEepfs demoLayout (boot (close (after (.write 9 3 (bufOf (demoBytes 40)) 40)
      (after (.openWrite 1 3) coldMount)) 3).2.eeprom)) 3 = true := by
  have hsync : MirrorsOnDevice coldMount := initEepfs_mirrorsOnDevice _ _ (by rfl)
  have h := cold_mount_restores demoLayout coldMount 3 (demoBytes 40) 1 9
    (after (.openWrite 1 3) coldMount)
    (after (.write 9 3 (bufOf (demoBytes 40)) 40) (after (.openWrite 1 3) coldMount))
    (boot (close (after (.write 9 3 (bufOf (demoBytes 40)) 40)
      (after (.openWrite 1 3) coldMount)) 3).2.eeprom)
    hsync (by decide) (Or.inl (by rfl)) (by rfl) (by rfl) rfl
  exact ⟨hsync, by rfl, h.1, h.2.2.2.1⟩

/-! ## The chain that one write builds -/

/-- When exactly the blocks below `j` are in use, the scan finds block `j`. -/
theorem getEmptyBlock_prefix (st : FS) (j : Nat) (hj : j < 56)
    (hu : ∀ b, b < 56 → isInUse st b = decide (b < j)) : getEmptyBlock st = j := by
  have hj0 : isInUse st j = false := by rw [hu j hj]; simp
  rcases getEmptyBlockLoop_first st (NUMBLOCKBYTES * 8) 0 (by decide) with ⟨-, h2⟩ | ⟨-, h2, h3, h4⟩
  · have h := h2 j (Nat.zero_le _) (by simpa [NUMBLOCKBYTES] using hj)
    rw [hj0] at h
    exact absurd h (by simp)
  · have hg : getEmptyBlock st < 56 := by simpa [NUMBLOCKBYTES, getEmptyBlock] using h2
    have h3' : isInUse st (getEmptyBlock st) = false := h3
    rw [hu _ hg] at h3'
    have hge : ¬ getEmptyBlock st < j := by simpa using h3'
    by_cases hlt : j < getEmptyBlock st
    · have h := h4 j (Nat.zero_le _) hlt
      rw [hj0] at h
      exact absurd h (by simp)
    · omega

theorem writeLoop_consecutive (h : Nat) (buffer : Mem) (size : Nat) (hsize : size ≤ 65504) :
    ∀ (q fuel i c : Nat) (st : FS),
      i < size → (size - i - 1) / 31 = q → q + 1 < fuel →
      st.fileBlock h = c → st.filePosition h &&& 31 = 0 → c + q < 56 →
      (∀ b, b < 56 → isInUse st b = decide (b ≤ c)) →
      ∃ st1, writeLoop h buffer size fuel i st = some (0, st1) ∧
        st1.fileBlock h = c + q ∧ st1.filePosition h &&& 31 = size - i - 31 * q ∧
        (∀ b, b < 56 → isInUse st1 b = decide (b ≤ c + q)) ∧
        (∀ t, c ≤ t → t < c + q → st1.eeprom (cell t 31) = t + 1) ∧
        (∀ t, t < c → st1.eeprom (cell t 31) = st.eeprom (cell t 31)) := by
  intro q
  induction q with
  | zero =>
    intro fuel i c st hlt hq hfuel hblk hpos hc hu
    obtain ⟨fuel1, rfl⟩ : ∃ n, fuel = n + 2 := ⟨fuel - 2, by omega⟩
    have hrem : size - i ≤ 31 := by omega
    rw [writeLoop_last h buffer size (fuel1 + 1) i st hlt (by rw [hpos]; simp only [BLOCKSIZE]; omega),
      writeLoop_done h buffer size fuel1 _ _ (by omega)]
    refine ⟨_, rfl, ?_, ?_, ?_, ?_, ?_⟩
    · exact hblk
    · simp only [upd, if_true]
      rw [and31] at hpos ⊢
      omega
    · intro b hb
      exact (isInUse_congr _ st rfl b).trans (hu b hb)
    · intro t h1 h2
      omega
    · intro t ht
      simp only [eeprom_update_block, hblk, hpos, cell, FILEINDEX, BLOCKSIZE]
      rw [if_neg (by omega)]
  | succ q ih =>
    intro fuel i c st hlt hq hfuel hblk hpos hc hu
    obtain ⟨fuel1, rfl⟩ : ∃ n, fuel = n + 1 := ⟨fuel - 1, by omega⟩
    have hrem : 31 < size - i := by
      by_contra hcon
      have : (size - i - 1) / 31 = 0 := Nat.div_eq_of_lt (by omega)
      omega
    have hnb : getEmptyBlock st = c + 1 :=
      getEmptyBlock_prefix st (c + 1) (by omega) (fun b hb => by
        rw [hu b hb]; simp only [Nat.lt_succ_iff])
    have hnn : getEmptyBlock st ≠ NULLPTR := by rw [hnb]; simp only [NULLPTR]; omega
    obtain ⟨st5, hw, hb5, hfb5, hfp5, -, -, -, he5⟩ :=
      writeLoop_alloc h buffer size fuel1 i st hlt
        (by rw [hpos]; simp only [BLOCKSIZE]; omega) hsize hnn
    rw [hnb] at hb5 hfb5 he5
    rw [hpos] at hw hfp5 he5
    have hu5 : ∀ b, b < 56 → isInUse st5 b = decide (b ≤ c + 1) := by
      intro b hb
      rw [isInUse_congr _ _ hb5 b, isInUse_setInUse, hu b hb]
      by_cases hbc : b = c + 1
      · rw [if_pos hbc]; simp [hbc]
      · rw [if_neg hbc]
        have : (b ≤ c) = (b ≤ c + 1) := by
          apply propext; constructor <;> intro hh <;> omega
        simp only [this]
    have hpos5 : st5.filePosition h &&& 31 = 0 := by
      rw [hfp5]
      simp only [upd, if_true, BLOCKSIZE]
      rw [and31] at hpos ⊢
      omega
    have hq5 : (size - (i + (BLOCKSIZE - 0 - 1)) - 1) / 31 = q := by
      simp only [BLOCKSIZE]
      have h1 : size - i - 1 = (size - (i + (32 - 0 - 1)) - 1) + 31 := by omega
      rw [h1, Nat.add_div_right _ (by decide)] at hq
      omega
    obtain ⟨st1, hw1, hfb1, hfp1, hu1, ht1, hfr1⟩ :=
      ih fuel1 (i + (BLOCKSIZE - 0 - 1)) (c + 1) st5 (by simp only [BLOCKSIZE]; omega) hq5
        (by omega) (by rw [hfb5]; simp only [upd, if_true]) hpos5 (by omega) hu5
    refine ⟨st1, hw.trans hw1, ?_, ?_, ?_, ?_, ?_⟩
    · rw [hfb1]; omega
    · rw [hfp1]
      simp only [BLOCKSIZE]
      have := Nat.div_mul_le_self (size - (i + (32 - 0 - 1)) - 1) 31
      simp only [BLOCKSIZE] at hq5
      rw [hq5] at this
      omega
    · intro b hb
      rw [hu1 b hb]
      have : (b ≤ c + 1 + q) = (b ≤ c + (q + 1)) := by
        apply propext; constructor <;> intro hh <;> omega
      simp only [this]
    · intro t h1 h2
      by_cases htc : t = c
      · subst htc
        rw [hfr1 t (by omega), he5]
        simp only [cell, FILEINDEX, BLOCKSIZE, BLOCKINDEX, hblk]
        rw [if_neg (by omega), if_neg (by omega), if_pos trivial]
      · exact ht1 t (by omega) (by omega)
    · intro t ht
      rw [hfr1 t (by omega), he5]
      simp only [cell, FILEINDEX, BLOCKSIZE, BLOCKINDEX, hblk, eeprom_update_block]
      rw [if_neg (by omega), if_neg (by omega), if_neg (by omega), if_neg (by omega)]

theorem open_for_write_new_returns (fuel : Nat) (st : FS) (f : Nat)
    (hnew : st.filePtrs f = NULLPTR) (hacc : st.fileAccess f = FILECLOSED)
    (hfree : getEmptyBlock st ≠ NULLPTR) :
    ∃ st1, open_for_write (fuel + 1) st f = some ((f : Int), st1) := by
  unfold open_for_write
  rw [if_neg (by simp [hacc])]
  simp only [if_pos hnew, createNewFile, if_neg hfree]
  generalize getEmptyBlock st = sb at hfree
  have hfp : (setBlockPtr (setInUse (setFilePtr st f sb) sb true) sb NULLPTR).filePtrs f
      = sb := by
    simp only [setBlockPtr, setInUse, setFilePtr, upd, if_true]
  have hgb : getBlockPtr (setBlockPtr (setInUse (setFilePtr st f sb) sb true) sb NULLPTR) sb
      = NULLPTR := by
    simp only [getBlockPtr, setBlockPtr, eeprom_read_byte, eeprom_update_byte, upd, if_true,
      NULLPTR]
  rw [hfp, if_neg hfree]
  simp only [wipeFile, hfp, if_neg hfree, hgb]
  rw [wipeLoop_end _ _ _ (by decide)]
  exact ⟨_, rfl⟩

/-- After a format every handle is CLOSED and every managed block is free. -/
theorem initEepfs_fresh_fields (l : Layout) (pre : FS)
    (hfresh : eeprom_read_byte pre.eeprom CONFIGUREINDEX ≠ NUMBLOCKBYTES ^^^ 0xA1) :
    (∀ f, f < MAXFILES → (initEepfs l pre).fileAccess f = FILECLOSED) ∧
    (∀ b, b < 56 → isInUse (initEepfs l pre) b = false) := by
  constructor
  · intro f hf
    have hf1 : f < NUMFILEPTRBYTES := hf
    simp only [initEepfs, hf1, if_true]
  · intro b hb
    have hi : b / 8 < NUMBLOCKBYTES := by simp only [NUMBLOCKBYTES]; omega
    have hbl : (initEepfs l pre).blocks (b / 8) = 255 := by
      simp only [initEepfs, hfresh, ne_eq, not_false_eq_true, if_true, setupEeprom, hi]
    rw [isInUse_eq, hbl]
    have hm : b % 8 < 8 := Nat.mod_lt _ (by decide)
    generalize b % 8 = m at hm
    have hall : ∀ m, m < 8 → (!Nat.testBit 255 m) = false := by decide
    exact hall m hm

/-! ## Chain shape after one write -/

/-- C17. Chain shape after one write. On a device that `initEepfs` has just
formatted, for every file id `f < 61` and every byte string `s` with
`1 ≤ |s| ≤ 31 * 56` (it fits into the 56 managed blocks), `open_for_write(f)`
returns `f`, `write` of `s` returns 0 and `close(f)` returns 0 (given fuel for one
pass per block), and afterwards, with `k = ceil(|s| / 31)`: the start block of `f`
is block 0, exactly the blocks `0 .. k-1` are in use, the terminator of every
block `j` with `j + 1 < k` is `j + 1`, and the terminator of block `k - 1` is
`0x80 | (|s| - 31 * (k - 1))`. -/
theorem one_write_chain_shape (l : Layout) (pre : FS) (f : Nat) (s : List Nat) (fo fw : Nat)
    (hfresh : eeprom_read_byte pre.eeprom CONFIGUREINDEX ≠ NUMBLOCKBYTES ^^^ 0xA1)
    (hf : f < MAXFILES) (hpos : 1 ≤ s.length) (hfits : s.length ≤ 31 * 56)
    (hfo : 1 ≤ fo) (hfw : (s.length + 30) / 31 < fw) :
    ∃ st1 st2, open_for_write fo (initEepfs l pre) f = some ((f : Int), st1) ∧
      write fw st1 f (bufOf s) s.length = some (0, st2) ∧
      (close st2 f).1 = 0 ∧
      (close st2 f).2.filePtrs f = 0 ∧
      (∀ b, b < 56 → isInUse (close st2 f).2 b = decide (b < (s.length + 30) / 31)) ∧
      (∀ j, j + 1 < (s.length + 30) / 31 → getBlockPtr (close st2 f).2 j = j + 1) ∧
      getBlockPtr (close st2 f).2 ((s.length + 30) / 31 - 1)
        = 0x80 ||| (s.length - 31 * ((s.length + 30) / 31 - 1)) := by
  obtain ⟨hclosed, hfree⟩ := initEepfs_fresh_fields l pre hfresh
  have hnew := initEepfs_fresh l pre f hf hfresh
  generalize initEepfs l pre = st at hclosed hfree hnew
  have hg0 : getEmptyBlock st = 0 :=
    getEmptyBlock_prefix st 0 (by decide) (fun b hb => by rw [hfree b hb]; simp)
  obtain ⟨fo1, rfl⟩ : ∃ n, fo = n + 1 := ⟨fo - 1, by omega⟩
  obtain ⟨st1, hopen⟩ := open_for_write_new_returns fo1 st f hnew (hclosed f hf)
    (by rw [hg0]; decide)
  obtain ⟨-, -, hacc1, hpos1, hblk1, hfp1, -, hb1, -⟩ := open_for_write_new _ _ _ _ hnew hopen
  rw [hg0] at hblk1 hfp1 hb1
  have hu1 : ∀ b, b < 56 → isInUse st1 b = decide (b ≤ 0) := by
    intro b hb
    rw [isInUse_congr _ _ hb1 b, isInUse_setInUse, hfree b hb]
    by_cases hb0 : b = 0
    · simp [hb0]
    · rw [if_neg hb0]
      simp [hb0]
  have hq : (s.length + 30) / 31 = (s.length - 0 - 1) / 31 + 1 := by
    have h1 : s.length + 30 = (s.length - 0 - 1) + 31 := by omega
    rw [h1, Nat.add_div_right _ (by decide)]
  have hqle : (s.length - 0 - 1) / 31 < 56 := by
    apply Nat.div_lt_of_lt_mul
    omega
  generalize hqd : (s.length - 0 - 1) / 31 = q at hq hqle
  obtain ⟨st2, hw, hfb2, hfp2, hu2, ht2, -⟩ :=
    writeLoop_consecutive f (bufOf s) s.length (by omega) q fw 0 0 st1 (by omega) hqd
      (by omega) hblk1 (by rw [hpos1]; rfl) (by omega) hu1
  obtain ⟨hfps, haccs, -⟩ := writeLoop_frame _ _ _ _ _ _ _ _ hw
  have hrej := handle_ok f hf
  have hwrite : write fw st1 f (bufOf s) s.length = some (0, st2) := by
    simp only [write, hrej, Bool.false_eq_true, if_false, Int.toNat_ofNat, hacc1, ne_eq,
      not_true_eq_false]
    exact hw
  have hex2 : st2.filePtrs f ≠ NULLPTR := by rw [hfps, hfp1]; decide
  have hopen2 : st2.fileAccess f ≠ FILECLOSED := by rw [haccs, hacc1]; decide
  obtain ⟨hc0, hce, hcfp, -, hcb, -⟩ := close_of_open st2 f hex2 hopen2
  have hnn : st2.fileBlock f ≠ NULLPTR := by rw [hfb2]; simp only [NULLPTR]; omega
  have hwe : ∀ a, (close st2 f).2.eeprom a
      = if a = cell q 31 then (s.length - 31 * q) ||| ISLEN else st2.eeprom a := by
    intro a
    rw [hce, writeBlockLength_eeprom st2 f hnn a, hfb2, hfp2, Nat.zero_add, Nat.sub_zero]
  have hL : s.length - 0 - 31 * q ≤ 31 := by
    have := Nat.lt_div_mul_add (a := s.length - 0 - 1) (b := 31) (by decide)
    rw [hqd] at this
    omega
  refine ⟨st1, st2, hopen, hwrite, hc0, ?_, ?_, ?_, ?_⟩
  · rw [hcfp, hfps, hfp1]
  · intro b hb
    rw [isInUse_congr _ _ hcb b, hu2 b hb, hq]
    have : (b ≤ 0 + q) = (b < q + 1) := by
      apply propext; constructor <;> intro hh <;> omega
    simp only [this]
  · intro j hj
    rw [hq] at hj
    rw [getBlockPtr_eq, hwe]
    have hne : cell j 31 ≠ cell q 31 := by
      simp only [cell, FILEINDEX, BLOCKSIZE]; omega
    rw [if_neg hne, ht2 j (Nat.zero_le _) (by omega)]
    omega
  · rw [hq, Nat.add_sub_cancel, getBlockPtr_eq, hwe, if_pos rfl,
      len_or_isLen _ (by omega), Nat.lor_comm]
    have h128 : (128 : Nat) = ISLEN := rfl
    rw [h128, len_or_isLen _ (by omega)]
    omega

theorem one_write_chain_shape_witness :
    ∃ st1 st2, open_for_write 1 (initEepfs demoLayout (boot zeroDevice)) 0
        = some (((0 : Nat) : Int), st1) ∧
      write 3 st1 ((0 : Nat) : Int) (bufOf (demoBytes 40)) (demoBytes 40).length = some (0, st2) ∧
      (close st2 0).1 = 0 ∧ (close st2 0).2.filePtrs 0 = 0 ∧
      isInUse (close st2 0).2 0 = true ∧ isInUse (close st2 0).2 1 = true ∧
      isInUse (close st2 0).2 2 = false ∧
      getBlockPtr (close st2 0).2 0 = 1 ∧ getBlockPtr (close st2 0).2 1 = 0x80 ||| 9 := by
  obtain ⟨st1, st2, h1, h2, h3, h4, h5, h6, h7⟩ :=
    one_write_chain_shape demoLayout (boot zeroDevice) 0 (demoBytes 40) 1 3
      (by decide) (by decide) (by decide) (by decide) (by decide) (by decide)
  exact ⟨st1, st2, h1, h2, h3, h4, (h5 0 (by decide)).trans (by decide),
    (h5 1 (by decide)).trans (by decide), (h5 2 (by decide)).trans (by decide),
    h6 0 (by decide), h7⟩

/-! ## The terminator at rest -/

theorem linked_last_mem (e : Mem) : ∀ (rest : List Nat) (b last : Nat),
    Linked e rest b last → last ∈ b :: rest := by
  intro rest
  induction rest with
  | nil =>
    intro b last h
    have : b = last := h
    simp [this]
  | cons t rest ih =>
    intro b last h
    exact List.mem_cons_of_mem _ (ih t last h.2.2)

theorem linked_frame (e e1 : Mem) : ∀ (rest : List Nat) (b last : Nat),
    Linked e rest b last → 128 ≤ e (cell last 31) % 256 →
    (∀ x, x ∈ b :: rest → x ≠ last → e1 (cell x 31) = e (cell x 31)) →
    Linked e1 rest b last := by
  intro rest
  induction rest with
  | nil => intro b last h _ _; exact h
  | cons t rest ih =>
    intro b last h ht hag
    obtain ⟨h1, h2, h3⟩ := h
    have hbl : b ≠ last := by
      intro hc
      subst hc
      omega
    refine ⟨?_, h2, ih t last h3 ht (fun x hx hxl => hag x (List.mem_cons_of_mem _ hx) hxl)⟩
    rw [hag b (List.mem_cons_self _ _) hbl]
    exact h1

theorem linked_congr (e e1 : Mem) : ∀ (rest : List Nat) (b last : Nat),
    Linked e rest b last → (∀ x, x ∈ b :: rest → e1 (cell x 31) = e (cell x 31)) →
    Linked e1 rest b last := by
  intro rest
  induction rest with
  | nil => intro b last h _; exact h
  | cons t rest ih =>
    intro b last h hag
    obtain ⟨h1, h2, h3⟩ := h
    refine ⟨?_, h2, ih t last h3 (fun x hx => hag x (List.mem_cons_of_mem _ hx))⟩
    rw [hag b (List.mem_cons_self _ _)]
    exact h1

theorem linked_append (e e1 : Mem) (nb : Nat) (hnb : nb < 128) :
    ∀ (rest : List Nat) (b last : Nat),
    Linked e rest b last → 128 ≤ e (cell last 31) % 256 →
    (∀ x, x ∈ b :: rest → x ≠ last → e1 (cell x 31) = e (cell x 31)) →
    e1 (cell last 31) % 256 = nb →
    Linked e1 (rest ++ [nb]) b nb := by
  intro rest
  induction rest with
  | nil =>
    intro b last h _ _ hl
    have : b = last := h
    subst this
    exact ⟨hl, hnb, rfl⟩
  | cons t rest ih =>
    intro b last h ht hag hl
    obtain ⟨h1, h2, h3⟩ := h
    have hbl : b ≠ last := by
      intro hc
      subst hc
      omega
    refine ⟨?_, h2,
      ih t last h3 ht (fun x hx hxl => hag x (List.mem_cons_of_mem _ hx) hxl) hl⟩
    rw [hag b (List.mem_cons_self _ _) hbl]
    exact h1

/-- The last terminator of an existing file has bit 7 set, for both kinds of
handle. -/
theorem fileOK_tail (st : FS) (f : Nat) (last : Nat)
    (hw : st.fileAccess f = FILEWRITE → getBlockPtr st last = NULLPTR)
    (hc : st.fileAccess f = FILECLOSED → ∃ L, L ≤ 31 ∧ getBlockPtr st last = 0x80 ||| L)
    (hacc : st.fileAccess f = FILECLOSED ∨ st.fileAccess f = FILEWRITE) :
    128 ≤ st.eeprom (cell last 31) % 256 := by
  rw [← getBlockPtr_eq]
  rcases hacc with h | h
  · obtain ⟨L, hL, hg⟩ := hc h
    rw [hg, Nat.lor_comm]
    have := len_or_isLen L (by omega)
    simp only [ISLEN] at this
    omega
  · rw [hw h]; decide

/-- A file keeps its chain when its table entries, the bits of its blocks and the
terminators of its blocks stay as they are. -/
theorem fileOK_frame (st st1 : FS) (g : Nat) (rest : List Nat)
    (hfp : st1.filePtrs g = st.filePtrs g) (hacc : st1.fileAccess g = st.fileAccess g)
    (hfb : st1.fileBlock g = st.fileBlock g)
    (hmod : ∀ x, x ∈ st.filePtrs g :: rest → isInUse st x = true →
      isInUse st1 x = true ∧ st1.eeprom (cell x 31) = st.eeprom (cell x 31))
    (hok : FileOK st g rest) : FileOK st1 g rest := by
  intro hex
  rw [hfp] at hex
  obtain ⟨last, hl, hu, hw, hc⟩ := hok hex
  have hlm := linked_last_mem _ _ _ _ hl
  have hlast : getBlockPtr st1 last = getBlockPtr st last := by
    rw [getBlockPtr_eq, getBlockPtr_eq, (hmod last hlm (hu last hlm).2).2]
  refine ⟨last, ?_, ?_, ?_, ?_⟩
  · rw [hfp]
    exact linked_congr _ _ _ _ _ hl (fun x hx => (hmod x hx (hu x hx).2).2)
  · intro b hb
    rw [hfp] at hb
    exact ⟨(hu b hb).1, (hmod b hb (hu b hb).2).1⟩
  · intro h
    rw [hacc] at h
    rw [hfb, hlast]
    exact hw h
  · intro h
    rw [hacc] at h
    rw [hlast]
    exact hc h

/-- Writes that leave the tables, the bitmap and every terminator alone keep the
invariant. -/
theorem chainsOK_data (st st1 : FS) (hi : st1.FILEPTRINDEX = st.FILEPTRINDEX)
    (hb : st1.blocks = st.blocks) (hp : st1.filePtrs = st.filePtrs)
    (ha : st1.fileAccess = st.fileAccess) (hfb : st1.fileBlock = st.fileBlock)
    (he : ∀ x, st1.eeprom (cell x 31) = st.eeprom (cell x 31))
    (h : ChainsOK st) : ChainsOK st1 := by
  obtain ⟨h1, h2, h3, R, h4, h5⟩ := h
  refine ⟨hi.trans h1, ?_, ?_, R, ?_, ?_⟩
  · intro f hf; rw [ha]; exact h2 f hf
  · intro f hf; rw [ha, hp]; exact h3 f hf
  · intro f hf
    refine fileOK_frame st st1 f (R f) (by rw [hp]) (by rw [ha]) (by rw [hfb]) ?_ (h4 f hf)
    intro x _ hx
    exact ⟨by rw [isInUse_congr _ _ hb x]; exact hx, he x⟩
  · rw [hp]; exact h5

/-- One file gets a new chain; the other files keep their table entries, the bits
and the terminators of their blocks, and none of their blocks is on the new
chain. -/
theorem chainsOK_update (st st1 : FS) (f : Nat) (R : Nat → List Nat) (newRest : List Nat)
    (hi : st1.FILEPTRINDEX = BLOCKINDEX + NUMBLOCKBYTES)
    (h2 : ∀ g, g < MAXFILES → st.fileAccess g = FILECLOSED ∨ st.fileAccess g = FILEWRITE)
    (h3 : ∀ g, g < MAXFILES → st.filePtrs g = NULLPTR → st.fileAccess g = FILECLOSED)
    (h4 : ∀ g, g < MAXFILES → FileOK st g (R g))
    (h5 : ∀ g k, g < MAXFILES → k < MAXFILES → g ≠ k →
      st.filePtrs g ≠ NULLPTR → st.filePtrs k ≠ NULLPTR →
      ∀ b, b ∈ st.filePtrs g :: R g → b ∉ st.filePtrs k :: R k)
    (hp : ∀ g, g ≠ f → st1.filePtrs g = st.filePtrs g)
    (ha : ∀ g, g ≠ f → st1.fileAccess g = st.fileAccess g)
    (hfb : ∀ g, g ≠ f → st1.fileBlock g = st.fileBlock g)
    (haf : st1.fileAccess f = FILECLOSED ∨ st1.fileAccess f = FILEWRITE)
    (hof : st1.filePtrs f = NULLPTR → st1.fileAccess f = FILECLOSED)
    (hother : ∀ g, g < MAXFILES → g ≠ f → st.filePtrs g ≠ NULLPTR →
      ∀ x, x ∈ st.filePtrs g :: R g → isInUse st x = true →
        isInUse st1 x = true ∧ st1.eeprom (cell x 31) = st.eeprom (cell x 31) ∧
        (st1.filePtrs f ≠ NULLPTR → x ∉ st1.filePtrs f :: newRest))
    (hfok : FileOK st1 f newRest) : ChainsOK st1 := by
  have hinuse : ∀ g, g < MAXFILES → st.filePtrs g ≠ NULLPTR →
      ∀ x, x ∈ st.filePtrs g :: R g → isInUse st x = true := by
    intro g hg hex x hx
    obtain ⟨last, -, hu, -, -⟩ := h4 g hg hex
    exact (hu x hx).2
  refine ⟨hi, ?_, ?_, fun g => if g = f then newRest else R g, ?_, ?_⟩
  · intro g hg
    by_cases hgf : g = f
    · subst hgf; exact haf
    · rw [ha g hgf]; exact h2 g hg
  · intro g hg
    by_cases hgf : g = f
    · subst hgf; exact hof
    · rw [ha g hgf, hp g hgf]; exact h3 g hg
  · intro g hg
    beta_reduce
    by_cases hgf : g = f
    · subst hgf
      rw [if_pos rfl]
      exact hfok
    · rw [if_neg hgf]
      by_cases hex : st.filePtrs g = NULLPTR
      · intro hc
        rw [hp g hgf] at hc
        exact absurd hex hc
      · refine fileOK_frame st st1 g (R g) (hp g hgf) (ha g hgf) (hfb g hgf) ?_ (h4 g hg)
        intro x hx hxu
        obtain ⟨ha1, ha2, -⟩ := hother g hg hgf hex x hx hxu
        exact ⟨ha1, ha2⟩
  · intro g k hg hk hgk hexg hexk b hb
    beta_reduce at hb ⊢
    by_cases hgf : g = f
    · subst hgf
      rw [if_pos rfl] at hb
      have hkf : k ≠ g := fun hc => hgk hc.symm
      rw [if_neg hkf, hp k hkf]
      rw [hp k hkf] at hexk
      intro hbk
      exact (hother k hk hkf hexk b hbk (hinuse k hk hexk b hbk)).2.2 hexg hb
    · rw [if_neg hgf, hp g hgf] at hb
      rw [hp g hgf] at hexg
      by_cases hkf : k = f
      · subst hkf
        rw [if_pos rfl]
        exact (hother g hg hgf hexg b hb (hinuse g hg hexg b hb)).2.2 hexk
      · rw [if_neg hkf, hp k hkf]
        rw [hp k hkf] at hexk
        exact h5 g k hg hk hgk hexg hexk b hb

/-- An open WRITE handle belongs to an existing file. -/
theorem chainsOK_write_exists (st : FS) (h : Nat) (hh : h < MAXFILES)
    (h3 : ∀ g, g < MAXFILES → st.filePtrs g = NULLPTR → st.fileAccess g = FILECLOSED)
    (hacc : st.fileAccess h = FILEWRITE) : st.filePtrs h ≠ NULLPTR := by
  intro hc
  have := h3 h hh hc
  rw [hacc] at this
  exact absurd this (by decide)

/-- The pass of the write loop that links a free block to the current block keeps
the invariant. -/
theorem chainsOK_alloc (st st5 : FS) (h : Nat) (hh : h < MAXFILES)
    (hacc : st.fileAccess h = FILEWRITE) (hnb : getEmptyBlock st ≠ NULLPTR)
    (hb5 : st5.blocks = (setInUse st (getEmptyBlock st) true).blocks)
    (hfb5 : st5.fileBlock = upd st.fileBlock h (getEmptyBlock st))
    (hfp5 : st5.filePtrs = st.filePtrs) (ha5 : st5.fileAccess = st.fileAccess)
    (hi5 : st5.FILEPTRINDEX = st.FILEPTRINDEX)
    (he5 : ∀ x, st5.eeprom (cell x 31) =
      if x = getEmptyBlock st then NULLPTR
      else if x = st.fileBlock h then getEmptyBlock st else st.eeprom (cell x 31))
    (hok : ChainsOK st) : ChainsOK st5 := by
  obtain ⟨h1, h2, h3, R, h4, h5⟩ := hok
  obtain ⟨hnb56, hfree⟩ := getEmptyBlock_spec st hnb
  generalize getEmptyBlock st = nb at hnb hb5 hfb5 he5 hnb56 hfree
  have hex := chainsOK_write_exists st h hh h3 hacc
  obtain ⟨last, hl, hu, hw, hc⟩ := h4 h hh hex
  obtain ⟨hfbl, hterm⟩ := hw hacc
  have hlm := linked_last_mem _ _ _ _ hl
  have hu5 : ∀ x, isInUse st5 x = if x = nb then true else isInUse st x :=
    fun x => (isInUse_congr _ _ hb5 x).trans (isInUse_setInUse st nb x true)
  have hne : ∀ x, isInUse st x = true → x ≠ nb := by
    intro x hx hc
    rw [hc, hfree] at hx
    exact absurd hx (by simp)
  refine chainsOK_update st st5 h R (R h ++ [nb]) (hi5.trans h1) h2 h3 h4 h5
    (fun g _ => by rw [hfp5]) (fun g _ => by rw [ha5])
    (fun g hg => by rw [hfb5]; simp only [upd, if_neg hg])
    (by rw [ha5]; exact h2 h hh) (by rw [ha5, hfp5]; exact h3 h hh) ?_ ?_
  · intro g hg hgh hexg x hx hxu
    have hxl : x ≠ last := by
      intro hc
      rw [hc] at hx
      exact h5 h g hh hg (fun hc => hgh hc.symm) hex hexg last hlm hx
    refine ⟨?_, ?_, ?_⟩
    · rw [hu5, if_neg (hne x hxu)]; exact hxu
    · rw [he5, if_neg (hne x hxu), if_neg (by rw [hfbl]; exact hxl)]
    · intro _ hmem
      rw [hfp5] at hmem
      rw [← List.cons_append, List.mem_append, List.mem_singleton] at hmem
      rcases hmem with hmem | hmem
      · exact h5 h g hh hg (fun hc => hgh hc.symm) hex hexg x hmem hx
      · exact hne x hxu hmem
  · intro _
    refine ⟨nb, ?_, ?_, ?_, ?_⟩
    · rw [hfp5]
      refine linked_append st.eeprom st5.eeprom nb (by omega) (R h) _ last hl
        (fileOK_tail st h last (fun hh1 => (hw hh1).2) hc (h2 h hh)) ?_ ?_
      · intro x hx hxl
        rw [he5, if_neg (hne x (hu x hx).2), if_neg (by rw [hfbl]; exact hxl)]
      · rw [he5, if_neg (hne last (hu last hlm).2), if_pos hfbl.symm]
        exact Nat.mod_eq_of_lt (by omega)
    · intro b hb
      rw [hfp5, ← List.cons_append, List.mem_append, List.mem_singleton] at hb
      rcases hb with hb | hb
      · refine ⟨(hu b hb).1, ?_⟩
        rw [hu5, if_neg (hne b (hu b hb).2)]
        exact (hu b hb).2
      · subst hb
        exact ⟨hnb56, by rw [hu5, if_pos rfl]⟩
    · intro _
      refine ⟨by rw [hfb5]; simp only [upd, if_true], ?_⟩
      rw [getBlockPtr_eq, he5, if_pos rfl]
      decide
    · intro hcl
      rw [ha5, hacc] at hcl
      exact absurd hcl (by decide)

/-- The write loop keeps the invariant. -/
theorem writeLoop_chainsOK (h : Nat) (buffer : Mem) (size : Nat) (hh : h < MAXFILES)
    (hsize : size ≤ 65504) :
    ∀ (fuel i : Nat) (st : FS) (r : Int) (st1 : FS),
      writeLoop h buffer size fuel i st = some (r, st1) → st.fileAccess h = FILEWRITE →
      ChainsOK st → ChainsOK st1 := by
  intro fuel
  induction fuel with
  | zero => intro i st r st1 hw; simp [writeLoop] at hw
  | succ fuel ih =>
    intro i st r st1 hw hacc hok
    have ho : st.filePosition h &&& 31 < 32 := by rw [and31]; exact Nat.mod_lt _ (by decide)
    by_cases hlt : i < size
    · by_cases hfit : size - i + (st.filePosition h &&& 31) ≤ BLOCKSIZE - 1
      · rw [writeLoop_last h buffer size fuel i st hlt hfit] at hw
        refine ih _ _ _ _ hw hacc (chainsOK_data st _ rfl rfl rfl rfl rfl ?_ hok)
        intro x
        simp only [eeprom_update_block, cell, FILEINDEX, BLOCKSIZE] at hfit ⊢
        rw [if_neg (by omega)]
      · have hbig : BLOCKSIZE - 1 < size - i + (st.filePosition h &&& 31) := by omega
        by_cases hnb : getEmptyBlock st = NULLPTR
        · rw [writeLoop_full h buffer size fuel i st hlt hbig hsize hnb] at hw
          simp only [Option.some.injEq, Prod.mk.injEq] at hw
          obtain ⟨-, rfl⟩ := hw
          refine chainsOK_data st _ rfl rfl rfl rfl rfl ?_ hok
          intro x
          simp only [eeprom_update_block, cell, FILEINDEX, BLOCKSIZE]
          rw [if_neg (by omega)]
        · obtain ⟨st5, hw5, hb5, hfb5, -, hfp5, ha5, hi5, he5⟩ :=
            writeLoop_alloc h buffer size fuel i st hlt hbig hsize hnb
          rw [hw5] at hw
          have hnb56 := (getEmptyBlock_spec st hnb).1
          refine ih _ _ _ _ hw (by rw [ha5]; exact hacc)
            (chainsOK_alloc st st5 h hh hacc hnb hb5 hfb5 hfp5 ha5 hi5 ?_ hok)
          intro x
          rw [he5]
          have hc1 : cell x 31 ≠ BLOCKINDEX + getEmptyBlock st / 8 := by
            simp only [cell, FILEINDEX, BLOCKSIZE, BLOCKINDEX]; omega
          rw [if_neg hc1]
          by_cases hx1 : x = getEmptyBlock st
          · rw [if_pos (by rw [hx1]), if_pos hx1]
          · have hc2 : cell x 31 ≠ cell (getEmptyBlock st) 31 := by
              simp only [cell, FILEINDEX, BLOCKSIZE]; omega
            rw [if_neg hc2, if_neg hx1]
            by_cases hx2 : x = st.fileBlock h
            · rw [if_pos (by rw [hx2]), if_pos hx2]
            · have hc3 : cell x 31 ≠ cell (st.fileBlock h) 31 := by
                simp only [cell, FILEINDEX, BLOCKSIZE]; omega
              rw [if_neg hc3, if_neg hx2]
              simp only [eeprom_update_block, cell, FILEINDEX, BLOCKSIZE]
              rw [if_neg (by omega)]
    · rw [writeLoop_done h buffer size fuel i st hlt] at hw
      simp only [Option.some.injEq, Prod.mk.injEq] at hw
      obtain ⟨-, rfl⟩ := hw
      exact hok

theorem wipeLoop_fuel : ∀ (fuel1 fuel2 p : Nat) (st s1 s2 : FS),
    wipeLoop fuel1 p st = some s1 → wipeLoop fuel2 p st = some s2 → s1 = s2 := by
  intro fuel1
  induction fuel1 with
  | zero => intro fuel2 p st s1 s2 h1; simp [wipeLoop] at h1
  | succ fuel1 ih =>
    intro fuel2 p st s1 s2 h1 h2
    cases fuel2 with
    | zero => simp [wipeLoop] at h2
    | succ fuel2 =>
      simp only [wipeLoop] at h1 h2
      split_ifs at h1 h2
      · exact ih _ _ _ _ _ h1 h2
      · simp only [Option.some.injEq] at h1 h2
        rw [← h1, ← h2]

/-- The state after `open_for_write` has created a file. -/
theorem open_for_write_new_fields (fuel : Nat) (st : FS) (f : Nat) (r : Int) (st1 : FS)
    (hnew : st.filePtrs f = NULLPTR) (hacc : st.fileAccess f = FILECLOSED)
    (ho : open_for_write fuel st f = some (r, st1)) :
    st1 = st ∨
    (getEmptyBlock st ≠ NULLPTR ∧ st1.FILEPTRINDEX = st.FILEPTRINDEX ∧
      st1.blocks = (setInUse st (getEmptyBlock st) true).blocks ∧
      st1.filePtrs = upd st.filePtrs f (getEmptyBlock st) ∧
      st1.fileAccess = upd st.fileAccess f FILEWRITE ∧
      st1.fileBlock = upd st.fileBlock f (getEmptyBlock st) ∧
      ∀ a, FILEINDEX ≤ a → st.FILEPTRINDEX + f < FILEINDEX → getEmptyBlock st < 56 →
        st1.eeprom a = if a = cell (getEmptyBlock st) 31 then NULLPTR else st.eeprom a) := by
  unfold open_for_write at ho
  rw [if_neg (by simp [hacc])] at ho
  simp only [if_pos hnew, createNewFile] at ho
  by_cases hnb : getEmptyBlock st = NULLPTR
  · simp only [if_pos hnb, if_pos hnew] at ho
    simp only [Option.some.injEq, Prod.mk.injEq] at ho
    exact Or.inl ho.2.symm
  · right
    refine ⟨hnb, ?_⟩
    simp only [if_neg hnb] at ho
    generalize getEmptyBlock st = sb at ho hnb
    have hfp : (setBlockPtr (setInUse (setFilePtr st f sb) sb true) sb NULLPTR).filePtrs f
        = sb := by
      simp only [setBlockPtr, setInUse, setFilePtr, upd, if_true]
    rw [hfp, if_neg hnb] at ho
    have hgb : getBlockPtr (setBlockPtr (setInUse (setFilePtr st f sb) sb true) sb NULLPTR) sb
        = NULLPTR := by
      simp only [getBlockPtr, setBlockPtr, eeprom_read_byte, eeprom_update_byte, upd, if_true,
        NULLPTR]
    simp only [wipeFile, hfp, if_neg hnb, hgb] at ho
    cases fuel with
    | zero => simp [wipeLoop] at ho
    | succ fuel =>
      rw [wipeLoop_end _ _ _ (by decide)] at ho
      simp only [Option.some.injEq, Prod.mk.injEq] at ho
      obtain ⟨-, rfl⟩ := ho
      refine ⟨rfl, rfl, rfl, rfl, ?_, ?_⟩
      · simp only [setBlockPtr, setInUse, setFilePtr, upd, if_true]
      · intro a ha hfpi hsb
        simp only [setBlockPtr, setInUse, setFilePtr, eeprom_update_byte, upd, cell, NEXTBLOCKPTR,
          shr3, BLOCKINDEX, FILEINDEX] at ha hfpi ⊢
        by_cases h1 : a = 32 + 64 + sb * BLOCKSIZE + 31
        · rw [if_pos h1, if_pos h1]
        · rw [if_neg h1, if_neg h1, if_neg h1, if_neg (by omega), if_neg (by omega)]

/-- The state after `open_for_write` has wiped an existing file. -/
theorem open_for_write_old_fields (fuel : Nat) (st : FS) (f : Nat) (r : Int) (st1 : FS)
    (hex : st.filePtrs f ≠ NULLPTR) (hacc : st.fileAccess f = FILECLOSED)
    (ho : open_for_write fuel st f = some (r, st1)) :
    ∃ w, wipeLoop fuel (getBlockPtr st (st.filePtrs f)) st = some w ∧
      st1.FILEPTRINDEX = st.FILEPTRINDEX ∧ st1.blocks = w.blocks ∧
      st1.filePtrs = st.filePtrs ∧ st1.fileAccess = upd st.fileAccess f FILEWRITE ∧
      st1.fileBlock = upd st.fileBlock f (st.filePtrs f) ∧
      ∀ a, st1.eeprom a = if a = cell (st.filePtrs f) 31 then NULLPTR else w.eeprom a := by
  unfold open_for_write at ho
  rw [if_neg (by simp [hacc])] at ho
  simp only [if_neg hex, wipeFile] at ho
  split at ho
  · exact absurd ho (by simp)
  · rename_i st2 hsplit
    split at hsplit
    · exact absurd hsplit (by simp)
    · rename_i w hw
      simp only [Option.some.injEq] at hsplit
      subst hsplit
      simp only [Option.some.injEq, Prod.mk.injEq] at ho
      obtain ⟨-, rfl⟩ := ho
      obtain ⟨hf1, hf2, hf3, -, hf5⟩ := wipeLoop_frame _ _ _ _ hw
      refine ⟨w, hw, ?_, rfl, ?_, ?_, ?_, ?_⟩
      · exact hf3
      · exact hf1
      · simp only [setBlockPtr, hf2]
      · simp only [setBlockPtr, hf5, hf1]
      · intro a
        simp only [setBlockPtr, eeprom_update_byte, upd, cell, NEXTBLOCKPTR]

theorem cell_31_inj (x y : Nat) (h : cell x 31 = cell y 31) : x = y := by
  simp only [cell, FILEINDEX, BLOCKSIZE] at h
  omega

/-- `open_for_write` keeps the invariant. -/
theorem open_for_write_chainsOK (fuel : Nat) (st : FS) (f : Nat) (r : Int) (st1 : FS)
    (hf : f < MAXFILES) (ho : open_for_write fuel st f = some (r, st1))
    (hok : ChainsOK st) : ChainsOK st1 := by
  by_cases hacc : st.fileAccess f = FILECLOSED
  · obtain ⟨h1, h2, h3, R, h4, h5⟩ := hok
    by_cases hnew : st.filePtrs f = NULLPTR
    · rcases open_for_write_new_fields fuel st f r st1 hnew hacc ho with
        rfl | ⟨hnb, hi1, hb1, hp1, ha1, hfb1, he1⟩
      · exact ⟨h1, h2, h3, R, h4, h5⟩
      · obtain ⟨hnb56, hfree⟩ := getEmptyBlock_spec st hnb
        have he2 : ∀ x, st1.eeprom (cell x 31)
            = if x = getEmptyBlock st then NULLPTR else st.eeprom (cell x 31) := by
          intro x
          rw [he1 _ (by simp only [cell]; omega)
            (by rw [h1]; simp only [BLOCKINDEX, NUMBLOCKBYTES, FILEINDEX, MAXFILES] at hf ⊢; omega)
            hnb56]
          by_cases hx : x = getEmptyBlock st
          · rw [if_pos (by rw [hx]), if_pos hx]
          · rw [if_neg (fun hc => hx (cell_31_inj _ _ hc)), if_neg hx]
        generalize getEmptyBlock st = sb at hnb hb1 hp1 hfb1 he2 hnb56 hfree
        have hu1 : ∀ x, isInUse st1 x = if x = sb then true else isInUse st x :=
          fun x => (isInUse_congr _ _ hb1 x).trans (isInUse_setInUse st sb x true)
        have hne : ∀ x, isInUse st x = true → x ≠ sb := by
          intro x hx hc
          rw [hc, hfree] at hx
          exact absurd hx (by simp)
        have hpf : st1.filePtrs f = sb := by rw [hp1]; simp only [upd, if_true]
        have haf : st1.fileAccess f = FILEWRITE := by rw [ha1]; simp only [upd, if_true]
        refine chainsOK_update st st1 f R [] (hi1.trans h1) h2 h3 h4 h5
          (fun g hg => by rw [hp1]; simp only [upd, if_neg hg])
          (fun g hg => by rw [ha1]; simp only [upd, if_neg hg])
          (fun g hg => by rw [hfb1]; simp only [upd, if_neg hg])
          (Or.inr haf) (fun hc => by rw [hpf] at hc; exact absurd hc hnb) ?_ ?_
        · intro g hg hgf hexg x hx hxu
          refine ⟨by rw [hu1, if_neg (hne x hxu)]; exact hxu,
            by rw [he2, if_neg (hne x hxu)], ?_⟩
          intro _ hmem
          rw [hpf, List.mem_singleton] at hmem
          exact hne x hxu hmem
        · intro _
          refine ⟨sb, ?_, ?_, ?_, ?_⟩
          · rw [hpf]; rfl
          · intro b hb
            rw [hpf, List.mem_singleton] at hb
            subst hb
            exact ⟨hnb56, by rw [hu1, if_pos rfl]⟩
          · intro _
            refine ⟨by rw [hfb1]; simp only [upd, if_true], ?_⟩
            rw [getBlockPtr_eq, he2, if_pos rfl]
            decide
          · intro hcl
            rw [haf] at hcl
            exact absurd hcl (by decide)
    · obtain ⟨w, hw, hi1, hb1, hp1, ha1, hfb1, he1⟩ :=
        open_for_write_old_fields fuel st f r st1 hnew hacc ho
      obtain ⟨last, hl, hu, hwr, hc⟩ := h4 f hf hnew
      have htail := fileOK_tail st f last (fun hh1 => (hwr hh1).2) hc (h2 f hf)
      obtain ⟨w1, hw1, huw, hew⟩ := wipeLoop_linked (R f) ((R f).length + 1) _ last st hl
        (by rw [getBlockPtr_eq]; exact htail) (Nat.lt_succ_self _)
      have hww : w = w1 := wipeLoop_fuel _ _ _ _ _ _ hw hw1
      subst hww
      have hu1 : ∀ x, isInUse st1 x = (isInUse st x && !decide (x ∈ R f)) :=
        fun x => (isInUse_congr _ _ hb1 x).trans (huw x)
      have he2 : ∀ x, st1.eeprom (cell x 31)
          = if x = st.filePtrs f then NULLPTR else st.eeprom (cell x 31) := by
        intro x
        rw [he1]
        by_cases hx : x = st.filePtrs f
        · rw [if_pos (by rw [hx]), if_pos hx]
        · rw [if_neg (fun hc => hx (cell_31_inj _ _ hc)), if_neg hx]
          exact hew _ (by simp only [cell]; omega)
      have haf : st1.fileAccess f = FILEWRITE := by rw [ha1]; simp only [upd, if_true]
      have hsn := linked_start_not_mem _ _ _ _ hl htail
      refine chainsOK_update st st1 f R [] (hi1.trans h1) h2 h3 h4 h5
        (fun g _ => by rw [hp1])
        (fun g hg => by rw [ha1]; simp only [upd, if_neg hg])
        (fun g hg => by rw [hfb1]; simp only [upd, if_neg hg])
        (Or.inr haf) (fun hc => by rw [hp1] at hc; exact absurd hc hnew) ?_ ?_
      · intro g hg hgf hexg x hx hxu
        have hdis := h5 g f hg hf hgf hexg hnew x hx
        rw [List.mem_cons, not_or] at hdis
        refine ⟨?_, by rw [he2, if_neg hdis.1], ?_⟩
        · rw [hu1, hxu]
          simp [hdis.2]
        · intro _ hmem
          rw [hp1, List.mem_singleton] at hmem
          exact hdis.1 hmem
      · intro _
        refine ⟨st.filePtrs f, ?_, ?_, ?_, ?_⟩
        · rw [hp1]; rfl
        · intro b hb
          rw [hp1, List.mem_singleton] at hb
          subst hb
          have hst := hu (st.filePtrs f) (List.mem_cons_self _ _)
          refine ⟨hst.1, ?_⟩
          rw [hu1, hst.2]
          simp [hsn]
        · intro _
          refine ⟨by rw [hfb1]; simp only [upd, if_true], ?_⟩
          rw [getBlockPtr_eq, he2, if_pos rfl]
          decide
        · intro hcl
          rw [haf] at hcl
          exact absurd hcl (by decide)
  · unfold open_for_write at ho
    rw [if_pos hacc] at ho
    simp only [Option.some.injEq, Prod.mk.injEq] at ho
    obtain ⟨-, rfl⟩ := ho
    exact hok

/-- `close` keeps the invariant. -/
theorem close_chainsOK (st : FS) (f : Nat) (hf : f < MAXFILES) (hok : ChainsOK st) :
    ChainsOK (close st f).2 := by
  by_cases hex : st.filePtrs f = NULLPTR
  · simp only [close, if_pos hex]
    exact hok
  · by_cases hacc : st.fileAccess f = FILECLOSED
    · simp only [close, if_neg hex, if_pos hacc]
      exact hok
    · obtain ⟨h1, h2, h3, R, h4, h5⟩ := hok
      have haw : st.fileAccess f = FILEWRITE := by
        rcases h2 f hf with h | h
        · exact absurd h hacc
        · exact h
      obtain ⟨last, hl, hu, hwr, hc⟩ := h4 f hf hex
      obtain ⟨hfbl, hterm⟩ := hwr haw
      have hlm := linked_last_mem _ _ _ _ hl
      have hnn : st.fileBlock f ≠ NULLPTR := by
        rw [hfbl]
        have := (hu last hlm).1
        simp only [NULLPTR]
        omega
      have he2 : ∀ x, (close st f).2.eeprom (cell x 31)
          = if x = last then (st.filePosition f &&& 31) ||| ISLEN
            else st.eeprom (cell x 31) := by
        intro x
        rw [(close_of_open st f hex hacc).2.1, writeBlockLength_eeprom st f hnn, hfbl]
        by_cases hx : x = last
        · rw [if_pos (by rw [hx]), if_pos hx]
        · rw [if_neg (fun hc => hx (cell_31_inj _ _ hc)), if_neg hx]
      obtain ⟨-, -, hcp, hca, hcb, hci⟩ := close_of_open st f hex hacc
      have hcu : ∀ x, isInUse (close st f).2 x = isInUse st x :=
        fun x => isInUse_congr _ _ hcb x
      have hafo : ∀ g, g ≠ f → (close st f).2.fileAccess g = st.fileAccess g := by
        intro g hg
        simp only [close, if_neg hex, if_neg hacc, upd, if_neg hg]
        exact congrFun (writeBlockLength_fields st f).2.1 g
      have hfbo : ∀ g, g ≠ f → (close st f).2.fileBlock g = st.fileBlock g := by
        intro g hg
        simp only [close, if_neg hex, if_neg hacc, upd, if_neg hg, writeBlockLength, if_neg hnn,
          setBlockPtr]
      have htail := fileOK_tail st f last (fun hh1 => (hwr hh1).2) hc (h2 f hf)
      refine chainsOK_update st (close st f).2 f R (R f) (hci.trans h1) h2 h3 h4 h5
        (fun g _ => by rw [hcp]) hafo hfbo (Or.inl hca) (fun _ => hca) ?_ ?_
      · intro g hg hgf hexg x hx hxu
        have hdis := h5 g f hg hf hgf hexg hex x hx
        have hxl : x ≠ last := fun hc => hdis (hc ▸ hlm)
        refine ⟨by rw [hcu]; exact hxu, by rw [he2, if_neg hxl], ?_⟩
        intro _
        rw [hcp]
        exact hdis
      · intro _
        refine ⟨last, ?_, ?_, ?_, ?_⟩
        · rw [hcp]
          exact linked_frame _ _ _ _ _ hl htail (fun x _ hxl => by rw [he2, if_neg hxl])
        · intro b hb
          rw [hcp] at hb
          exact ⟨(hu b hb).1, by rw [hcu]; exact (hu b hb).2⟩
        · intro hcw
          rw [hca] at hcw
          exact absurd hcw (by decide)
        · intro _
          have hL : st.filePosition f &&& 31 < 32 := by
            rw [and31]; exact Nat.mod_lt _ (by decide)
          refine ⟨st.filePosition f &&& 31, by omega, ?_⟩
          rw [getBlockPtr_eq, he2, if_pos rfl, Nat.lor_comm 0x80]
          have := len_or_isLen _ hL
          simp only [ISLEN] at this ⊢
          rw [this]
          omega

/-- `write` of at most 65504 bytes on a handle below `MAXFILES` keeps the
invariant. -/
theorem write_chainsOK (fuel : Nat) (st : FS) (h : Int) (buffer : Mem) (size : Nat)
    (r : Int) (st1 : FS) (hh : 0 ≤ h ∧ h < (MAXFILES : Int)) (hsize : size ≤ 65504)
    (hw : write fuel st h buffer size = some (r, st1)) (hok : ChainsOK st) :
    ChainsOK st1 := by
  unfold write at hw
  split_ifs at hw with hr ha
  · simp only [Option.some.injEq, Prod.mk.injEq] at hw
    obtain ⟨-, rfl⟩ := hw
    exact hok
  · simp only [Option.some.injEq, Prod.mk.injEq] at hw
    obtain ⟨-, rfl⟩ := hw
    exact hok
  · have hlt : h.toNat < MAXFILES := by
      have := hh.2
      simp only [MAXFILES] at this ⊢
      omega
    exact writeLoop_chainsOK _ _ _ hlt hsize _ _ _ _ _ hw (by simpa using ha) hok

/-- A mount that formats the device establishes the invariant: no file exists. -/
theorem initEepfs_chainsOK (l : Layout) (pre : FS)
    (hfresh : eeprom_read_byte pre.eeprom CONFIGUREINDEX ≠ NUMBLOCKBYTES ^^^ 0xA1) :
    ChainsOK (initEepfs l pre) := by
  have hcl := (initEepfs_fresh_fields l pre hfresh).1
  have hno := fun f hf => initEepfs_fresh l pre f hf hfresh
  refine ⟨?_, fun f hf => Or.inl (hcl f hf), fun f hf _ => hcl f hf, fun _ => [], ?_, ?_⟩
  · simp only [initEepfs, hfresh, ne_eq, not_false_eq_true, if_true, setupEeprom]
  · intro f hf hex
    exact absurd (hno f hf) hex
  · intro f g hf _ _ hex
    exact absurd (hno f hf) hex

theorem reachableByWrites_chainsOK (st : FS) (h : ReachableByWrites st) : ChainsOK st := by
  induction h with
  | format l pre hfresh => exact initEepfs_chainsOK l pre hfresh
  | step c st st1 r _ hid hwp hrun ih =>
    cases c with
    | openRead file => exact absurd hwp (by simp [Call.onWritePath])
    | openAppend fuel file => exact absurd hwp (by simp [Call.onWritePath])
    | read fuel h buffer size => exact absurd hwp (by simp [Call.onWritePath])
    | delete fuel file => exact absurd hwp (by simp [Call.onWritePath])
    | openWrite fuel file => exact open_for_write_chainsOK fuel st file r st1 hid hrun ih
    | write fuel h buffer size => exact write_chainsOK fuel st h buffer size r st1 hid hwp hrun ih
    | close file =>
      simp only [Call.run, Option.some.injEq] at hrun
      have h2 := close_chainsOK st file hid ih
      rw [hrun] at h2
      exact h2

theorem freshMount_reachableByWrites : ReachableByWrites freshMount :=
  .format demoLayout (boot blankDevice) (by decide)

theorem demo31Closed_reachable : ReachableByWrites demo31Closed :=
  .step (.close 0) _ _ 0
    (.step (.write 9 0 (bufOf (demoBytes 31)) 31) _ _ 0
      (.step (.openWrite 1 0) _ _ 0 freshMount_reachableByWrites
        (show 0 < MAXFILES by decide) trivial rfl)
      (show (0 : Int) ≤ 0 ∧ (0 : Int) < (MAXFILES : Int) by decide)
      (show 31 ≤ 65504 by decide) rfl)
    (show 0 < MAXFILES by decide) trivial rfl

theorem demo40Closed_reachable : ReachableByWrites demo40Closed :=
  .step (.close 0) _ _ 0
    (.step (.write 9 0 (bufOf (demoBytes 40)) 40) _ _ 0
      (.step (.openWrite 1 0) _ _ 0 freshMount_reachableByWrites
        (show 0 < MAXFILES by decide) trivial rfl)
      (show (0 : Int) ≤ 0 ∧ (0 : Int) < (MAXFILES : Int) by decide)
      (show 40 ≤ 65504 by decide) rfl)
    (show 0 < MAXFILES by decide) trivial rfl

/-- C11, as the claim states it, fails at one write of exactly 31 bytes. After a
format, `open_for_write(0)` returns 0, `write` of 31 bytes returns 0 and `close(0)`
returns 0; file 0 exists, is CLOSED and consists of block 0 alone, and the
terminator of block 0 is `0x80 | 31` = 0x9F: it is not 0xFF and not `0x80 | L` for
any `L ≤ 30`. -/
theorem write_of_31_bytes_stamps_31 :
    ReachableByWrites demo31Closed ∧
    (Call.openWrite 1 0).run freshMount = some (0, after (.openWrite 1 0) freshMount) ∧
    (Call.write 9 0 (bufOf (demoBytes 31)) 31).run (after (.openWrite 1 0) freshMount)
      = some (0, after (.write 9 0 (bufOf (demoBytes 31)) 31)
          (after (.openWrite 1 0) freshMount)) ∧
    (close (after (.write 9 0 (bufOf (demoBytes 31)) 31)
      (after (.openWrite 1 0) freshMount)) 0).1 = 0 ∧
    fileExists demo31Closed 0 = true ∧ demo31Closed.fileAccess 0 = FILECLOSED ∧
    Linked demo31Closed.eeprom [] (demo31Closed.filePtrs 0) 0 ∧
    getBlockPtr demo31Closed 0 = 0x80 ||| 31 ∧ getBlockPtr demo31Closed 0 = 0x9F ∧
    getBlockPtr demo31Closed 0 ≠ 0xFF ∧
    ∀ L, L ≤ 30 → getBlockPtr demo31Closed 0 ≠ 0x80 ||| L := by
  have h9F : getBlockPtr demo31Closed 0 = 0x9F := by rfl
  refine ⟨demo31Closed_reachable, by rfl, by rfl, by rfl, by rfl, by rfl, by rfl, by rfl, h9F,
    by rw [h9F]; decide, ?_⟩
  rw [h9F]
  decide

/-- C11, amended. In every state reached from a mount that formats the device by
`open_for_write`, `close` and `write` calls (ids below 61, at most 65504 bytes per
`write`), every existing file `f` with no open WRITE handle has a chain from its
start block to a last block whose terminator is `0x80 | L` with `0 ≤ L ≤ 31`. -/
theorem terminator_at_rest (st : FS) (hreach : ReachableByWrites st) (f : Nat)
    (hf : f < MAXFILES) (hex : fileExists st f = true) (hrest : st.fileAccess f ≠ FILEWRITE) :
    ∃ rest last L, Linked st.eeprom rest (st.filePtrs f) last ∧ L ≤ 31 ∧
      getBlockPtr st last = 0x80 ||| L := by
  obtain ⟨-, h2, -, R, h4, -⟩ := reachableByWrites_chainsOK st hreach
  have hex1 : st.filePtrs f ≠ NULLPTR := by simpa [fileExists] using hex
  obtain ⟨last, hl, -, -, hc⟩ := h4 f hf hex1
  have hcl : st.fileAccess f = FILECLOSED := by
    rcases h2 f hf with h | h
    · exact h
    · exact absurd h hrest
  obtain ⟨L, hL, hg⟩ := hc hcl
  exact ⟨R f, last, L, hl, hL, hg⟩

theorem terminator_at_rest_witness :
    fileExists demo40Closed 0 = true ∧ demo40Closed.fileAccess 0 ≠ FILEWRITE ∧
    ∃ rest last L, Linked demo40Closed.eeprom rest (demo40Closed.filePtrs 0) last ∧ L ≤ 31 ∧
      getBlockPtr demo40Closed last = 0x80 ||| L :=
  ⟨by rfl, by decide,
    terminator_at_rest demo40Closed demo40Closed_reachable 0 (by decide) (by rfl) (by decide)⟩

/-! ## Reading round a cycle -/

/-- C15 on an EEPROM that `initEepfs` itself has formatted. A zero-filled EEPROM
has no magic, so the mount formats it; `open_for_write(3)` returns 3, `write` of
40 bytes returns 0 and `close(3)` returns 0. A cold mount of the device contents
then finds the magic, takes the branch for a formatted device and sees file 3,
but the mirrors it loads differ from the mirrors before the remount: bitmap bytes
1..6 are 0 where they were 255, and every pointer is 0 where all but that of file
3 were 0xFF, so that all 61 files now exist. -/
theorem remount_after_format_differs :
    eeprom_read_byte zeroDevice CONFIGUREINDEX ≠ NUMBLOCKBYTES ^^^ 0xA1 ∧
    (Call.openWrite 1 3).run zeroFormat = some (3, after (.openWrite 1 3) zeroFormat) ∧
    (Call.write 9 3 (bufOf (demoBytes 40)) 40).run (after (.openWrite 1 3) zeroFormat)
      = some (0, after (.write 9 3 (bufOf (demoBytes 40)) 40)
          (after (.openWrite 1 3) zeroFormat)) ∧
    (close (after (.write 9 3 (bufOf (demoBytes 40)) 40)
      (after (.openWrite 1 3) zeroFormat)) 3).1 = 0 ∧
    eeprom_read_byte zero40Closed.eeprom CONFIGUREINDEX = NUMBLOCKBYTES ^^^ 0xA1 ∧
    (initEepfs demoLayout (boot zero40Closed.eeprom)).eeprom = zero40Closed.eeprom ∧
    fileExists (initEepfs demoLayout (boot zero40Closed.eeprom)) 3 = true ∧
    (List.range 7).map zero40Closed.blocks = [252, 255, 255, 255, 255, 255, 255] ∧
    (List.range 7).map (initEepfs demoLayout (boot zero40Closed.eeprom)).blocks
      = [252, 0, 0, 0, 0, 0, 0] ∧
    (List.range 61).map zero40Closed.filePtrs
      = [255, 255, 255, 0] ++ List.replicate 57 255 ∧
    (List.range 61).map (initEepfs demoLayout (boot zero40Closed.eeprom)).filePtrs
      = List.replicate 61 0 ∧
    fileExists zero40Closed 0 = false ∧
    fileExists (initEepfs demoLayout (boot zero40Closed.eeprom)) 0 = true := by
  refine ⟨by decide, by rfl, by rfl, by rfl, by rfl, by rfl, by rfl, by rfl, by rfl, by rfl,
    by rfl, by rfl, by rfl⟩

/-- C6 on an EEPROM that `initEepfs` itself has formatted. After the format of a
zero-filled EEPROM the bitmap mirror is all-ones while the device copy still
reads 0 in all seven bytes. `open_for_write(2)` returns 2, `write` of 200 bytes
returns 0, `close(2)` returns 0 and `delete_file(2)` returns 0; file 2 is gone
and the mirror is all-ones again, but the device copy now reads 255 in its first
byte: it equals neither the bitmap after the format nor its own value then. -/
theorem device_bitmap_differs_after_delete :
    eeprom_read_byte zeroDevice CONFIGUREINDEX ≠ NUMBLOCKBYTES ^^^ 0xA1 ∧
    fileExists zeroFormat 2 = false ∧
    (List.range 7).map zeroFormat.blocks = List.replicate 7 255 ∧
    deviceBitmap zeroFormat = List.replicate 7 0 ∧
    (Call.openWrite 1 2).run zeroFormat = some (2, after (.openWrite 1 2) zeroFormat) ∧
    (Call.write 9 2 (bufOf (demoBytes 200)) 200).run (after (.openWrite 1 2) zeroFormat)
      = some (0, after (.write 9 2 (bufOf (demoBytes 200)) 200)
          (after (.openWrite 1 2) zeroFormat)) ∧
    (close (after (.write 9 2 (bufOf (demoBytes 200)) 200)
      (after (.openWrite 1 2) zeroFormat)) 2).1 = 0 ∧
    (Call.delete 9 2).run zero200Closed = some (0, after (.delete 9 2) zero200Closed) ∧
    fileExists (after (.delete 9 2) zero200Closed) 2 = false ∧
    (List.range 7).map (after (.delete 9 2) zero200Closed).blocks = List.replicate 7 255 ∧
    deviceBitmap (after (.delete 9 2) zero200Closed) = [255, 0, 0, 0, 0, 0, 0] := by
  refine ⟨by decide, by rfl, by rfl, by rfl, by rfl, by rfl, by rfl, by rfl, by rfl, by rfl,
    by rfl⟩

end EepromFS
